import Mathlib

set_option maxRecDepth 8000

namespace C11Tester

/-- A vertex of the modification-order cycle graph (`CycleNode` in cyclegraph.cc).
`edges` are the forward edges, `back_edges` the incoming edges (kept in sync by
`CycleNode::addEdge`), `rmw` is the unique RMW successor (`hasRMW` in the source),
`promise` tags promise placeholder nodes, and `deleted` marks nodes freed by
`CycleGraph::mergeNodes`. Nodes are identified by their position in the store. -/
structure CycleNodeData where
  edges : List Nat
  back_edges : List Nat
  rmw : Option Nat
  promise : Bool
  deleted : Bool
deriving DecidableEq

instance : Inhabited CycleNodeData := ⟨⟨[], [], none, false, false⟩⟩

/-- The `CycleGraph` state: the node store, the cycle flag `hasCycles`, the value
`oldCycles` snapshotted at the last commit, and the two per-transaction undo logs
(`rollbackvector` logs nodes that gained a forward edge, `rmwrollbackvector`
logs nodes whose rmw successor was set). -/
structure CycleGraphState where
  nodes : List CycleNodeData
  hasCycles : Bool
  oldCycles : Bool
  rollbackvector : List Nat
  rmwrollbackvector : List Nat
deriving DecidableEq

/-- Read a node from the store (an out-of-range id reads as an empty node). -/
def CycleGraphState.nodeAt (s : CycleGraphState) (n : Nat) : CycleNodeData :=
  s.nodes.getD n default

/-- Replace a node in the store. -/
def CycleGraphState.setNode (s : CycleGraphState) (n : Nat) (d : CycleNodeData) :
    CycleGraphState :=
  { s with nodes := s.nodes.set n d }

/-- `CycleNode::addEdge` (cyclegraph.cc:467-475): append a forward edge u→v unless
it already exists, and append u to v's back edge list when it is new.
Returns whether the edge was newly added. -/
def addEdge (s : CycleGraphState) (u v : Nat) : Bool × CycleGraphState :=
  let nu := s.nodeAt u
  if v ∈ nu.edges then (false, s)
  else
    let s1 := s.setNode u { nu with edges := nu.edges ++ [v] }
    let nv := s1.nodeAt v
    (true, s1.setNode v { nv with back_edges := nv.back_edges ++ [u] })

/-- `CycleNode::removeEdge` (cyclegraph.cc:436-445): pop the last forward edge of
`p` and erase the matching entry from the popped target's back edge list
(`vector_remove_node` erases the first occurrence). -/
def removeEdge (s : CycleGraphState) (p : Nat) : Option Nat × CycleGraphState :=
  let np := s.nodeAt p
  match np.edges.getLast? with
  | none => (none, s)
  | some ret =>
    let s1 := s.setNode p { np with edges := np.edges.dropLast }
    let nr := s1.nodeAt ret
    (some ret, s1.setNode ret { nr with back_edges := nr.back_edges.erase p })

/-- `CycleNode::removeBackEdge` (cyclegraph.cc:451-460): pop the last back edge of
`p` and erase the matching entry from the popped source's forward edge list. -/
def removeBackEdge (s : CycleGraphState) (p : Nat) : Option Nat × CycleGraphState :=
  let np := s.nodeAt p
  match np.back_edges.getLast? with
  | none => (none, s)
  | some ret =>
    let s1 := s.setNode p { np with back_edges := np.back_edges.dropLast }
    let nr := s1.nodeAt ret
    (some ret, s1.setNode ret { nr with edges := nr.edges.erase p })

/-- `CycleNode::setRMW` (cyclegraph.cc:489-495): set the rmw successor unless one
is already present; returns true when it was already set. -/
def setRMW (s : CycleGraphState) (u v : Nat) : Bool × CycleGraphState :=
  let nu := s.nodeAt u
  match nu.rmw with
  | some _ => (true, s)
  | none => (false, s.setNode u { nu with rmw := some v })

/-- Modelled from the spec: `CycleNode::popEdge` is declared in cyclegraph.h, which
is not among the provided source files; only its caller
`CycleGraph::rollbackChanges` (cyclegraph.cc:350-351) is. The spec says rollback
"pops every edge pushed since `begin_txn`" and demands the edge-symmetry
invariant for every operation sequence, so popping removes the most recently
pushed forward edge together with its matching back edge. -/
def popEdge (s : CycleGraphState) (u : Nat) : CycleGraphState :=
  (removeEdge s u).2

/-- Modelled from the spec: `CycleNode::clearRMW` is declared in cyclegraph.h, which
is not among the provided source files; only its caller
`CycleGraph::rollbackChanges` (cyclegraph.cc:353-354) is. The spec says rollback
"clears every `rmw_successor` set in this txn". -/
def clearRMW (s : CycleGraphState) (u : Nat) : CycleGraphState :=
  let nu := s.nodeAt u
  s.setNode u { nu with rmw := none }

/-- Total number of forward-edge entries in the node store. -/
def totalEdges (s : CycleGraphState) : Nat :=
  s.nodes.foldr (fun nd acc => nd.edges.length + acc) 0

/-- One expansion step of `CycleGraph::checkReachable`'s worklist loop
(cyclegraph.cc:293-299): push each undiscovered successor onto the stack and the
discovered set. The C++ code pushes to the vector's back and pops from the back;
here the stack top is the list head, so successive pushes cons in order. -/
def pushSuccs (l : List Nat) (qd : List Nat × List Nat) : List Nat × List Nat :=
  l.foldl (fun qd e => if e ∈ qd.2 then qd else (e :: qd.1, e :: qd.2)) qd

/-- The loop of `CycleGraph::checkReachable` (cyclegraph.cc:287-300), with fuel.
Each C++ iteration pops one worklist entry, and an entry is pushed at most once
because pushing also marks it discovered; the wrapper below supplies fuel
exceeding the possible iteration count, so the fuel-0 case is never reached on
the wrapper's calls. -/
def checkReachableAux (s : CycleGraphState) (tgt : Nat) :
    Nat → List Nat → List Nat → Bool
  | 0, _, _ => false
  | fuel+1, queue, disc =>
    match queue with
    | [] => false
    | n :: rest =>
      if n = tgt then true
      else
        let qd := pushSuccs (s.nodeAt n).edges (rest, disc)
        checkReachableAux s tgt fuel qd.1 qd.2

/-- `CycleGraph::checkReachable` (cyclegraph.cc:280-302): iterative search from
`src` for `tgt` over forward edges with a discovered set. -/
def checkReachable (s : CycleGraphState) (src tgt : Nat) : Bool :=
  checkReachableAux s tgt (totalEdges s + s.nodes.length + 1) [src] [src]

/-- The cycle test guarding an edge insertion in `CycleGraph::addNodeEdge`
(cyclegraph.cc:177-178 and 189-190): when `hasCycles` is not yet raised, set it
to whether `src` already reaches `tgt`. -/
def maybeRaiseCycle (s : CycleGraphState) (src tgt : Nat) : CycleGraphState :=
  if s.hasCycles then s else { s with hasCycles := checkReachable s src tgt }

/-- Push `w` onto `rollbackvector` when the paired `CycleNode::addEdge` call
reported a new edge (cyclegraph.cc:180-181, 192-193 and 236-237). -/
def logIfAdded (w : Nat) (a : Bool × CycleGraphState) : Bool × CycleGraphState :=
  if a.1 then (a.1, { a.2 with rollbackvector := a.2.rollbackvector ++ [w] })
  else a

/-- `CycleGraph::addNodeEdge` (cyclegraph.cc:173-198): run the reachability test
(raising `hasCycles` when the target already reaches the source), insert the
edge u→v, log it for rollback when new, and repeat for u's rmw successor when it
differs from v. Returns whether any new edge was added. -/
def addNodeEdge (s : CycleGraphState) (u v : Nat) : Bool × CycleGraphState :=
  let a1 := logIfAdded u (addEdge (maybeRaiseCycle s v u) u v)
  match (a1.2.nodeAt u).rmw with
  | none => a1
  | some r =>
    if r = v then a1
    else
      let a2 := logIfAdded r (addEdge (maybeRaiseCycle a1.2 v r) r v)
      (a1.1 || a2.1, a2.2)

/-- One migration step of `CycleGraph::addRMWEdge` (cyclegraph.cc:233-239): copy
one outgoing edge of the base write onto the rmw node `v`, skipping an edge to
`v` itself, and log the copy for rollback when new. -/
def migrateStep (v : Nat) (acc : CycleGraphState) (t : Nat) : CycleGraphState :=
  if t = v then acc else (logIfAdded v (addEdge acc v t)).2

/-- `CycleGraph::addRMWEdge` (cyclegraph.cc:212-242), assembled from the pieces
above: set the rmw successor (or raise `hasCycles`), migrate the base node's
outgoing edges, then `addNodeEdge`. -/
def addRMWEdge (s : CycleGraphState) (u v : Nat) : CycleGraphState :=
  let p := setRMW s u v
  let s2 := if p.1 then { p.2 with hasCycles := true }
    else { p.2 with rmwrollbackvector := p.2.rmwrollbackvector ++ [u] }
  let s3 := ((s2.nodeAt u).edges).foldl (migrateStep v) s2
  (addNodeEdge s3 u v).2

/-- Selector for the three mutually recursive routines of
`CycleGraph::mergeNodes` (cyclegraph.cc:116-165): the merge entry point, the
back-edge transfer loop and the forward-edge transfer loop. A single
fuel-indexed dispatcher keeps the recursion structural so that it reduces in
the kernel. -/
inductive MergeCall where
  | main (w p : Nat)
  | backs (w p : Nat)
  | fwds (w p : Nat)

/-- The recursive worker behind `mergeNodes`, `mergeBackLoop` and
`mergeForwardLoop` below; see their doc comments for the correspondence with
cyclegraph.cc. Fuel decreases on every loop iteration and recursive merge;
terminating C++ runs correspond to a large enough fuel, and exhausted fuel
returns failure with the state unchanged. -/
def mergeRun (compat : Nat → Nat → Bool) :
    Nat → MergeCall → CycleGraphState → List Nat →
    Bool × CycleGraphState × List Nat
  | 0, _, s, mm => (false, s, mm)
  | fuel+1, .main w p, s, mm =>
    if compat p w then
      match mergeRun compat fuel (.backs w p) s mm with
      | (false, s1, mm1) => (false, s1, mm1)
      | (true, s1, mm1) =>
        match mergeRun compat fuel (.fwds w p) s1 mm1 with
        | (false, s2, mm2) => (false, s2, mm2)
        | (true, s2, mm2) =>
          let np := s2.nodeAt p
          let s3 := s2.setNode p { np with deleted := true, promise := false }
          (!s3.hasCycles, s3, mm2)
    else (false, { s with hasCycles := true }, mm)
  | fuel+1, .backs w p, s, mm =>
    if (s.nodeAt p).back_edges.isEmpty then (true, s, mm)
    else
      let r := removeBackEdge s p
      match r.1 with
      | none => (true, r.2, mm)
      | some b =>
        if b = w then mergeRun compat fuel (.backs w p) r.2 mm
        else if (r.2.nodeAt b).promise then
          if checkReachable r.2 w b then
            match mergeRun compat fuel (.main w b) r.2 (mm ++ [b]) with
            | (false, s2, mm2) => (false, s2, mm2)
            | (true, s2, mm2) => mergeRun compat fuel (.backs w p) s2 mm2
          else
            mergeRun compat fuel (.backs w p) (addEdge r.2 b w).2 mm
        else
          mergeRun compat fuel (.backs w p) (addNodeEdge r.2 b w).2 mm
  | fuel+1, .fwds w p, s, mm =>
    if (s.nodeAt p).edges.isEmpty then (true, s, mm)
    else
      let r := removeEdge s p
      match r.1 with
      | none => (true, r.2, mm)
      | some fwd =>
        if fwd = w then mergeRun compat fuel (.fwds w p) r.2 mm
        else if (r.2.nodeAt fwd).promise then
          if checkReachable r.2 fwd w then
            match mergeRun compat fuel (.main w fwd) r.2 (mm ++ [fwd]) with
            | (false, s2, mm2) => (false, s2, mm2)
            | (true, s2, mm2) => mergeRun compat fuel (.fwds w p) s2 mm2
          else
            mergeRun compat fuel (.fwds w p) (addEdge r.2 w fwd).2 mm
        else
          mergeRun compat fuel (.fwds w p) (addNodeEdge r.2 w fwd).2 mm

/-- `CycleGraph::mergeNodes` (cyclegraph.cc:116-165): merge promise node `p` into
concrete node `w`. `compat p w` stands for
`promise->is_compatible(w_node->getAction())`, whose implementation lives in
promise.h/promise.cc outside the provided sources; it is passed in as a
parameter. Incompatibility raises `hasCycles` and fails. The two transfer loops
move p's back and forward edges onto `w`, recursively merging promise
neighbours whose redirected edge would close a cycle and collecting them in the
`mustMerge` list `mm`. The node is then deleted and success is `!hasCycles`. -/
def mergeNodes (compat : Nat → Nat → Bool) (fuel w p : Nat)
    (s : CycleGraphState) (mm : List Nat) : Bool × CycleGraphState × List Nat :=
  mergeRun compat fuel (.main w p) s mm

/-- The back-edge transfer loop of `CycleGraph::mergeNodes` (cyclegraph.cc:128-142):
repeatedly remove a back edge b→p; when b is the write node itself, drop it;
when b is a promise whose redirect would close a cycle (w already reaches b),
record b in `mustMerge` and recurse; when b is a promise otherwise, redirect by
a raw `CycleNode::addEdge`; when b is concrete, redirect through
`CycleGraph::addNodeEdge`. Returns false when a recursive merge failed. -/
def mergeBackLoop (compat : Nat → Nat → Bool) (fuel w p : Nat)
    (s : CycleGraphState) (mm : List Nat) : Bool × CycleGraphState × List Nat :=
  mergeRun compat fuel (.backs w p) s mm

/-- The forward-edge transfer loop of `CycleGraph::mergeNodes`
(cyclegraph.cc:145-158), symmetric to the back-edge loop. -/
def mergeForwardLoop (compat : Nat → Nat → Bool) (fuel w p : Nat)
    (s : CycleGraphState) (mm : List Nat) : Bool × CycleGraphState × List Nat :=
  mergeRun compat fuel (.fwds w p) s mm

theorem mergeNodes_zero (compat : Nat → Nat → Bool) (w p : Nat)
    (s : CycleGraphState) (mm : List Nat) :
    mergeNodes compat 0 w p s mm = (false, s, mm) := rfl

theorem mergeBackLoop_zero (compat : Nat → Nat → Bool) (w p : Nat)
    (s : CycleGraphState) (mm : List Nat) :
    mergeBackLoop compat 0 w p s mm = (false, s, mm) := rfl

theorem mergeForwardLoop_zero (compat : Nat → Nat → Bool) (w p : Nat)
    (s : CycleGraphState) (mm : List Nat) :
    mergeForwardLoop compat 0 w p s mm = (false, s, mm) := rfl

theorem mergeNodes_succ (compat : Nat → Nat → Bool) (fuel w p : Nat)
    (s : CycleGraphState) (mm : List Nat) :
    mergeNodes compat (fuel+1) w p s mm =
      (if compat p w then
        match mergeBackLoop compat fuel w p s mm with
        | (false, s1, mm1) => (false, s1, mm1)
        | (true, s1, mm1) =>
          match mergeForwardLoop compat fuel w p s1 mm1 with
          | (false, s2, mm2) => (false, s2, mm2)
          | (true, s2, mm2) =>
            (!(s2.setNode p { s2.nodeAt p with deleted := true, promise := false }).hasCycles,
             s2.setNode p { s2.nodeAt p with deleted := true, promise := false },
             mm2)
      else (false, { s with hasCycles := true }, mm)) := rfl

theorem mergeBackLoop_succ (compat : Nat → Nat → Bool) (fuel w p : Nat)
    (s : CycleGraphState) (mm : List Nat) :
    mergeBackLoop compat (fuel+1) w p s mm =
      (if (s.nodeAt p).back_edges.isEmpty then (true, s, mm)
       else
        match (removeBackEdge s p).1 with
        | none => (true, (removeBackEdge s p).2, mm)
        | some b =>
          if b = w then mergeBackLoop compat fuel w p (removeBackEdge s p).2 mm
          else if ((removeBackEdge s p).2.nodeAt b).promise then
            if checkReachable (removeBackEdge s p).2 w b then
              match mergeNodes compat fuel w b (removeBackEdge s p).2 (mm ++ [b]) with
              | (false, s2, mm2) => (false, s2, mm2)
              | (true, s2, mm2) => mergeBackLoop compat fuel w p s2 mm2
            else
              mergeBackLoop compat fuel w p (addEdge (removeBackEdge s p).2 b w).2 mm
          else
            mergeBackLoop compat fuel w p (addNodeEdge (removeBackEdge s p).2 b w).2 mm) := rfl

theorem mergeForwardLoop_succ (compat : Nat → Nat → Bool) (fuel w p : Nat)
    (s : CycleGraphState) (mm : List Nat) :
    mergeForwardLoop compat (fuel+1) w p s mm =
      (if (s.nodeAt p).edges.isEmpty then (true, s, mm)
       else
        match (removeEdge s p).1 with
        | none => (true, (removeEdge s p).2, mm)
        | some fwd =>
          if fwd = w then mergeForwardLoop compat fuel w p (removeEdge s p).2 mm
          else if ((removeEdge s p).2.nodeAt fwd).promise then
            if checkReachable (removeEdge s p).2 fwd w then
              match mergeNodes compat fuel w fwd (removeEdge s p).2 (mm ++ [fwd]) with
              | (false, s2, mm2) => (false, s2, mm2)
              | (true, s2, mm2) => mergeForwardLoop compat fuel w p s2 mm2
            else
              mergeForwardLoop compat fuel w p (addEdge (removeEdge s p).2 w fwd).2 mm
          else
            mergeForwardLoop compat fuel w p (addNodeEdge (removeEdge s p).2 w fwd).2 mm) := rfl

/-- `CycleGraph::resolvePromise` (cyclegraph.cc:87-101), at the node level: when a
concrete node for the writer already exists (`w? = some w`) the promise node is
merged into it; otherwise the promise node is converted in place
(`CycleNode::resolvePromise`, cyclegraph.cc:504-511). -/
def resolvePromise (compat : Nat → Nat → Bool) (fuel : Nat) (w? : Option Nat)
    (p : Nat) (s : CycleGraphState) (mm : List Nat) :
    Bool × CycleGraphState × List Nat :=
  match w? with
  | some w => mergeNodes compat fuel w p s mm
  | none =>
    let np := s.nodeAt p
    (true, s.setNode p { np with promise := false }, mm)

/-- `CycleGraph::commitChanges` (cyclegraph.cc:340-345). -/
def commitChanges (s : CycleGraphState) : CycleGraphState :=
  { s with rollbackvector := [], rmwrollbackvector := [], oldCycles := s.hasCycles }

/-- `CycleGraph::rollbackChanges` (cyclegraph.cc:348-359): pop the logged edges,
clear the logged rmw successors, restore `hasCycles` from `oldCycles`, and clear
both logs. -/
def rollbackChanges (s : CycleGraphState) : CycleGraphState :=
  let s1 := s.rollbackvector.foldl popEdge s
  let s2 := s.rmwrollbackvector.foldl clearRMW s1
  { s2 with hasCycles := s.oldCycles, rollbackvector := [], rmwrollbackvector := [] }

/-- `CycleGraph::startChanges` (cyclegraph.cc:332-337) only asserts that both undo
logs are empty and that `oldCycles` agrees with `hasCycles`; as a state
predicate it characterises a transaction start. -/
def atTxnStart (s : CycleGraphState) : Prop :=
  s.rollbackvector = [] ∧ s.rmwrollbackvector = [] ∧ s.oldCycles = s.hasCycles

instance (s : CycleGraphState) : Decidable (atTxnStart s) := by
  unfold atTxnStart; infer_instance

/-- A public mutating operation of the edge-insertion interface: `add_edge`
(`CycleGraph::addNodeEdge` reached from `addEdges`) or `add_rmw_edge`
(`CycleGraph::addRMWEdge`), identified by the node ids of the two actions. -/
inductive TxnOp where
  | addedge (u v : Nat)
  | addrmw (u v : Nat)
deriving DecidableEq

/-- Apply one operation to a graph state. -/
def applyTxnOp (s : CycleGraphState) : TxnOp → CycleGraphState
  | .addedge u v => (addNodeEdge s u v).2
  | .addrmw u v => addRMWEdge s u v

/-- Apply a list of operations left to right. -/
def applyTxnOps (s : CycleGraphState) (ops : List TxnOp) : CycleGraphState :=
  ops.foldl applyTxnOp s

/-- All node ids named by an operation exist in the store (the C++ looks nodes up
through `getNode`, which creates missing nodes before any edge is touched; the
embedding works on a pre-created node universe). -/
def opIdsOk (s : CycleGraphState) : TxnOp → Prop
  | .addedge u v => u < s.nodes.length ∧ v < s.nodes.length
  | .addrmw u v => u < s.nodes.length ∧ v < s.nodes.length

instance (s : CycleGraphState) (op : TxnOp) : Decidable (opIdsOk s op) := by
  cases op <;> (unfold opIdsOk; infer_instance)

/-- Wellformedness of a graph state: forward and back edge lists are
duplicate-free, refer to existing nodes, and record exactly the same edge set
(the spec's edge-symmetry invariant). -/
def WF (s : CycleGraphState) : Prop :=
  ∀ n < s.nodes.length,
    (s.nodeAt n).edges.Nodup ∧ (s.nodeAt n).back_edges.Nodup ∧
    (∀ m ∈ (s.nodeAt n).edges, m < s.nodes.length) ∧
    (∀ m ∈ (s.nodeAt n).back_edges, m < s.nodes.length) ∧
    (∀ m < s.nodes.length, (m ∈ (s.nodeAt n).edges ↔ n ∈ (s.nodeAt m).back_edges))

instance (s : CycleGraphState) : Decidable (WF s) := by
  unfold WF; infer_instance

/-- The one-step edge relation of the graph as the claims read it: forward edges
together with the rmw successor link. -/
def stepRel (s : CycleGraphState) (a b : Nat) : Prop :=
  b ∈ (s.nodeAt a).edges ∨ (s.nodeAt a).rmw = some b

/-- The forward-edge-only step relation, which `checkReachable` explores. -/
def edgeStep (s : CycleGraphState) (a b : Nat) : Prop :=
  b ∈ (s.nodeAt a).edges

/-- Reachability along forward edges. -/
def Reach (s : CycleGraphState) (a b : Nat) : Prop :=
  Relation.ReflTransGen (edgeStep s) a b

/-- The graph has a cycle: some node reaches itself by a nonempty path of
forward + rmw edges. -/
def HasCycle (s : CycleGraphState) : Prop :=
  ∃ a, Relation.TransGen (stepRel s) a a

/-- A graph state with `n` isolated concrete nodes, no cycles and empty logs:
the state of a fresh `CycleGraph` after creating `n` nodes. -/
def mkInit (n : Nat) : CycleGraphState :=
  { nodes := List.replicate n default
    hasCycles := false
    oldCycles := false
    rollbackvector := []
    rmwrollbackvector := [] }

section BasicLemmas

theorem nodeAt_setNode (s : CycleGraphState) (a : Nat) (d : CycleNodeData) (n : Nat) :
    (s.setNode a d).nodeAt n =
      if a = n ∧ a < s.nodes.length then d else s.nodeAt n := by
  unfold CycleGraphState.setNode CycleGraphState.nodeAt
  simp only [List.getD_eq_getElem?_getD]
  rcases Decidable.em (a = n) with rfl | hne
  · rcases Decidable.em (a < s.nodes.length) with hlt | hge
    · simp [List.getElem?_set_self', hlt]
    · rw [List.set_eq_of_length_le (Nat.le_of_not_lt hge)]
      simp [hge]
  · rw [List.getElem?_set_ne hne]
    simp [hne]

theorem length_setNode (s : CycleGraphState) (a : Nat) (d : CycleNodeData) :
    (s.setNode a d).nodes.length = s.nodes.length := by
  simp [CycleGraphState.setNode]

theorem nodeAt_setNode_comp {β : Type} (f : CycleNodeData → β) {s : CycleGraphState}
    {a : Nat} {d : CycleNodeData} (n : Nat) (h : f d = f (s.nodeAt a)) :
    f ((s.setNode a d).nodeAt n) = f (s.nodeAt n) := by
  rw [nodeAt_setNode]; split_ifs with hc
  · rcases hc with ⟨rfl, _⟩; exact h
  · rfl

theorem foldl_pres {α β : Type} (g : CycleGraphState → α → CycleGraphState)
    (m : CycleGraphState → β) (h : ∀ s x, m (g s x) = m s) :
    ∀ (l : List α) (s : CycleGraphState), m (List.foldl g s l) = m s := by
  intro l
  induction l with
  | nil => intro s; rfl
  | cons x xs ih => intro s; rw [List.foldl_cons, ih, h]

theorem addEdge_length (s : CycleGraphState) (u v : Nat) :
    (addEdge s u v).2.nodes.length = s.nodes.length := by
  unfold addEdge; dsimp only; split <;> simp [length_setNode]

theorem addEdge_hasCycles (s : CycleGraphState) (u v : Nat) :
    (addEdge s u v).2.hasCycles = s.hasCycles := by
  unfold addEdge; dsimp only; split <;> simp [CycleGraphState.setNode]

theorem addEdge_oldCycles (s : CycleGraphState) (u v : Nat) :
    (addEdge s u v).2.oldCycles = s.oldCycles := by
  unfold addEdge; dsimp only; split <;> simp [CycleGraphState.setNode]

theorem addEdge_rollbackvector (s : CycleGraphState) (u v : Nat) :
    (addEdge s u v).2.rollbackvector = s.rollbackvector := by
  unfold addEdge; dsimp only; split <;> simp [CycleGraphState.setNode]

theorem addEdge_rmwrollbackvector (s : CycleGraphState) (u v : Nat) :
    (addEdge s u v).2.rmwrollbackvector = s.rmwrollbackvector := by
  unfold addEdge; dsimp only; split <;> simp [CycleGraphState.setNode]

theorem addEdge_nodeAt_rmw (s : CycleGraphState) (u v n : Nat) :
    ((addEdge s u v).2.nodeAt n).rmw = (s.nodeAt n).rmw := by
  unfold addEdge; dsimp only; split
  · rfl
  · simp only [nodeAt_setNode, length_setNode]
    split_ifs <;> simp_all

theorem addEdge_nodeAt_promise (s : CycleGraphState) (u v n : Nat) :
    ((addEdge s u v).2.nodeAt n).promise = (s.nodeAt n).promise := by
  unfold addEdge; dsimp only; split
  · rfl
  · simp only [nodeAt_setNode, length_setNode]
    split_ifs <;> simp_all

theorem addEdge_nodeAt_deleted (s : CycleGraphState) (u v n : Nat) :
    ((addEdge s u v).2.nodeAt n).deleted = (s.nodeAt n).deleted := by
  unfold addEdge; dsimp only; split
  · rfl
  · simp only [nodeAt_setNode, length_setNode]
    split_ifs <;> simp_all

theorem setRMW_length (s : CycleGraphState) (u v : Nat) :
    (setRMW s u v).2.nodes.length = s.nodes.length := by
  unfold setRMW; dsimp only; split <;> simp [length_setNode]

theorem setRMW_scalars (s : CycleGraphState) (u v : Nat) :
    (setRMW s u v).2.hasCycles = s.hasCycles ∧
    (setRMW s u v).2.oldCycles = s.oldCycles ∧
    (setRMW s u v).2.rollbackvector = s.rollbackvector ∧
    (setRMW s u v).2.rmwrollbackvector = s.rmwrollbackvector := by
  unfold setRMW; dsimp only; split <;> simp [CycleGraphState.setNode]

theorem setRMW_nodeAt_edges (s : CycleGraphState) (u v n : Nat) :
    ((setRMW s u v).2.nodeAt n).edges = (s.nodeAt n).edges := by
  unfold setRMW; dsimp only; split
  · rfl
  · simp only [nodeAt_setNode]
    split_ifs <;> simp_all

theorem setRMW_nodeAt_back (s : CycleGraphState) (u v n : Nat) :
    ((setRMW s u v).2.nodeAt n).back_edges = (s.nodeAt n).back_edges := by
  unfold setRMW; dsimp only; split
  · rfl
  · simp only [nodeAt_setNode]
    split_ifs <;> simp_all

theorem nodeAt_withHasCycles (s : CycleGraphState) (b : Bool) (n : Nat) :
    ({ s with hasCycles := b } : CycleGraphState).nodeAt n = s.nodeAt n := rfl

theorem nodeAt_withRollback (s : CycleGraphState) (l : List Nat) (n : Nat) :
    ({ s with rollbackvector := l } : CycleGraphState).nodeAt n = s.nodeAt n := rfl

theorem nodeAt_withRmwRollback (s : CycleGraphState) (l : List Nat) (n : Nat) :
    ({ s with rmwrollbackvector := l } : CycleGraphState).nodeAt n = s.nodeAt n := rfl

theorem addEdge_mem_self (s : CycleGraphState) (u v : Nat) (hu : u < s.nodes.length) :
    v ∈ ((addEdge s u v).2.nodeAt u).edges := by
  unfold addEdge; dsimp only; split
  · assumption
  · rw [nodeAt_setNode]
    split_ifs with h1
    · obtain ⟨rfl, h1len⟩ := h1
      dsimp only
      rw [nodeAt_setNode]
      split_ifs with h2
      · simp
      · exact absurd ⟨rfl, hu⟩ h2
    · rw [nodeAt_setNode]
      split_ifs with h2
      · simp
      · exact absurd ⟨rfl, hu⟩ h2

theorem addEdge_mem_mono (s : CycleGraphState) (a b : Nat) {t n : Nat}
    (h : t ∈ (s.nodeAt n).edges) : t ∈ ((addEdge s a b).2.nodeAt n).edges := by
  unfold addEdge; dsimp only; split
  · exact h
  · rw [nodeAt_setNode]
    split_ifs with h1
    · obtain ⟨rfl, h1len⟩ := h1
      dsimp only
      rw [nodeAt_setNode]
      split_ifs with h2
      · obtain ⟨rfl, h2len⟩ := h2
        dsimp only
        exact List.mem_append_left _ h
      · exact h
    · rw [nodeAt_setNode]
      split_ifs with h2
      · obtain ⟨rfl, h2len⟩ := h2
        dsimp only
        exact List.mem_append_left _ h
      · exact h

theorem maybeRaiseCycle_nodes (s : CycleGraphState) (a b : Nat) :
    (maybeRaiseCycle s a b).nodes = s.nodes := by
  unfold maybeRaiseCycle; split <;> rfl

theorem maybeRaiseCycle_oldCycles (s : CycleGraphState) (a b : Nat) :
    (maybeRaiseCycle s a b).oldCycles = s.oldCycles := by
  unfold maybeRaiseCycle; split <;> rfl

theorem maybeRaiseCycle_rollbackvector (s : CycleGraphState) (a b : Nat) :
    (maybeRaiseCycle s a b).rollbackvector = s.rollbackvector := by
  unfold maybeRaiseCycle; split <;> rfl

theorem maybeRaiseCycle_rmwrollbackvector (s : CycleGraphState) (a b : Nat) :
    (maybeRaiseCycle s a b).rmwrollbackvector = s.rmwrollbackvector := by
  unfold maybeRaiseCycle; split <;> rfl

theorem maybeRaiseCycle_nodeAt (s : CycleGraphState) (a b n : Nat) :
    (maybeRaiseCycle s a b).nodeAt n = s.nodeAt n := by
  unfold CycleGraphState.nodeAt; rw [maybeRaiseCycle_nodes]

theorem maybeRaiseCycle_hasCycles_true (s : CycleGraphState) (a b : Nat)
    (h : s.hasCycles = true) : (maybeRaiseCycle s a b).hasCycles = true := by
  unfold maybeRaiseCycle; split <;> simp_all

theorem logIfAdded_fst (w : Nat) (a : Bool × CycleGraphState) :
    (logIfAdded w a).1 = a.1 := by
  unfold logIfAdded; split <;> rfl

theorem logIfAdded_nodes (w : Nat) (a : Bool × CycleGraphState) :
    (logIfAdded w a).2.nodes = a.2.nodes := by
  unfold logIfAdded; split <;> rfl

theorem logIfAdded_hasCycles (w : Nat) (a : Bool × CycleGraphState) :
    (logIfAdded w a).2.hasCycles = a.2.hasCycles := by
  unfold logIfAdded; split <;> rfl

theorem logIfAdded_oldCycles (w : Nat) (a : Bool × CycleGraphState) :
    (logIfAdded w a).2.oldCycles = a.2.oldCycles := by
  unfold logIfAdded; split <;> rfl

theorem logIfAdded_rmwrollbackvector (w : Nat) (a : Bool × CycleGraphState) :
    (logIfAdded w a).2.rmwrollbackvector = a.2.rmwrollbackvector := by
  unfold logIfAdded; split <;> rfl

theorem logIfAdded_nodeAt (w : Nat) (a : Bool × CycleGraphState) (n : Nat) :
    (logIfAdded w a).2.nodeAt n = a.2.nodeAt n := by
  unfold CycleGraphState.nodeAt; rw [logIfAdded_nodes]

theorem addNodeEdge_pres {β : Type} (m : CycleGraphState → β)
    (hAdd : ∀ t a b, m (addEdge t a b).2 = m t)
    (hRaise : ∀ t a b, m (maybeRaiseCycle t a b) = m t)
    (hLog : ∀ w a, m (logIfAdded w a).2 = m a.2)
    (s : CycleGraphState) (u v : Nat) :
    m (addNodeEdge s u v).2 = m s := by
  unfold addNodeEdge; dsimp only
  rcases hrmw : ((logIfAdded u (addEdge (maybeRaiseCycle s v u) u v)).2.nodeAt u).rmw
    with _ | r
  · simp only [hrmw]
    rw [hLog, hAdd, hRaise]
  · simp only [hrmw]
    split_ifs
    · rw [hLog, hAdd, hRaise]
    · dsimp only
      rw [hLog, hAdd, hRaise, hLog, hAdd, hRaise]

theorem addNodeEdge_mono (P : CycleGraphState → Prop)
    (hAdd : ∀ t a b, P t → P (addEdge t a b).2)
    (hRaise : ∀ t a b, P t → P (maybeRaiseCycle t a b))
    (hLog : ∀ w a, P a.2 → P (logIfAdded w a).2)
    (s : CycleGraphState) (u v : Nat) (hs : P s) :
    P (addNodeEdge s u v).2 := by
  unfold addNodeEdge; dsimp only
  rcases hrmw : ((logIfAdded u (addEdge (maybeRaiseCycle s v u) u v)).2.nodeAt u).rmw
    with _ | r
  · simp only [hrmw]
    exact hLog _ _ (hAdd _ _ _ (hRaise _ _ _ hs))
  · simp only [hrmw]
    split_ifs
    · exact hLog _ _ (hAdd _ _ _ (hRaise _ _ _ hs))
    · dsimp only
      exact hLog _ _ (hAdd _ _ _ (hRaise _ _ _
        (hLog _ _ (hAdd _ _ _ (hRaise _ _ _ hs)))))

theorem addNodeEdge_length (s : CycleGraphState) (u v : Nat) :
    (addNodeEdge s u v).2.nodes.length = s.nodes.length :=
  addNodeEdge_pres (fun t => t.nodes.length)
    (fun t a b => addEdge_length t a b)
    (fun t a b => by dsimp only; rw [maybeRaiseCycle_nodes])
    (fun w a => by dsimp only; rw [logIfAdded_nodes]) s u v

theorem addNodeEdge_oldCycles (s : CycleGraphState) (u v : Nat) :
    (addNodeEdge s u v).2.oldCycles = s.oldCycles :=
  addNodeEdge_pres (fun t => t.oldCycles)
    (fun t a b => addEdge_oldCycles t a b)
    (fun t a b => maybeRaiseCycle_oldCycles t a b)
    (fun w a => logIfAdded_oldCycles w a) s u v

theorem addNodeEdge_rmwrollbackvector (s : CycleGraphState) (u v : Nat) :
    (addNodeEdge s u v).2.rmwrollbackvector = s.rmwrollbackvector :=
  addNodeEdge_pres (fun t => t.rmwrollbackvector)
    (fun t a b => addEdge_rmwrollbackvector t a b)
    (fun t a b => maybeRaiseCycle_rmwrollbackvector t a b)
    (fun w a => logIfAdded_rmwrollbackvector w a) s u v

theorem addNodeEdge_nodeAt_rmw (s : CycleGraphState) (u v n : Nat) :
    ((addNodeEdge s u v).2.nodeAt n).rmw = (s.nodeAt n).rmw :=
  addNodeEdge_pres (fun t => (t.nodeAt n).rmw)
    (fun t a b => addEdge_nodeAt_rmw t a b n)
    (fun t a b => by dsimp only; rw [maybeRaiseCycle_nodeAt])
    (fun w a => by dsimp only; rw [logIfAdded_nodeAt]) s u v

theorem addNodeEdge_nodeAt_promise (s : CycleGraphState) (u v n : Nat) :
    ((addNodeEdge s u v).2.nodeAt n).promise = (s.nodeAt n).promise :=
  addNodeEdge_pres (fun t => (t.nodeAt n).promise)
    (fun t a b => addEdge_nodeAt_promise t a b n)
    (fun t a b => by dsimp only; rw [maybeRaiseCycle_nodeAt])
    (fun w a => by dsimp only; rw [logIfAdded_nodeAt]) s u v

theorem addNodeEdge_nodeAt_deleted (s : CycleGraphState) (u v n : Nat) :
    ((addNodeEdge s u v).2.nodeAt n).deleted = (s.nodeAt n).deleted :=
  addNodeEdge_pres (fun t => (t.nodeAt n).deleted)
    (fun t a b => addEdge_nodeAt_deleted t a b n)
    (fun t a b => by dsimp only; rw [maybeRaiseCycle_nodeAt])
    (fun w a => by dsimp only; rw [logIfAdded_nodeAt]) s u v

theorem addNodeEdge_hasCycles_mono (s : CycleGraphState) (u v : Nat)
    (h : s.hasCycles = true) : (addNodeEdge s u v).2.hasCycles = true :=
  addNodeEdge_mono (fun t => t.hasCycles = true)
    (fun t a b ht => by dsimp only; rw [addEdge_hasCycles]; exact ht)
    (fun t a b ht => maybeRaiseCycle_hasCycles_true t a b ht)
    (fun w a ha => by dsimp only; rw [logIfAdded_hasCycles]; exact ha) s u v h

theorem addNodeEdge_mem_mono (s : CycleGraphState) (a b : Nat) {t n : Nat}
    (h : t ∈ (s.nodeAt n).edges) : t ∈ ((addNodeEdge s a b).2.nodeAt n).edges :=
  addNodeEdge_mono (fun st => t ∈ (st.nodeAt n).edges)
    (fun st x y hm => addEdge_mem_mono st x y hm)
    (fun st x y hm => by dsimp only; rw [maybeRaiseCycle_nodeAt]; exact hm)
    (fun w p hm => by dsimp only; rw [logIfAdded_nodeAt]; exact hm) s a b h

theorem setRMW_nodeAt_promise (s : CycleGraphState) (u v n : Nat) :
    ((setRMW s u v).2.nodeAt n).promise = (s.nodeAt n).promise := by
  unfold setRMW; dsimp only; split
  · rfl
  · simp only [nodeAt_setNode]
    split_ifs <;> simp_all

theorem setRMW_nodeAt_deleted (s : CycleGraphState) (u v n : Nat) :
    ((setRMW s u v).2.nodeAt n).deleted = (s.nodeAt n).deleted := by
  unfold setRMW; dsimp only; split
  · rfl
  · simp only [nodeAt_setNode]
    split_ifs <;> simp_all

theorem foldl_mono {α : Type} (g : CycleGraphState → α → CycleGraphState)
    (P : CycleGraphState → Prop) (h : ∀ s x, P s → P (g s x)) :
    ∀ (l : List α) (s : CycleGraphState), P s → P (List.foldl g s l) := by
  intro l
  induction l with
  | nil => intro s hs; exact hs
  | cons x xs ih => intro s hs; rw [List.foldl_cons]; exact ih _ (h s x hs)

theorem addRMWEdge_pres {β : Type} (m : CycleGraphState → β)
    (hAdd : ∀ t a b, m (addEdge t a b).2 = m t)
    (hRaise : ∀ t a b, m (maybeRaiseCycle t a b) = m t)
    (hLog : ∀ w a, m (logIfAdded w a).2 = m a.2)
    (hSet : ∀ t a b, m (setRMW t a b).2 = m t)
    (hHC : ∀ t, m { t with hasCycles := true } = m t)
    (hRL : ∀ t l, m { t with rmwrollbackvector := l } = m t)
    (s : CycleGraphState) (u v : Nat) :
    m (addRMWEdge s u v) = m s := by
  unfold addRMWEdge; dsimp only
  have hfold : ∀ (l : List Nat) (t : CycleGraphState),
      m (l.foldl (migrateStep v) t) = m t := by
    refine foldl_pres _ m ?_
    intro t x; unfold migrateStep; split
    · rfl
    · rw [hLog, hAdd]
  rw [addNodeEdge_pres m hAdd hRaise hLog, hfold]
  split
  · rw [hHC, hSet]
  · rw [hRL, hSet]

theorem addRMWEdge_mono (P : CycleGraphState → Prop)
    (hAdd : ∀ t a b, P t → P (addEdge t a b).2)
    (hRaise : ∀ t a b, P t → P (maybeRaiseCycle t a b))
    (hLog : ∀ w a, P a.2 → P (logIfAdded w a).2)
    (hSet : ∀ t a b, P t → P (setRMW t a b).2)
    (hHC : ∀ t, P t → P { t with hasCycles := true })
    (hRL : ∀ t l, P t → P { t with rmwrollbackvector := l })
    (s : CycleGraphState) (u v : Nat) (hs : P s) :
    P (addRMWEdge s u v) := by
  unfold addRMWEdge; dsimp only
  have hfold : ∀ (l : List Nat) (t : CycleGraphState), P t →
      P (l.foldl (migrateStep v) t) := by
    refine foldl_mono _ P ?_
    intro t x ht; unfold migrateStep; split
    · exact ht
    · exact hLog _ _ (hAdd _ _ _ ht)
  refine addNodeEdge_mono P hAdd hRaise hLog _ u v (hfold _ _ ?_)
  split
  · exact hHC _ (hSet _ _ _ hs)
  · exact hRL _ _ (hSet _ _ _ hs)

theorem addRMWEdge_length (s : CycleGraphState) (u v : Nat) :
    (addRMWEdge s u v).nodes.length = s.nodes.length :=
  addRMWEdge_pres (fun t => t.nodes.length)
    (fun t a b => addEdge_length t a b)
    (fun t a b => by dsimp only; rw [maybeRaiseCycle_nodes])
    (fun w a => by dsimp only; rw [logIfAdded_nodes])
    (fun t a b => setRMW_length t a b)
    (fun t => rfl) (fun t l => rfl) s u v

theorem addRMWEdge_oldCycles (s : CycleGraphState) (u v : Nat) :
    (addRMWEdge s u v).oldCycles = s.oldCycles :=
  addRMWEdge_pres (fun t => t.oldCycles)
    (fun t a b => addEdge_oldCycles t a b)
    (fun t a b => maybeRaiseCycle_oldCycles t a b)
    (fun w a => logIfAdded_oldCycles w a)
    (fun t a b => (setRMW_scalars t a b).2.1)
    (fun t => rfl) (fun t l => rfl) s u v

theorem addRMWEdge_nodeAt_promise (s : CycleGraphState) (u v n : Nat) :
    ((addRMWEdge s u v).nodeAt n).promise = (s.nodeAt n).promise :=
  addRMWEdge_pres (fun t => (t.nodeAt n).promise)
    (fun t a b => addEdge_nodeAt_promise t a b n)
    (fun t a b => by dsimp only; rw [maybeRaiseCycle_nodeAt])
    (fun w a => by dsimp only; rw [logIfAdded_nodeAt])
    (fun t a b => setRMW_nodeAt_promise t a b n)
    (fun t => rfl) (fun t l => rfl) s u v

theorem addRMWEdge_nodeAt_deleted (s : CycleGraphState) (u v n : Nat) :
    ((addRMWEdge s u v).nodeAt n).deleted = (s.nodeAt n).deleted :=
  addRMWEdge_pres (fun t => (t.nodeAt n).deleted)
    (fun t a b => addEdge_nodeAt_deleted t a b n)
    (fun t a b => by dsimp only; rw [maybeRaiseCycle_nodeAt])
    (fun w a => by dsimp only; rw [logIfAdded_nodeAt])
    (fun t a b => setRMW_nodeAt_deleted t a b n)
    (fun t => rfl) (fun t l => rfl) s u v

theorem addNodeEdge_mem_self (s : CycleGraphState) (u v : Nat)
    (hu : u < s.nodes.length) :
    v ∈ ((addNodeEdge s u v).2.nodeAt u).edges := by
  have h1 : v ∈ ((logIfAdded u (addEdge (maybeRaiseCycle s v u) u v)).2.nodeAt u).edges := by
    rw [logIfAdded_nodeAt]
    refine addEdge_mem_self _ u v ?_
    rw [maybeRaiseCycle_nodes]; exact hu
  unfold addNodeEdge; dsimp only
  rcases hrmw : ((logIfAdded u (addEdge (maybeRaiseCycle s v u) u v)).2.nodeAt u).rmw
    with _ | r
  · simp only [hrmw]; exact h1
  · simp only [hrmw]
    split_ifs
    · exact h1
    · dsimp only
      rw [logIfAdded_nodeAt]
      refine addEdge_mem_mono _ r v ?_
      rw [maybeRaiseCycle_nodeAt]
      exact h1

theorem migrateStep_length (v : Nat) (t : CycleGraphState) (x : Nat) :
    (migrateStep v t x).nodes.length = t.nodes.length := by
  unfold migrateStep; split
  · rfl
  · rw [logIfAdded_nodes, addEdge_length]

theorem migrateStep_mem_mono (v : Nat) (t : CycleGraphState) (x : Nat) {e n : Nat}
    (h : e ∈ (t.nodeAt n).edges) : e ∈ ((migrateStep v t x).nodeAt n).edges := by
  unfold migrateStep; split
  · exact h
  · rw [logIfAdded_nodeAt]; exact addEdge_mem_mono _ v x h

theorem migrateFold_length (v : Nat) (l : List Nat) (t : CycleGraphState) :
    (l.foldl (migrateStep v) t).nodes.length = t.nodes.length :=
  foldl_pres (migrateStep v) (fun st => st.nodes.length)
    (fun st x => migrateStep_length v st x) l t

theorem migrateFold_mem (v : Nat) :
    ∀ (l : List Nat) (t : CycleGraphState), v < t.nodes.length →
      ∀ x ∈ l, x ≠ v → x ∈ ((l.foldl (migrateStep v) t).nodeAt v).edges := by
  intro l
  induction l with
  | nil =>
    intro t hv x hx
    exact absurd hx (List.not_mem_nil x)
  | cons y ys ih =>
    intro t hv x hx hxv
    rw [List.foldl_cons]
    rcases List.mem_cons.mp hx with rfl | hx2
    · have hmem : x ∈ ((migrateStep v t x).nodeAt v).edges := by
        unfold migrateStep
        rw [if_neg hxv, logIfAdded_nodeAt]
        exact addEdge_mem_self t v x hv
      exact foldl_mono (migrateStep v) (fun st => x ∈ (st.nodeAt v).edges)
        (fun st z hm => migrateStep_mem_mono v st z hm) ys _ hmem
    · refine ih _ ?_ x hx2 hxv
      rw [migrateStep_length]; exact hv

theorem setRMW_of_some (s : CycleGraphState) (u v r : Nat)
    (h : (s.nodeAt u).rmw = some r) : setRMW s u v = (true, s) := by
  unfold setRMW; dsimp only; rw [h]

theorem setRMW_of_none (s : CycleGraphState) (u v : Nat)
    (h : (s.nodeAt u).rmw = none) :
    setRMW s u v = (false, s.setNode u { s.nodeAt u with rmw := some v }) := by
  unfold setRMW; dsimp only; rw [h]

theorem migrateStep_hasCycles (v : Nat) (t : CycleGraphState) (x : Nat) :
    (migrateStep v t x).hasCycles = t.hasCycles := by
  unfold migrateStep; split
  · rfl
  · rw [logIfAdded_hasCycles, addEdge_hasCycles]

theorem migrateStep_nodeAt_rmw (v : Nat) (t : CycleGraphState) (x n : Nat) :
    ((migrateStep v t x).nodeAt n).rmw = (t.nodeAt n).rmw := by
  unfold migrateStep; split
  · rfl
  · rw [logIfAdded_nodeAt]; exact addEdge_nodeAt_rmw _ v x n

theorem migrateStep_rmwrollbackvector (v : Nat) (t : CycleGraphState) (x : Nat) :
    (migrateStep v t x).rmwrollbackvector = t.rmwrollbackvector := by
  unfold migrateStep; split
  · rfl
  · rw [logIfAdded_rmwrollbackvector, addEdge_rmwrollbackvector]

theorem migrateStep_nodeAt_edges_ne (v : Nat) (t : CycleGraphState) (x : Nat)
    {n : Nat} (hn : n ≠ v) :
    ((migrateStep v t x).nodeAt n).edges = (t.nodeAt n).edges := by
  unfold migrateStep; split
  · rfl
  · rw [logIfAdded_nodeAt]
    unfold addEdge; dsimp only; split
    · rfl
    · simp only [nodeAt_setNode, length_setNode]
      split_ifs <;> simp_all

theorem addEdge_of_mem (s : CycleGraphState) (u v : Nat)
    (h : v ∈ (s.nodeAt u).edges) : addEdge s u v = (false, s) := by
  unfold addEdge; dsimp only; rw [if_pos h]

theorem logIfAdded_of_false (w : Nat) (a : Bool × CycleGraphState)
    (h : a.1 = false) : logIfAdded w a = a := by
  unfold logIfAdded; rw [h]; simp

theorem setNode_hasCycles (s : CycleGraphState) (n : Nat) (d : CycleNodeData) :
    (s.setNode n d).hasCycles = s.hasCycles := rfl

theorem removeEdge_hasCycles (s : CycleGraphState) (p : Nat) :
    (removeEdge s p).2.hasCycles = s.hasCycles := by
  unfold removeEdge; dsimp only
  rcases (s.nodeAt p).edges.getLast? with _ | r <;> rfl

theorem removeBackEdge_hasCycles (s : CycleGraphState) (p : Nat) :
    (removeBackEdge s p).2.hasCycles = s.hasCycles := by
  unfold removeBackEdge; dsimp only
  rcases (s.nodeAt p).back_edges.getLast? with _ | r <;> rfl

/-- `hasCycles`, once raised, stays raised through `mergeNodes` and its transfer
loops: no primitive of the merge ever lowers the flag. -/
theorem merge_hasCycles_mono (compat : Nat → Nat → Bool) : ∀ fuel : Nat,
    (∀ w p s mm, s.hasCycles = true →
      (mergeNodes compat fuel w p s mm).2.1.hasCycles = true) ∧
    (∀ w p s mm, s.hasCycles = true →
      (mergeBackLoop compat fuel w p s mm).2.1.hasCycles = true) ∧
    (∀ w p s mm, s.hasCycles = true →
      (mergeForwardLoop compat fuel w p s mm).2.1.hasCycles = true) := by
  intro fuel
  induction fuel with
  | zero =>
    refine ⟨?_, ?_, ?_⟩ <;> (intro w p s mm hs; simpa [mergeNodes_zero, mergeBackLoop_zero, mergeForwardLoop_zero] using hs)
  | succ fuel ih =>
    obtain ⟨ihM, ihB, ihF⟩ := ih
    have hback : ∀ w p s mm, s.hasCycles = true →
        (mergeBackLoop compat (fuel+1) w p s mm).2.1.hasCycles = true := by
      intro w p s mm hs
      rw [mergeBackLoop_succ]
      split
      · exact hs
      · rcases hrb : (removeBackEdge s p).1 with _ | b
        · simp only [hrb]
          rw [removeBackEdge_hasCycles]; exact hs
        · simp only [hrb]
          have hs1 : (removeBackEdge s p).2.hasCycles = true := by
            rw [removeBackEdge_hasCycles]; exact hs
          split_ifs with hbw hprom hreach
          · exact ihB _ _ _ _ hs1
          · rcases hmn : mergeNodes compat fuel w b (removeBackEdge s p).2 (mm ++ [b])
              with ⟨b1, s2, mm2⟩
            have hs2 : s2.hasCycles = true := by
              have := ihM w b (removeBackEdge s p).2 (mm ++ [b]) hs1
              rw [hmn] at this; exact this
            cases b1
            · simp only [hmn]
              exact hs2
            · simp only [hmn]
              exact ihB _ _ _ _ hs2
          · refine ihB _ _ _ _ ?_
            rw [addEdge_hasCycles]; exact hs1
          · refine ihB _ _ _ _ ?_
            exact addNodeEdge_hasCycles_mono _ b w hs1
    have hfwd : ∀ w p s mm, s.hasCycles = true →
        (mergeForwardLoop compat (fuel+1) w p s mm).2.1.hasCycles = true := by
      intro w p s mm hs
      rw [mergeForwardLoop_succ]
      split
      · exact hs
      · rcases hrb : (removeEdge s p).1 with _ | b
        · simp only [hrb]
          rw [removeEdge_hasCycles]; exact hs
        · simp only [hrb]
          have hs1 : (removeEdge s p).2.hasCycles = true := by
            rw [removeEdge_hasCycles]; exact hs
          split_ifs with hbw hprom hreach
          · exact ihF _ _ _ _ hs1
          · rcases hmn : mergeNodes compat fuel w b (removeEdge s p).2 (mm ++ [b])
              with ⟨b1, s2, mm2⟩
            have hs2 : s2.hasCycles = true := by
              have := ihM w b (removeEdge s p).2 (mm ++ [b]) hs1
              rw [hmn] at this; exact this
            cases b1
            · simp only [hmn]
              exact hs2
            · simp only [hmn]
              exact ihF _ _ _ _ hs2
          · refine ihF _ _ _ _ ?_
            rw [addEdge_hasCycles]; exact hs1
          · refine ihF _ _ _ _ ?_
            exact addNodeEdge_hasCycles_mono _ w b hs1
    refine ⟨?_, hback, hfwd⟩
    intro w p s mm hs
    rw [mergeNodes_succ]
    split
    · rcases hb : mergeBackLoop compat fuel w p s mm with ⟨b1, s1, mm1⟩
      have hs1 : s1.hasCycles = true := by
        have := ihB w p s mm hs
        rw [hb] at this; exact this
      cases b1
      · simp only [hb]
        exact hs1
      · simp only [hb]
        rcases hf : mergeForwardLoop compat fuel w p s1 mm1 with ⟨b2, s2, mm2⟩
        have hs2 : s2.hasCycles = true := by
          have := ihF w p s1 mm1 hs1
          rw [hf] at this; exact this
        cases b2
        · simp only [hf]
          exact hs2
        · simp only [hf]
          rw [setNode_hasCycles]; exact hs2
    · rfl

theorem nodeAt_out (s : CycleGraphState) (n : Nat) (h : s.nodes.length ≤ n) :
    s.nodeAt n = default := by
  unfold CycleGraphState.nodeAt
  exact List.getD_eq_default _ _ h

/-- A graph whose step relation strictly increases node ids has no cycle. -/
theorem no_cycle_of_ascending (s : CycleGraphState)
    (h : ∀ x y, stepRel s x y → x < y) : ¬HasCycle s := by
  rintro ⟨a, hcyc⟩
  have hlt : ∀ x y, Relation.TransGen (stepRel s) x y → x < y := by
    intro x y ht
    induction ht with
    | single h1 => exact h _ _ h1
    | tail _ h1 ih => exact lt_trans ih (h _ _ h1)
  exact lt_irrefl a (hlt a a hcyc)

/-- The `mustMerge` list only ever grows: every merge routine returns the input
list with a (possibly empty) suffix appended. -/
theorem merge_mm_mono (compat : Nat → Nat → Bool) : ∀ fuel : Nat,
    (∀ w p s mm, ∃ ext, (mergeNodes compat fuel w p s mm).2.2 = mm ++ ext) ∧
    (∀ w p s mm, ∃ ext, (mergeBackLoop compat fuel w p s mm).2.2 = mm ++ ext) ∧
    (∀ w p s mm, ∃ ext, (mergeForwardLoop compat fuel w p s mm).2.2 = mm ++ ext) := by
  intro fuel
  induction fuel with
  | zero =>
    refine ⟨?_, ?_, ?_⟩ <;>
      (intro w p s mm; exact ⟨[], by simp [mergeNodes_zero, mergeBackLoop_zero, mergeForwardLoop_zero]⟩)
  | succ fuel ih =>
    obtain ⟨ihM, ihB, ihF⟩ := ih
    have hback : ∀ w p s mm, ∃ ext,
        (mergeBackLoop compat (fuel+1) w p s mm).2.2 = mm ++ ext := by
      intro w p s mm
      rw [mergeBackLoop_succ]
      split
      · exact ⟨[], by simp⟩
      · rcases hrb : (removeBackEdge s p).1 with _ | b
        · simp only [hrb]
          exact ⟨[], by simp⟩
        · simp only [hrb]
          split_ifs with hbw hprom hreach
          · exact ihB _ _ _ _
          · rcases hmn : mergeNodes compat fuel w b (removeBackEdge s p).2 (mm ++ [b])
              with ⟨b1, s2, mm2⟩
            have hmm2 : ∃ ext, mm2 = (mm ++ [b]) ++ ext := by
              obtain ⟨ext, hext⟩ := ihM w b (removeBackEdge s p).2 (mm ++ [b])
              rw [hmn] at hext
              exact ⟨ext, hext⟩
            obtain ⟨ext1, hext1⟩ := hmm2
            cases b1
            · simp only [hmn]
              exact ⟨[b] ++ ext1, by simp [hext1]⟩
            · simp only [hmn]
              obtain ⟨ext2, hext2⟩ := ihB w p s2 mm2
              exact ⟨[b] ++ ext1 ++ ext2, by rw [hext2, hext1]; simp⟩
          · obtain ⟨ext, hext⟩ := ihB w p (addEdge (removeBackEdge s p).2 b w).2 mm
            exact ⟨ext, hext⟩
          · exact ihB _ _ _ _
    have hfwd : ∀ w p s mm, ∃ ext,
        (mergeForwardLoop compat (fuel+1) w p s mm).2.2 = mm ++ ext := by
      intro w p s mm
      rw [mergeForwardLoop_succ]
      split
      · exact ⟨[], by simp⟩
      · rcases hrb : (removeEdge s p).1 with _ | b
        · simp only [hrb]
          exact ⟨[], by simp⟩
        · simp only [hrb]
          split_ifs with hbw hprom hreach
          · exact ihF _ _ _ _
          · rcases hmn : mergeNodes compat fuel w b (removeEdge s p).2 (mm ++ [b])
              with ⟨b1, s2, mm2⟩
            have hmm2 : ∃ ext, mm2 = (mm ++ [b]) ++ ext := by
              obtain ⟨ext, hext⟩ := ihM w b (removeEdge s p).2 (mm ++ [b])
              rw [hmn] at hext
              exact ⟨ext, hext⟩
            obtain ⟨ext1, hext1⟩ := hmm2
            cases b1
            · simp only [hmn]
              exact ⟨[b] ++ ext1, by simp [hext1]⟩
            · simp only [hmn]
              obtain ⟨ext2, hext2⟩ := ihF w p s2 mm2
              exact ⟨[b] ++ ext1 ++ ext2, by rw [hext2, hext1]; simp⟩
          · obtain ⟨ext, hext⟩ := ihF w p (addEdge (removeEdge s p).2 w b).2 mm
            exact ⟨ext, hext⟩
          · exact ihF _ _ _ _
    refine ⟨?_, hback, hfwd⟩
    intro w p s mm
    rw [mergeNodes_succ]
    split
    · rcases hb : mergeBackLoop compat fuel w p s mm with ⟨b1, s1, mm1⟩
      have hmm1 : ∃ ext, mm1 = mm ++ ext := by
        obtain ⟨ext, hext⟩ := ihB w p s mm
        rw [hb] at hext
        exact ⟨ext, hext⟩
      obtain ⟨ext1, hext1⟩ := hmm1
      cases b1
      · simp only [hb]
        exact ⟨ext1, hext1⟩
      · simp only [hb]
        rcases hf : mergeForwardLoop compat fuel w p s1 mm1 with ⟨b2, s2, mm2⟩
        have hmm2 : ∃ ext, mm2 = mm1 ++ ext := by
          obtain ⟨ext, hext⟩ := ihF w p s1 mm1
          rw [hf] at hext
          exact ⟨ext, hext⟩
        obtain ⟨ext2, hext2⟩ := hmm2
        cases b2
        · simp only [hf]
          exact ⟨ext1 ++ ext2, by simp [hext2, hext1]⟩
        · simp only [hf]
          exact ⟨ext1 ++ ext2, by simp [hext2, hext1]⟩
    · exact ⟨[], by simp⟩

theorem removeBackEdge_rollbackvector (s : CycleGraphState) (p : Nat) :
    (removeBackEdge s p).2.rollbackvector = s.rollbackvector := by
  unfold removeBackEdge; dsimp only
  rcases (s.nodeAt p).back_edges.getLast? with _ | r <;> rfl

theorem removeBackEdge_length (s : CycleGraphState) (p : Nat) :
    (removeBackEdge s p).2.nodes.length = s.nodes.length := by
  unfold removeBackEdge; dsimp only
  rcases (s.nodeAt p).back_edges.getLast? with _ | r
  · rfl
  · simp [length_setNode]

theorem addEdge_nodeAt_edges_ne (s : CycleGraphState) (u v : Nat) {n : Nat}
    (hn : n ≠ u) : ((addEdge s u v).2.nodeAt n).edges = (s.nodeAt n).edges := by
  unfold addEdge; dsimp only; split
  · rfl
  · simp only [nodeAt_setNode, length_setNode]
    split_ifs <;> simp_all

theorem addEdge_nodeAt_back_ne (s : CycleGraphState) (u v : Nat) {n : Nat}
    (hn : n ≠ v) :
    ((addEdge s u v).2.nodeAt n).back_edges = (s.nodeAt n).back_edges := by
  unfold addEdge; dsimp only; split
  · rfl
  · simp only [nodeAt_setNode, length_setNode]
    split_ifs <;> simp_all

theorem maybeRaiseCycle_hasCycles_eq (s : CycleGraphState) (a b : Nat) :
    (maybeRaiseCycle s a b).hasCycles = (s.hasCycles || checkReachable s a b) := by
  unfold maybeRaiseCycle
  cases h : s.hasCycles <;> simp [h]

theorem addEdge_fst_of_not_mem (s : CycleGraphState) (u v : Nat)
    (h : v ∉ (s.nodeAt u).edges) : (addEdge s u v).1 = true := by
  unfold addEdge; dsimp only; rw [if_neg h]

theorem logIfAdded_rollbackvector_of_true (w : Nat) (a : Bool × CycleGraphState)
    (h : a.1 = true) :
    (logIfAdded w a).2.rollbackvector = a.2.rollbackvector ++ [w] := by
  unfold logIfAdded; rw [h]; simp

/-- Membership in the output `mustMerge` list of the back-transfer loop is kept by
the enclosing `mergeNodes`. -/
theorem mm_mem_mergeNodes_of_backs (compat : Nat → Nat → Bool) (fuel w p : Nat)
    (s : CycleGraphState) (mm : List Nat) (x : Nat)
    (hc : compat p w = true)
    (hx : x ∈ (mergeBackLoop compat fuel w p s mm).2.2) :
    x ∈ (mergeNodes compat (fuel+1) w p s mm).2.2 := by
  rw [mergeNodes_succ, if_pos hc]
  rcases hb : mergeBackLoop compat fuel w p s mm with ⟨b1, s1, mm1⟩
  rw [hb] at hx
  cases b1
  · simp only [hb]
    exact hx
  · simp only [hb]
    rcases hf : mergeForwardLoop compat fuel w p s1 mm1 with ⟨b2, s2, mm2⟩
    have hext : ∃ ext, mm2 = mm1 ++ ext := by
      obtain ⟨ext, he⟩ := (merge_mm_mono compat fuel).2.2 w p s1 mm1
      rw [hf] at he
      exact ⟨ext, he⟩
    obtain ⟨ext, he⟩ := hext
    cases b2
    · simp only [hf]
      rw [he]
      exact List.mem_append_left _ hx
    · simp only [hf]
      rw [he]
      exact List.mem_append_left _ hx

end BasicLemmas

/-- The action kinds declared by `enum action_type` in action.h (lines 11-17).
The enum in the provided source declares exactly these five constructors. -/
inductive action_type where
  | THREAD_CREATE
  | THREAD_YIELD
  | THREAD_JOIN
  | ATOMIC_READ
  | ATOMIC_WRITE
deriving DecidableEq

/-- Enumeration of every `action_type` constructor. -/
def allActionTypes : List action_type :=
  [.THREAD_CREATE, .THREAD_YIELD, .THREAD_JOIN, .ATOMIC_READ, .ATOMIC_WRITE]

/-- The spec's name for each declared action kind. -/
def action_type.specName : action_type → String
  | .THREAD_CREATE => "thread-create"
  | .THREAD_YIELD => "thread-yield"
  | .THREAD_JOIN => "thread-join"
  | .ATOMIC_READ => "atomic-read"
  | .ATOMIC_WRITE => "atomic-write"

/-- The seven kind names the spec claims as the universe of events. -/
def specKindNames : List String :=
  ["thread-create", "thread-join", "thread-yield", "atomic-read", "atomic-write",
   "atomic-rmw", "atomic-rmw-read-compare"]

/-- Predicate expression tokens (predicate.h, used throughout funcnode.cc). -/
inductive PredToken where
  | NOPREDICATE
  | EQUALITY
  | NULLITY
deriving DecidableEq

/-- One predicate expression `(token, referenced FuncInst, expected bool)`. -/
structure PredExpr where
  token : PredToken
  func_inst : Option Nat
  value : Bool
deriving DecidableEq

/-- One `Predicate` tree node: its discriminating FuncInst, the entry flag, its
children (ids into the node store), its predicate-expression set, and its
parent. -/
structure PredData where
  func_inst : Option Nat
  entry : Bool
  children : List Nat
  pred_expressions : List PredExpr
  parent : Option Nat
deriving DecidableEq

instance : Inhabited PredData := ⟨⟨none, false, [], [], none⟩⟩

/-- The predicate-tree part of a `FuncNode`: the node store (ids are positions)
and the `predicate_leaves` set, modelled as a duplicate-free list. -/
structure PredTreeState where
  preds : List PredData
  predicate_leaves : List Nat
deriving DecidableEq

/-- Read a predicate node (out of range reads as an empty node). -/
def PredTreeState.predAt (st : PredTreeState) (n : Nat) : PredData :=
  st.preds.getD n default

/-- The `FuncNode` constructor state (funcnode.cc:11-44): node 0 is
`predicate_tree_entry`, carrying one `NOPREDICATE` expression, node 1 is
`predicate_tree_exit`; `predicate_leaves` starts empty. -/
def initTree : PredTreeState :=
  { preds := [ { func_inst := none, entry := true, children := [],
                 pred_expressions := [⟨PredToken.NOPREDICATE, none, true⟩],
                 parent := none },
               { func_inst := none, entry := false, children := [],
                 pred_expressions := [], parent := none } ],
    predicate_leaves := [] }

/-- The doubling step of `FuncNode::generate_predicates` (funcnode.cc:524-538):
given the expression sets built so far, append the next half expression with
value true to each existing set in place, and append a copy of each original
set extended with value false. -/
def extendHalf (sets : List (List PredExpr)) (h : PredToken × Option Nat) :
    List (List PredExpr) :=
  (sets.map (fun s => s ++ [⟨h.1, h.2, true⟩])) ++
    (sets.map (fun s => s ++ [⟨h.1, h.2, false⟩]))

/-- The expression sets of the 2^k children generated from k half expressions
(funcnode.cc:515-538). -/
def buildExprSets (halves : List (PredToken × Option Nat)) : List (List PredExpr) :=
  match halves with
  | [] => []
  | h :: rest => rest.foldl extendHalf
      [[⟨h.1, h.2, true⟩], [⟨h.1, h.2, false⟩]]

/-- Attach one new child per expression set under `curr` (the shared tail of both
branches of `FuncNode::generate_predicates`): append the new `Predicate`s to
the store, link them as children of `curr`, add each to `predicate_leaves`, and
remove `curr` from `predicate_leaves` (funcnode.cc:495-501 and 540-550). -/
def addChildren (st : PredTreeState) (curr inst : Nat)
    (sets : List (List PredExpr)) : PredTreeState :=
  let n0 := st.preds.length
  let newPreds := sets.map (fun s =>
    ({ func_inst := some inst, entry := false, children := [],
       pred_expressions := s, parent := some curr } : PredData))
  let ids := (List.range sets.length).map (n0 + ·)
  let currData := st.predAt curr
  let preds2 := (st.preds ++ newPreds).set curr
    { currData with children := currData.children ++ ids }
  let leaves1 := ids.foldl (fun l i => if i ∈ l then l else l ++ [i])
    st.predicate_leaves
  { preds := preds2, predicate_leaves := leaves1.erase curr }

/-- `FuncNode::generate_predicates` (funcnode.cc:491-557): with no half
expressions, attach a single child whose expression set is `NOPREDICATE` when
`curr` is the entry predicate or the instruction is a pure write and empty
otherwise; with k half expressions, attach 2^k children covering every sign
vector. In both cases `predicate_leaves` gains the new children and loses
`curr`. -/
def generate_predicates (st : PredTreeState) (curr inst : Nat)
    (instWrite : Bool) (halves : List (PredToken × Option Nat)) : PredTreeState :=
  if halves.isEmpty then
    let exprs := if (st.predAt curr).entry then [⟨PredToken.NOPREDICATE, none, true⟩]
      else if instWrite then [(⟨PredToken.NOPREDICATE, none, true⟩ : PredExpr)]
      else []
    addChildren st curr inst [exprs]
  else
    addChildren st curr inst (buildExprSets halves)

/-- The scan of `FuncNode::amend_predicate_expr` (funcnode.cc:562-571): the first
child of `curr` whose FuncInst matches. -/
def findUnset (st : PredTreeState) (curr inst : Nat) : Option Nat :=
  (st.predAt curr).children.find? (fun c => (st.predAt c).func_inst = some inst)

/-- `FuncNode::amend_predicate_expr` (funcnode.cc:560-589): when the instruction
is not single-location and the read value is null, split the matching child:
give it `NULLITY = false`, create a new sibling with `NULLITY = true`, and
report true; otherwise report false. `predicate_leaves` is not touched, matching
the source. (When no matching child exists and the condition holds the C++
would dereference a null pointer; the model returns false there, a case its
caller never reaches because it only amends after `follow_branch` reported an
unset child.) -/
def amend_predicate_expr (st : PredTreeState) (curr inst : Nat)
    (instSingleLoc : Bool) (readValNull : Bool) : Bool × PredTreeState :=
  match findUnset st curr inst with
  | none => (false, st)
  | some c =>
    if !instSingleLoc && readValNull then
      let newId := st.preds.length
      let newPred : PredData :=
        { func_inst := some inst, entry := false, children := [],
          pred_expressions := [⟨PredToken.NULLITY, none, true⟩],
          parent := some curr }
      let currData := st.predAt curr
      let preds1 := (st.preds ++ [newPred]).set curr
        { currData with children := currData.children ++ [newId] }
      let cData := st.predAt c
      let preds2 := preds1.set c
        { cData with pred_expressions := cData.pred_expressions ++
            [⟨PredToken.NULLITY, none, false⟩] }
      (true, { preds := preds2, predicate_leaves := st.predicate_leaves })
    else (false, st)

/-- A predicate-tree operation: branch generation or predicate amendment. -/
inductive TreeOp where
  | generate (curr inst : Nat) (instWrite : Bool)
      (halves : List (PredToken × Option Nat))
  | amend (curr inst : Nat) (instSingleLoc : Bool) (readValNull : Bool)

/-- Apply one predicate-tree operation. -/
def applyTreeOp (st : PredTreeState) : TreeOp → PredTreeState
  | .generate curr inst instWrite halves =>
      generate_predicates st curr inst instWrite halves
  | .amend curr inst single isNull =>
      (amend_predicate_expr st curr inst single isNull).2

/-- Apply a list of predicate-tree operations left to right. -/
def applyTreeOps (st : PredTreeState) (ops : List TreeOp) : PredTreeState :=
  ops.foldl applyTreeOp st

/-- The per-`FuncNode` learned state of funcnode.cc that claim C8 speaks about:
the interning map and predicate tree survive executions, while the four
snapshot-allocated views are the ones `set_new_exec_flag` touches. -/
structure FuncNodeState where
  func_inst_map : List (Nat × Nat)
  inst_list : List Nat
  predicate_tree : PredTreeState
  read_locations : List Nat
  write_locations : List Nat
  val_loc_map : List (Nat × List Nat)
  loc_may_equal_map : List (Nat × List Nat)
deriving DecidableEq

/-- `FuncNode::set_new_exec_flag` (funcnode.cc:47-55): when a new execution
starts, the four snapshot-allocated structures are re-allocated as fresh empty
ones ("Reallocate snapshotted memories when new executions start"); nothing
else is touched. -/
def set_new_exec_flag (s : FuncNodeState) : FuncNodeState :=
  { s with read_locations := [], write_locations := [],
           val_loc_map := [], loc_may_equal_map := [] }

section PredTreeLemmas

theorem getD_set_ne {α : Type} [Inhabited α] (l : List α) (i j : Nat) (a : α)
    (h : i ≠ j) : (l.set i a).getD j default = l.getD j default := by
  simp [List.getD_eq_getElem?_getD, List.getElem?_set_ne h]

theorem getD_append_lt {α : Type} [Inhabited α] (l1 l2 : List α) (j : Nat)
    (h : j < l1.length) : (l1 ++ l2).getD j default = l1.getD j default := by
  rw [List.getD_eq_getElem?_getD, List.getD_eq_getElem?_getD,
    List.getElem?_append, if_pos h]

theorem getD_set_self_of_lt {α : Type} [Inhabited α] (l : List α) (i : Nat)
    (a : α) (h : i < l.length) : (l.set i a).getD i default = a := by
  rw [List.getD_eq_getElem?_getD, List.getElem?_set_self' ]
  rw [List.getElem?_eq_getElem h]
  rfl

theorem getD_set_self_of_ge {α : Type} [Inhabited α] (l : List α) (i : Nat)
    (a : α) (h : l.length ≤ i) : (l.set i a).getD i default = default := by
  rw [List.set_eq_of_length_le h]
  exact List.getD_eq_default _ _ h

theorem foldAdd_mem (ids : List Nat) :
    ∀ (l : List Nat) (x : Nat),
      (x ∈ ids.foldl (fun l i => if i ∈ l then l else l ++ [i]) l) ↔
        (x ∈ l ∨ x ∈ ids) := by
  induction ids with
  | nil => intro l x; simp
  | cons i rest ih =>
    intro l x
    rw [List.foldl_cons]
    rcases Decidable.em (i ∈ l) with hmem | hmem
    · rw [if_pos hmem, ih]
      constructor
      · rintro (h | h)
        · exact Or.inl h
        · exact Or.inr (List.mem_cons_of_mem i h)
      · rintro (h | h)
        · exact Or.inl h
        · rcases List.mem_cons.mp h with rfl | h2
          · exact Or.inl hmem
          · exact Or.inr h2
    · rw [if_neg hmem, ih]
      constructor
      · rintro (h | h)
        · rcases List.mem_append.mp h with h1 | h1
          · exact Or.inl h1
          · simp at h1
            exact Or.inr (h1 ▸ List.mem_cons_self i rest)
        · exact Or.inr (List.mem_cons_of_mem i h)
      · rintro (h | h)
        · exact Or.inl (List.mem_append_left _ h)
        · rcases List.mem_cons.mp h with rfl | h2
          · exact Or.inl (List.mem_append_right _ (by simp))
          · exact Or.inr h2

theorem foldAdd_nodup (ids : List Nat) :
    ∀ (l : List Nat), l.Nodup →
      (ids.foldl (fun l i => if i ∈ l then l else l ++ [i]) l).Nodup := by
  induction ids with
  | nil => intro l h; exact h
  | cons i rest ih =>
    intro l h
    rw [List.foldl_cons]
    rcases Decidable.em (i ∈ l) with hmem | hmem
    · rw [if_pos hmem]; exact ih l h
    · rw [if_neg hmem]
      refine ih _ ?_
      simpa [List.nodup_append] using ⟨h, hmem⟩

theorem addChildren_length (st : PredTreeState) (curr inst : Nat)
    (sets : List (List PredExpr)) :
    (addChildren st curr inst sets).preds.length
      = st.preds.length + sets.length := by
  unfold addChildren
  simp

theorem addChildren_predAt_old (st : PredTreeState) (curr inst : Nat)
    (sets : List (List PredExpr)) {m : Nat} (hm : m < st.preds.length)
    (hne : m ≠ curr) :
    (addChildren st curr inst sets).predAt m = st.predAt m := by
  unfold addChildren PredTreeState.predAt
  dsimp only
  rw [getD_set_ne _ _ _ _ (fun hc => hne hc.symm)]
  rw [getD_append_lt _ _ _ hm]

theorem addChildren_predAt_new (st : PredTreeState) (curr inst : Nat)
    (sets : List (List PredExpr)) {i : Nat} (hi : i < sets.length)
    (hcurr : curr < st.preds.length) :
    ((addChildren st curr inst sets).predAt (st.preds.length + i)).children
      = [] := by
  unfold addChildren PredTreeState.predAt
  dsimp only
  rw [getD_set_ne _ _ _ _ (by omega)]
  rw [List.getD_eq_getElem?_getD, List.getElem?_append_right (by omega)]
  have : st.preds.length + i - st.preds.length = i := by omega
  rw [this]
  rw [List.getElem?_map]
  rcases hg : sets[i]? with _ | sexp
  · rw [List.getElem?_eq_none_iff] at hg
    omega
  · simp

theorem addChildren_leaves (st : PredTreeState) (curr inst : Nat)
    (sets : List (List PredExpr)) :
    (addChildren st curr inst sets).predicate_leaves
      = (((List.range sets.length).map (st.preds.length + ·)).foldl
          (fun l i => if i ∈ l then l else l ++ [i]) st.predicate_leaves).erase
          curr := rfl

/-- Validity of one predicate-tree operation: the parent node exists. -/
def treeOpOk (st : PredTreeState) : TreeOp → Bool
  | .generate curr _ _ _ => curr < st.preds.length
  | .amend curr _ _ _ => curr < st.preds.length

/-- Validity of a sequence of predicate-tree operations, checked along the run. -/
def treeOpsOk : PredTreeState → List TreeOp → Bool
  | _, [] => true
  | st, op :: rest => treeOpOk st op && treeOpsOk (applyTreeOp st op) rest

/-- The invariant of the predicate-leaves set: duplicate-free, members exist and
have no children. -/
def treeInv (st : PredTreeState) : Prop :=
  st.predicate_leaves.Nodup ∧
  ∀ m ∈ st.predicate_leaves, m < st.preds.length ∧ (st.predAt m).children = []

theorem treeInv_init : treeInv initTree := by
  constructor
  · simp [initTree]
  · intro m hm
    simp [initTree] at hm

theorem treeInv_generate (st : PredTreeState) (curr inst : Nat)
    (instWrite : Bool) (halves : List (PredToken × Option Nat))
    (hcurr : curr < st.preds.length) (hinv : treeInv st) :
    treeInv (generate_predicates st curr inst instWrite halves) := by
  obtain ⟨hnd, hmem⟩ := hinv
  have key : ∀ sets : List (List PredExpr),
      treeInv (addChildren st curr inst sets) := by
    intro sets
    constructor
    · rw [addChildren_leaves]
      exact (foldAdd_nodup _ _ hnd).erase curr
    · intro m hm
      rw [addChildren_leaves] at hm
      have hm2 : m ∈ ((List.range sets.length).map (st.preds.length + ·)).foldl
          (fun l i => if i ∈ l then l else l ++ [i]) st.predicate_leaves :=
        List.mem_of_mem_erase hm
      have hmne : m ≠ curr := by
        intro hc
        subst hc
        exact (List.Nodup.not_mem_erase (foldAdd_nodup _ _ hnd)) hm
      rcases (foldAdd_mem _ _ _).mp hm2 with hold | hnew
      · obtain ⟨hlt, hch⟩ := hmem m hold
        refine ⟨by rw [addChildren_length]; omega, ?_⟩
        rw [addChildren_predAt_old st curr inst sets hlt hmne]
        exact hch
      · obtain ⟨i, hi, rfl⟩ := List.mem_map.mp hnew
        rw [List.mem_range] at hi
        refine ⟨by rw [addChildren_length]; omega, ?_⟩
        exact addChildren_predAt_new st curr inst sets hi hcurr
  unfold generate_predicates
  split
  · exact key _
  · exact key _

theorem amend_leaves (st : PredTreeState) (curr inst : Nat)
    (single isNull : Bool) :
    (amend_predicate_expr st curr inst single isNull).2.predicate_leaves
      = st.predicate_leaves := by
  unfold amend_predicate_expr
  rcases findUnset st curr inst with _ | c
  · rfl
  · dsimp only
    split
    · rfl
    · rfl

theorem treeInv_amend (st : PredTreeState) (curr inst : Nat)
    (single isNull : Bool) (hinv : treeInv st) :
    treeInv (amend_predicate_expr st curr inst single isNull).2 := by
  obtain ⟨hnd, hmem⟩ := hinv
  unfold amend_predicate_expr
  rcases hfind : findUnset st curr inst with _ | c
  · exact ⟨hnd, hmem⟩
  · dsimp only
    split
    · have hcu : (st.predAt curr).children ≠ [] := by
        intro hc
        unfold findUnset at hfind
        rw [hc] at hfind
        simp at hfind
      have hcurrnotleaf : curr ∉ st.predicate_leaves := by
        intro hc
        exact hcu (hmem curr hc).2
      refine ⟨hnd, ?_⟩
      intro m hm
      dsimp only at hm ⊢
      obtain ⟨hlt, hch⟩ := hmem m hm
      have hmne : m ≠ curr := fun hc => hcurrnotleaf (hc ▸ hm)
      constructor
      · simp
        omega
      · simp only [PredTreeState.predAt]
        rcases Decidable.em (m = c) with rfl | hmc
        · rw [getD_set_self_of_lt _ _ _ (by simp; omega)]
          exact hch
        · rw [getD_set_ne _ _ _ _ (fun hc => hmc hc.symm)]
          rw [getD_set_ne _ _ _ _ (fun hc => hmne hc.symm)]
          rw [getD_append_lt _ _ _ hlt]
          exact hch
    · exact ⟨hnd, hmem⟩

end PredTreeLemmas

section RollbackExact

theorem setNode_scalars (s : CycleGraphState) (n : Nat) (d : CycleNodeData) :
    (s.setNode n d).hasCycles = s.hasCycles ∧
    (s.setNode n d).oldCycles = s.oldCycles ∧
    (s.setNode n d).rollbackvector = s.rollbackvector ∧
    (s.setNode n d).rmwrollbackvector = s.rmwrollbackvector :=
  ⟨rfl, rfl, rfl, rfl⟩

/-- One `popEdge` application undone against the snapshot: the core step of the
rollback-exactness argument. Popping the most recently pushed edge of the head
log entry turns a transaction state whose per-node edge suffixes are counted by
the log into one counted by the log's tail. -/
theorem foldPop_restores (s0 : CycleGraphState) (hwf : WF s0) :
    ∀ (lb : List Nat) (s : CycleGraphState) (suf nb : Nat → List Nat),
      s.nodes.length = s0.nodes.length →
      (∀ n, (s.nodeAt n).edges = (s0.nodeAt n).edges ++ suf n) →
      (∀ n, List.count n lb = (suf n).length) →
      (∀ n, (s.nodeAt n).back_edges = (s0.nodeAt n).back_edges ++ nb n) →
      (∀ n, (nb n).Nodup) →
      (∀ n m, m ∈ nb n ↔ n ∈ suf m) →
      (∀ n, (s.nodeAt n).edges.Nodup) →
      (∀ n m, m ∈ suf n → m < s0.nodes.length) →
      (∀ n, ((lb.foldl popEdge s).nodeAt n).edges = (s0.nodeAt n).edges ∧
            ((lb.foldl popEdge s).nodeAt n).back_edges = (s0.nodeAt n).back_edges ∧
            ((lb.foldl popEdge s).nodeAt n).rmw = (s.nodeAt n).rmw ∧
            ((lb.foldl popEdge s).nodeAt n).promise = (s.nodeAt n).promise ∧
            ((lb.foldl popEdge s).nodeAt n).deleted = (s.nodeAt n).deleted) ∧
      (lb.foldl popEdge s).nodes.length = s.nodes.length ∧
      (lb.foldl popEdge s).hasCycles = s.hasCycles ∧
      (lb.foldl popEdge s).oldCycles = s.oldCycles ∧
      (lb.foldl popEdge s).rollbackvector = s.rollbackvector ∧
      (lb.foldl popEdge s).rmwrollbackvector = s.rmwrollbackvector := by
  intro lb
  induction lb with
  | nil =>
    intro s suf nb hlen hE hC hB hND hIFF hEND hRange
    have hsuf : ∀ n, suf n = [] := by
      intro n
      have := hC n
      simp at this
      exact List.eq_nil_of_length_eq_zero this.symm
    have hnb : ∀ n, nb n = [] := by
      intro n
      refine List.eq_nil_iff_forall_not_mem.mpr ?_
      intro m hm
      have := (hIFF n m).mp hm
      rw [hsuf m] at this
      exact List.not_mem_nil n this
    refine ⟨?_, rfl, rfl, rfl, rfl, rfl⟩
    intro n
    refine ⟨?_, ?_, rfl, rfl, rfl⟩
    · rw [List.foldl_nil, hE n, hsuf n, List.append_nil]
    · rw [List.foldl_nil, hB n, hnb n, List.append_nil]
  | cons a rest ih =>
    intro s suf nb hlen hE hC hB hND hIFF hEND hRange
    -- the head log entry has a nonempty suffix
    have hsufa : suf a ≠ [] := by
      intro hc
      have := hC a
      rw [hc, List.count_cons_self] at this
      simp at this
    have halen : a < s0.nodes.length := by
      by_contra hge
      have hdef : s.nodeAt a = default := by
        refine nodeAt_out s a ?_
        rw [hlen]
        exact Nat.le_of_not_lt hge
      have hdef0 : s0.nodeAt a = default := nodeAt_out s0 a (Nat.le_of_not_lt hge)
      have := hE a
      rw [hdef, hdef0] at this
      have hnil : ([] : List Nat) = [] ++ suf a := this
      exact hsufa (by simpa using hnil.symm)
    obtain ⟨v, hv⟩ : ∃ v, (suf a).getLast? = some v := by
      rcases hlast : (suf a).getLast? with _ | v
      · exact absurd (List.getLast?_eq_none_iff.mp hlast) hsufa
      · exact ⟨v, rfl⟩
    have hvmem : v ∈ suf a := List.mem_of_getLast?_eq_some hv
    have hvlen : v < s0.nodes.length := hRange a v hvmem
    have hsplit : (suf a).dropLast ++ [v] = suf a :=
      List.dropLast_append_getLast? v hv
    have hsufaND : (suf a).Nodup := (hE a ▸ hEND a).of_append_right
    have hvnotdrop : v ∉ (suf a).dropLast := by
      intro hc
      have : ¬ ((suf a).dropLast ++ [v]).Nodup := by
        rw [List.nodup_append]
        intro ⟨_, _, hdisj⟩
        exact hdisj hc (by simp)
      rw [hsplit] at this
      exact this hsufaND
    -- evaluate the pop
    have hgetLast : ((s.nodeAt a).edges).getLast? = some v := by
      rw [hE a]
      rcases h0 : (s0.nodeAt a).edges with _ | ⟨x, xs⟩
      · simpa using hv
      · rw [List.getLast?_append]
        rw [hv]
        rfl
    have hpop : popEdge s a =
        ((s.setNode a { s.nodeAt a with edges := (s.nodeAt a).edges.dropLast }).setNode v
          { (s.setNode a { s.nodeAt a with
              edges := (s.nodeAt a).edges.dropLast }).nodeAt v with
            back_edges := ((s.setNode a { s.nodeAt a with
              edges := (s.nodeAt a).edges.dropLast }).nodeAt v).back_edges.erase a }) := by
      unfold popEdge removeEdge
      dsimp only
      rw [hgetLast]
    rw [List.foldl_cons, hpop]
    have halen' : a < s.nodes.length := by rw [hlen]; exact halen
    have hvlen' : v < s.nodes.length := by rw [hlen]; exact hvlen
    set dA : CycleNodeData :=
      { s.nodeAt a with edges := (s.nodeAt a).edges.dropLast } with hdA
    set sA : CycleGraphState := s.setNode a dA with hsA
    set dV : CycleNodeData :=
      { sA.nodeAt v with back_edges := (sA.nodeAt v).back_edges.erase a } with hdV
    set s2 : CycleGraphState := sA.setNode v dV with hs2
    have hdAedges : dA.edges = (s.nodeAt a).edges.dropLast := rfl
    have hdAback : dA.back_edges = (s.nodeAt a).back_edges := rfl
    have hdArmw : dA.rmw = (s.nodeAt a).rmw := rfl
    have hdAprom : dA.promise = (s.nodeAt a).promise := rfl
    have hdAdel : dA.deleted = (s.nodeAt a).deleted := rfl
    have hdVedges : dV.edges = (sA.nodeAt v).edges := rfl
    have hdVback : dV.back_edges = (sA.nodeAt v).back_edges.erase a := rfl
    have hdVrmw : dV.rmw = (sA.nodeAt v).rmw := rfl
    have hdVprom : dV.promise = (sA.nodeAt v).promise := rfl
    have hdVdel : dV.deleted = (sA.nodeAt v).deleted := rfl
    have hsAlen : sA.nodes.length = s.nodes.length := length_setNode s a dA
    have hs2len : s2.nodes.length = s.nodes.length := by
      rw [hs2, length_setNode, hsAlen]
    have hsAat : ∀ n, sA.nodeAt n = if a = n then dA else s.nodeAt n := by
      intro n
      rw [hsA, nodeAt_setNode]
      rcases Decidable.em (a = n) with h | h
      · rw [if_pos ⟨h, halen'⟩, if_pos h]
      · rw [if_neg (fun hc => h hc.1), if_neg h]
    have hs2at : ∀ n, s2.nodeAt n = if v = n then dV else sA.nodeAt n := by
      intro n
      rw [hs2, nodeAt_setNode]
      rcases Decidable.em (v = n) with h | h
      · rw [if_pos ⟨h, by rw [hsAlen]; exact hvlen'⟩, if_pos h]
      · rw [if_neg (fun hc => h hc.1), if_neg h]
    have hnotmem_b0 : a ∉ (s0.nodeAt v).back_edges := by
      intro hmemb
      have hiff := (hwf a halen).2.2.2.2 v hvlen
      have hvE0 : v ∈ (s0.nodeAt a).edges := hiff.2 hmemb
      have hndA := hEND a
      rw [hE a, List.nodup_append] at hndA
      exact hndA.2.2 hvE0 hvmem
    -- edges of the intermediate state
    have hsAedges : ∀ n, (sA.nodeAt n).edges =
        if a = n then (s.nodeAt a).edges.dropLast else (s.nodeAt n).edges := by
      intro n
      rw [hsAat n]
      split_ifs with h
      · exact hdAedges
      · rfl
    have hE2 : ∀ n, (s2.nodeAt n).edges = (s0.nodeAt n).edges ++
        (if n = a then (suf a).dropLast else suf n) := by
      intro n
      rw [hs2at n]
      by_cases hna : n = a
      · subst hna
        rw [if_pos rfl]
        have hgoal : (s.nodeAt n).edges.dropLast
            = (s0.nodeAt n).edges ++ (suf n).dropLast := by
          rw [hE n]
          exact List.dropLast_append_of_ne_nil _ hsufa
        by_cases hvn : v = n
        · rw [if_pos hvn, hdVedges, hsAedges v, if_pos hvn.symm]
          exact hgoal
        · rw [if_neg hvn, hsAedges n, if_pos rfl]
          exact hgoal
      · rw [if_neg hna]
        by_cases hvn : v = n
        · rw [if_pos hvn, hdVedges, hsAedges v]
          rw [if_neg (fun hc => hna (hc.trans hvn).symm), hvn]
          exact hE n
        · rw [if_neg hvn, hsAedges n, if_neg (fun hc => hna hc.symm)]
          exact hE n
    -- back edges of the intermediate state
    have hsAback : ∀ n, (sA.nodeAt n).back_edges = (s.nodeAt n).back_edges := by
      intro n
      rw [hsAat n]
      split_ifs with h
      · rw [hdAback, h]
      · rfl
    have hB2 : ∀ n, (s2.nodeAt n).back_edges = (s0.nodeAt n).back_edges ++
        (if n = v then (nb v).erase a else nb n) := by
      intro n
      rw [hs2at n]
      by_cases hvn : v = n
      · rw [if_pos hvn, if_pos hvn.symm, hdVback, hsAback v, hB v, hvn]
        rw [← hvn]
        exact List.erase_append_right _ hnotmem_b0
      · rw [if_neg hvn, if_neg (fun hc => hvn hc.symm), hsAback n]
        exact hB n
    -- counts against the tail of the log
    have hC2 : ∀ n, List.count n rest =
        (if n = a then (suf a).dropLast else suf n).length := by
      intro n
      rcases Decidable.em (n = a) with rfl | hna
      · rw [if_pos rfl]
        have hca := hC n
        rw [List.count_cons_self] at hca
        have hlensplit : (suf n).dropLast.length + 1 = (suf n).length := by
          conv_rhs => rw [← hsplit]
          simp
        omega
      · rw [if_neg hna]
        have hcn := hC n
        rwa [List.count_cons_of_ne (fun hc => hna hc)] at hcn
    have hND2 : ∀ n, (if n = v then (nb v).erase a else nb n).Nodup := by
      intro n
      split_ifs with h1
      · exact (hND v).erase a
      · exact hND n
    have hIFF2 : ∀ n m, m ∈ (if n = v then (nb v).erase a else nb n) ↔
        n ∈ (if m = a then (suf a).dropLast else suf m) := by
      intro n m
      rcases Decidable.em (n = v) with rfl | hnv
      · rw [if_pos rfl]
        rcases Decidable.em (m = a) with rfl | hma
        · rw [if_pos rfl]
          constructor
          · intro hc
            exact absurd hc ((hND n).not_mem_erase)
          · intro hc
            exact absurd hc hvnotdrop
        · rw [if_neg hma, List.mem_erase_of_ne hma]
          exact hIFF n m
      · rw [if_neg hnv]
        rcases Decidable.em (m = a) with rfl | hma
        · rw [if_pos rfl, hIFF n m]
          constructor
          · intro hc
            have hsp : n ∈ (suf m).dropLast ∨ n ∈ [v] := by
              rw [← List.mem_append, hsplit]
              exact hc
            rcases hsp with h | h
            · exact h
            · simp at h
              exact absurd h hnv
          · intro hc
            rw [← hsplit]
            exact List.mem_append_left _ hc
        · rw [if_neg hma]
          exact hIFF n m
    have hEND2 : ∀ n, (s2.nodeAt n).edges.Nodup := by
      intro n
      rw [hE2 n]
      split_ifs with h1
      · subst h1
        have hsub : ((s0.nodeAt n).edges ++ (suf n).dropLast).Sublist
            ((s0.nodeAt n).edges ++ suf n) :=
          List.Sublist.append_left (List.dropLast_sublist (suf n)) _
        exact ((hE n ▸ hEND n).sublist hsub)
      · rw [← hE n]
        exact hEND n
    have hRange2 : ∀ n m, m ∈ (if n = a then (suf a).dropLast else suf n) →
        m < s0.nodes.length := by
      intro n m hm
      split_ifs at hm with h1
      · exact hRange a m ((List.dropLast_sublist (suf a)).mem hm)
      · exact hRange n m hm
    have hsArmw : ∀ n, (sA.nodeAt n).rmw = (s.nodeAt n).rmw := by
      intro n
      rw [hsAat n]
      split_ifs with h
      · rw [hdArmw, h]
      · rfl
    have hrmw2 : ∀ n, (s2.nodeAt n).rmw = (s.nodeAt n).rmw := by
      intro n
      rw [hs2at n]
      split_ifs with h
      · rw [hdVrmw, hsArmw v, h]
      · exact hsArmw n
    have hsAprom : ∀ n, (sA.nodeAt n).promise = (s.nodeAt n).promise := by
      intro n
      rw [hsAat n]
      split_ifs with h
      · rw [hdAprom, h]
      · rfl
    have hprom2 : ∀ n, (s2.nodeAt n).promise = (s.nodeAt n).promise := by
      intro n
      rw [hs2at n]
      split_ifs with h
      · rw [hdVprom, hsAprom v, h]
      · exact hsAprom n
    have hsAdel : ∀ n, (sA.nodeAt n).deleted = (s.nodeAt n).deleted := by
      intro n
      rw [hsAat n]
      split_ifs with h
      · rw [hdAdel, h]
      · rfl
    have hdel2 : ∀ n, (s2.nodeAt n).deleted = (s.nodeAt n).deleted := by
      intro n
      rw [hs2at n]
      split_ifs with h
      · rw [hdVdel, hsAdel v, h]
      · exact hsAdel n
    have hres := ih s2 (fun n => if n = a then (suf a).dropLast else suf n)
      (fun n => if n = v then (nb v).erase a else nb n)
      (by rw [hs2len, hlen]) hE2 hC2 hB2 hND2 hIFF2 hEND2 hRange2
    obtain ⟨hnodes, hlenR, hhc, hoc, hrv, hrmv⟩ := hres
    refine ⟨?_, ?_, ?_, ?_, ?_, ?_⟩
    · intro n
      obtain ⟨e1, e2, e3, e4, e5⟩ := hnodes n
      exact ⟨e1, e2, by rw [e3, hrmw2 n], by rw [e4, hprom2 n], by rw [e5, hdel2 n]⟩
    · rw [hlenR, hs2len]
    · rw [hhc, hs2, hsA]
      rfl
    · rw [hoc, hs2, hsA]
      rfl
    · rw [hrv, hs2, hsA]
      rfl
    · rw [hrmv, hs2, hsA]
      rfl

theorem addEdge_of_not_mem (s : CycleGraphState) (u v : Nat)
    (h : v ∉ (s.nodeAt u).edges) :
    addEdge s u v =
      (true,
       (s.setNode u { s.nodeAt u with edges := (s.nodeAt u).edges ++ [v] }).setNode v
         { (s.setNode u { s.nodeAt u with edges := (s.nodeAt u).edges ++ [v] }).nodeAt v with
           back_edges :=
             ((s.setNode u { s.nodeAt u with edges :=
               (s.nodeAt u).edges ++ [v] }).nodeAt v).back_edges ++ [u] }) := by
  unfold addEdge; dsimp only; rw [if_neg h]

/-- The forward-edge lists after a fresh `CycleNode::addEdge`: only the source
gains an entry, at the end of its list. -/
theorem addEdge_edges_char (s : CycleGraphState) (u v : Nat)
    (hmem : v ∉ (s.nodeAt u).edges) (hu : u < s.nodes.length) (n : Nat) :
    ((addEdge s u v).2.nodeAt n).edges =
      if u = n then (s.nodeAt u).edges ++ [v] else (s.nodeAt n).edges := by
  rw [addEdge_of_not_mem s u v hmem]
  simp only [nodeAt_setNode, length_setNode]
  split_ifs with h1 h2 h3 h4 h5 <;> simp_all

/-- The back-edge lists after a fresh `CycleNode::addEdge`: only the target gains
an entry, at the end of its list. -/
theorem addEdge_back_char (s : CycleGraphState) (u v : Nat)
    (hmem : v ∉ (s.nodeAt u).edges) (hu : u < s.nodes.length)
    (hv : v < s.nodes.length) (n : Nat) :
    ((addEdge s u v).2.nodeAt n).back_edges =
      if v = n then (s.nodeAt v).back_edges ++ [u] else (s.nodeAt n).back_edges := by
  rw [addEdge_of_not_mem s u v hmem]
  simp only [nodeAt_setNode, length_setNode]
  split_ifs with h1 h2 h3 h4 h5 <;> simp_all

/-- The simulation invariant of the rollback-exactness argument: the transaction
state `s` differs from the snapshot `s0` only by per-node forward-edge suffixes
`suf` counted exactly by `rollbackvector`, matching back-edge suffixes `nb`, and
rmw successors recorded in `rmwrollbackvector`. -/
structure Sim (s0 s : CycleGraphState) (suf nb : Nat → List Nat) : Prop where
  len : s.nodes.length = s0.nodes.length
  edg : ∀ n, (s.nodeAt n).edges = (s0.nodeAt n).edges ++ suf n
  cnt : ∀ n, List.count n s.rollbackvector = (suf n).length
  bck : ∀ n, (s.nodeAt n).back_edges = (s0.nodeAt n).back_edges ++ nb n
  nbnd : ∀ n, (nb n).Nodup
  sym : ∀ n m, m ∈ nb n ↔ n ∈ suf m
  ednd : ∀ n, (s.nodeAt n).edges.Nodup
  rng : ∀ n m, m ∈ suf n → m < s0.nodes.length
  rmwIn : ∀ n, n ∈ s.rmwrollbackvector → (s0.nodeAt n).rmw = none
  rmwOut : ∀ n, n ∉ s.rmwrollbackvector → (s.nodeAt n).rmw = (s0.nodeAt n).rmw
  rmwRng : ∀ n r, (s.nodeAt n).rmw = some r → r < s0.nodes.length
  prm : ∀ n, (s.nodeAt n).promise = (s0.nodeAt n).promise
  del : ∀ n, (s.nodeAt n).deleted = (s0.nodeAt n).deleted
  old : s.oldCycles = s0.oldCycles

/-- The simulation invariant only reads `nodes`, the two undo logs and
`oldCycles`, so it transfers along equalities of those components. -/
theorem Sim.congr {s0 s s' : CycleGraphState} {suf nb : Nat → List Nat}
    (h : Sim s0 s suf nb) (hn : s'.nodes = s.nodes)
    (hr : s'.rollbackvector = s.rollbackvector)
    (hm : s'.rmwrollbackvector = s.rmwrollbackvector)
    (ho : s'.oldCycles = s.oldCycles) : Sim s0 s' suf nb := by
  have hat : ∀ n, s'.nodeAt n = s.nodeAt n := by
    intro n; unfold CycleGraphState.nodeAt; rw [hn]
  refine ⟨by rw [hn]; exact h.len, fun n => by rw [hat n]; exact h.edg n,
    fun n => by rw [hr]; exact h.cnt n, fun n => by rw [hat n]; exact h.bck n,
    h.nbnd, h.sym, fun n => by rw [hat n]; exact h.ednd n, h.rng,
    fun n hn2 => h.rmwIn n (hm ▸ hn2),
    fun n hn2 => by rw [hat n]; exact h.rmwOut n (fun hc => hn2 (hm ▸ hc)),
    fun n r hr2 => h.rmwRng n r (by rw [← hat n]; exact hr2),
    fun n => by rw [hat n]; exact h.prm n,
    fun n => by rw [hat n]; exact h.del n, ho.trans h.old⟩

theorem sim_maybeRaise {s0 s : CycleGraphState} {suf nb : Nat → List Nat}
    (h : Sim s0 s suf nb) (a b : Nat) : Sim s0 (maybeRaiseCycle s a b) suf nb :=
  h.congr (maybeRaiseCycle_nodes s a b) (maybeRaiseCycle_rollbackvector s a b)
    (maybeRaiseCycle_rmwrollbackvector s a b) (maybeRaiseCycle_oldCycles s a b)

/-- The simulation invariant is preserved by one logged `CycleNode::addEdge` call
(the building block of `addNodeEdge` and the rmw migration loop): when the edge
is new, the source's suffix gains the target and the target's back suffix gains
the source, matching the new `rollbackvector` entry. -/
theorem sim_logAdd {s0 s : CycleGraphState} {suf nb : Nat → List Nat}
    (h : Sim s0 s suf nb) (u v : Nat) (hu : u < s0.nodes.length)
    (hv : v < s0.nodes.length) :
    ∃ suf2 nb2, Sim s0 (logIfAdded u (addEdge s u v)).2 suf2 nb2 := by
  by_cases hmem : v ∈ (s.nodeAt u).edges
  · rw [addEdge_of_mem s u v hmem, logIfAdded_of_false u _ rfl]
    exact ⟨suf, nb, h⟩
  · refine ⟨(fun n => if u = n then suf u ++ [v] else suf n),
      (fun n => if v = n then nb v ++ [u] else nb n), ?_⟩
    have hu' : u < s.nodes.length := by rw [h.len]; exact hu
    have hv' : v < s.nodes.length := by rw [h.len]; exact hv
    have hfst : (addEdge s u v).1 = true := addEdge_fst_of_not_mem s u v hmem
    have hE := addEdge_edges_char s u v hmem hu'
    have hB := addEdge_back_char s u v hmem hu' hv'
    have hvsuf : v ∉ suf u := fun hc => hmem (by
      rw [h.edg u]; exact List.mem_append_right _ hc)
    have hunb : u ∉ nb v := fun hc => hvsuf ((h.sym v u).mp hc)
    have hrb : (logIfAdded u (addEdge s u v)).2.rollbackvector
        = s.rollbackvector ++ [u] := by
      rw [logIfAdded_rollbackvector_of_true u _ hfst, addEdge_rollbackvector]
    have hat : ∀ n, (logIfAdded u (addEdge s u v)).2.nodeAt n
        = (addEdge s u v).2.nodeAt n := logIfAdded_nodeAt u _
    refine ⟨?_, ?_, ?_, ?_, ?_, ?_, ?_, ?_, ?_, ?_, ?_, ?_, ?_, ?_⟩
    · have : (logIfAdded u (addEdge s u v)).2.nodes = (addEdge s u v).2.nodes :=
        logIfAdded_nodes u _
      rw [this, addEdge_length, h.len]
    · intro n
      rw [hat n, hE n]
      split_ifs with h1
      · subst h1
        rw [h.edg u, List.append_assoc]
      · exact h.edg n
    · intro n
      rw [hrb, List.count_append]
      rcases Decidable.em (u = n) with rfl | hne
      · rw [if_pos rfl]
        simp [h.cnt u]
      · rw [if_neg hne]
        have hz : List.count n [u] = 0 := by
          rw [List.count_eq_zero]
          simp only [List.mem_singleton]
          exact fun hc => hne hc.symm
        rw [hz, h.cnt n, Nat.add_zero]
    · intro n
      rw [hat n, hB n]
      split_ifs with h1
      · subst h1
        rw [h.bck v, List.append_assoc]
      · exact h.bck n
    · intro n
      split_ifs with h1
      · rw [List.nodup_append]
        refine ⟨h.nbnd v, List.nodup_singleton u, ?_⟩
        intro x hx hx2
        simp only [List.mem_singleton] at hx2
        subst hx2
        exact hunb hx
      · exact h.nbnd n
    · intro n m
      rcases Decidable.em (v = n) with rfl | hnv
      · rw [if_pos rfl]
        rcases Decidable.em (u = m) with rfl | hmu
        · rw [if_pos rfl]
          simp
        · rw [if_neg hmu]
          simp only [List.mem_append, List.mem_singleton]
          constructor
          · intro hc
            rcases hc with hc | hc
            · exact (h.sym v m).mp hc
            · exact absurd hc.symm hmu
          · intro hc
            exact Or.inl ((h.sym v m).mpr hc)
      · rw [if_neg hnv]
        rcases Decidable.em (u = m) with rfl | hmu
        · rw [if_pos rfl]
          constructor
          · intro hc
            exact List.mem_append_left _ ((h.sym n u).mp hc)
          · intro hc
            rcases List.mem_append.mp hc with hc | hc
            · exact (h.sym n u).mpr hc
            · simp only [List.mem_singleton] at hc
              exact absurd hc.symm hnv
        · rw [if_neg hmu]
          exact h.sym n m
    · intro n
      rw [hat n, hE n]
      split_ifs with h1
      · subst h1
        rw [List.nodup_append]
        exact ⟨h.ednd u, List.nodup_singleton v, fun x hx hx2 => by
          simp only [List.mem_singleton] at hx2
          subst hx2
          exact hmem hx⟩
      · exact h.ednd n
    · intro n m hm
      split_ifs at hm with h1
      · rcases List.mem_append.mp hm with hc | hc
        · exact h.rng u m hc
        · simp only [List.mem_singleton] at hc
          subst hc
          exact hv
      · exact h.rng n m hm
    · intro n hn
      refine h.rmwIn n ?_
      rw [← addEdge_rmwrollbackvector s u v,
        ← logIfAdded_rmwrollbackvector u (addEdge s u v)]
      exact hn
    · intro n hn
      rw [hat n, addEdge_nodeAt_rmw]
      refine h.rmwOut n (fun hc => hn ?_)
      rw [logIfAdded_rmwrollbackvector, addEdge_rmwrollbackvector]
      exact hc
    · intro n r hr
      rw [hat n, addEdge_nodeAt_rmw] at hr
      exact h.rmwRng n r hr
    · intro n
      rw [hat n, addEdge_nodeAt_promise]
      exact h.prm n
    · intro n
      rw [hat n, addEdge_nodeAt_deleted]
      exact h.del n
    · rw [logIfAdded_oldCycles, addEdge_oldCycles]
      exact h.old

/-- The simulation invariant is preserved by `CycleGraph::addNodeEdge`. -/
theorem sim_addNodeEdge {s0 s : CycleGraphState} {suf nb : Nat → List Nat}
    (h : Sim s0 s suf nb) (u v : Nat) (hu : u < s0.nodes.length)
    (hv : v < s0.nodes.length) :
    ∃ suf2 nb2, Sim s0 (addNodeEdge s u v).2 suf2 nb2 := by
  obtain ⟨suf1, nb1, h1⟩ := sim_logAdd (sim_maybeRaise h v u) u v hu hv
  unfold addNodeEdge
  dsimp only
  rcases hrmw : ((logIfAdded u (addEdge (maybeRaiseCycle s v u) u v)).2.nodeAt u).rmw
    with _ | r
  · simp only [hrmw]
    exact ⟨suf1, nb1, h1⟩
  · simp only [hrmw]
    split_ifs with hrv
    · exact ⟨suf1, nb1, h1⟩
    · dsimp only
      have hr : r < s0.nodes.length := h1.rmwRng u r hrmw
      obtain ⟨suf2, nb2, h2⟩ := sim_logAdd (sim_maybeRaise h1 v r) r v hr hv
      exact ⟨suf2, nb2, h2⟩

/-- The simulation invariant is preserved by the successful `CycleNode::setRMW`
branch of `addRMWEdge`, which records the node on `rmwrollbackvector`. -/
theorem sim_setRMWLog {s0 s : CycleGraphState} {suf nb : Nat → List Nat}
    (h : Sim s0 s suf nb) (u v : Nat) (hu : u < s0.nodes.length)
    (hv : v < s0.nodes.length) (hnone : (s.nodeAt u).rmw = none) :
    Sim s0 { s.setNode u { s.nodeAt u with rmw := some v } with
             rmwrollbackvector :=
               (s.setNode u { s.nodeAt u with rmw := some v }).rmwrollbackvector
                 ++ [u] } suf nb := by
  have hu' : u < s.nodes.length := by rw [h.len]; exact hu
  have hat : ∀ n,
      ({ s.setNode u { s.nodeAt u with rmw := some v } with
         rmwrollbackvector :=
           (s.setNode u { s.nodeAt u with rmw := some v }).rmwrollbackvector
             ++ [u] } : CycleGraphState).nodeAt n =
        if u = n then { s.nodeAt u with rmw := some v } else s.nodeAt n := by
    intro n
    show (s.setNode u { s.nodeAt u with rmw := some v }).nodeAt n = _
    rw [nodeAt_setNode]
    rcases Decidable.em (u = n) with hc | hc
    · rw [if_pos ⟨hc, hu'⟩, if_pos hc]
    · rw [if_neg (fun hx => hc hx.1), if_neg hc]
  refine ⟨?_, ?_, ?_, ?_, h.nbnd, h.sym, ?_, h.rng, ?_, ?_, ?_, ?_, ?_, h.old⟩
  · show (s.setNode u _).nodes.length = _
    rw [length_setNode]
    exact h.len
  · intro n
    rw [hat n]
    split_ifs with hc
    · subst hc
      exact h.edg u
    · exact h.edg n
  · intro n
    exact h.cnt n
  · intro n
    rw [hat n]
    split_ifs with hc
    · subst hc
      exact h.bck u
    · exact h.bck n
  · intro n
    rw [hat n]
    split_ifs with hc
    · subst hc
      exact h.ednd u
    · exact h.ednd n
  · intro n hn
    rcases List.mem_append.mp hn with hc | hc
    · exact h.rmwIn n hc
    · simp only [List.mem_singleton] at hc
      subst hc
      rcases Decidable.em (n ∈ s.rmwrollbackvector) with hm | hm
      · exact h.rmwIn n hm
      · rw [← h.rmwOut n hm]
        exact hnone
  · intro n hn
    rw [hat n]
    have hne : ¬ u = n := fun hc => hn (by
      subst hc
      exact List.mem_append_right _ (by simp))
    rw [if_neg hne]
    exact h.rmwOut n (fun hc => hn (List.mem_append_left _ hc))
  · intro n r hr
    rw [hat n] at hr
    split_ifs at hr with hc
    · simp only [Option.some.injEq] at hr
      subst hr
      exact hv
    · exact h.rmwRng n r hr
  · intro n
    rw [hat n]
    split_ifs with hc
    · subst hc
      exact h.prm u
    · exact h.prm n
  · intro n
    rw [hat n]
    split_ifs with hc
    · subst hc
      exact h.del u
    · exact h.del n

/-- The simulation invariant is preserved by the rmw edge-migration loop of
`addRMWEdge` (each step is a logged `addEdge` from the rmw node). -/
theorem sim_migrateFold {s0 : CycleGraphState} (v : Nat)
    (hv : v < s0.nodes.length) :
    ∀ (l : List Nat), (∀ t ∈ l, t < s0.nodes.length) →
    ∀ {s : CycleGraphState} {suf nb : Nat → List Nat}, Sim s0 s suf nb →
      ∃ suf2 nb2, Sim s0 (l.foldl (migrateStep v) s) suf2 nb2 := by
  intro l
  induction l with
  | nil =>
    intro _ s suf nb h
    exact ⟨suf, nb, h⟩
  | cons t ts ih =>
    intro hts s suf nb h
    rw [List.foldl_cons]
    have hstep : ∃ suf2 nb2, Sim s0 (migrateStep v s t) suf2 nb2 := by
      unfold migrateStep
      split_ifs with hc
      · exact ⟨suf, nb, h⟩
      · exact sim_logAdd h v t hv (hts t (by simp))
    obtain ⟨suf2, nb2, h2⟩ := hstep
    exact ih (fun x hx => hts x (by simp [hx])) h2

/-- In a simulated transaction state every forward edge points at an existing
node: the snapshot part by wellformedness of the snapshot, the suffix part by
the invariant. -/
theorem Sim.edgeBound {s0 s : CycleGraphState} {suf nb : Nat → List Nat}
    (h : Sim s0 s suf nb) (hwf : WF s0) (n : Nat) :
    ∀ t ∈ (s.nodeAt n).edges, t < s0.nodes.length := by
  intro t ht
  rw [h.edg n] at ht
  rcases List.mem_append.mp ht with hc | hc
  · rcases Nat.lt_or_ge n s0.nodes.length with hn | hn
    · exact (hwf n hn).2.2.1 t hc
    · rw [nodeAt_out s0 n hn] at hc
      exact absurd hc (List.not_mem_nil t)
  · exact h.rng n t hc

/-- The simulation invariant is preserved by `CycleGraph::addRMWEdge`. -/
theorem sim_addRMWEdge {s0 s : CycleGraphState} {suf nb : Nat → List Nat}
    (hwf : WF s0) (h : Sim s0 s suf nb) (u v : Nat) (hu : u < s0.nodes.length)
    (hv : v < s0.nodes.length) :
    ∃ suf2 nb2, Sim s0 (addRMWEdge s u v) suf2 nb2 := by
  unfold addRMWEdge
  dsimp only
  rcases hsr : (s.nodeAt u).rmw with _ | r
  · rw [setRMW_of_none s u v hsr]
    dsimp only
    rw [if_neg Bool.false_ne_true]
    have h2 := sim_setRMWLog h u v hu hv hsr
    obtain ⟨suf3, nb3, h3⟩ := sim_migrateFold v hv _ (h2.edgeBound hwf u) h2
    exact sim_addNodeEdge h3 u v hu hv
  · rw [setRMW_of_some s u v r hsr]
    dsimp only
    rw [if_pos rfl]
    have h2 : Sim s0 { s with hasCycles := true } suf nb :=
      h.congr rfl rfl rfl rfl
    obtain ⟨suf3, nb3, h3⟩ := sim_migrateFold v hv _ (h2.edgeBound hwf u) h2
    exact sim_addNodeEdge h3 u v hu hv

/-- At a transaction start the state simulates itself with empty suffixes. -/
theorem sim_init {s0 : CycleGraphState} (hwf : WF s0) (hstart : atTxnStart s0)
    (hrng : ∀ n r, (s0.nodeAt n).rmw = some r → r < s0.nodes.length) :
    Sim s0 s0 (fun _ => []) (fun _ => []) := by
  obtain ⟨h1, h2, h3⟩ := hstart
  refine ⟨rfl, fun n => by simp, fun n => by rw [h1]; simp, fun n => by simp,
    fun n => List.nodup_nil, fun n m => by simp, ?_,
    fun n m hm => absurd hm (List.not_mem_nil m),
    fun n hn => by rw [h2] at hn; exact absurd hn (List.not_mem_nil n),
    fun n _ => rfl, hrng, fun n => rfl, fun n => rfl, rfl⟩
  intro n
  rcases Nat.lt_or_ge n s0.nodes.length with hlt | hge
  · exact (hwf n hlt).1
  · rw [nodeAt_out s0 n hge]
    exact List.nodup_nil

/-- The simulation invariant is preserved by any sequence of public edge
operations whose node ids exist in the snapshot. -/
theorem sim_applyTxnOps {s0 : CycleGraphState} (hwf : WF s0) :
    ∀ (ops : List TxnOp), (∀ op ∈ ops, opIdsOk s0 op) →
    ∀ {s : CycleGraphState} {suf nb : Nat → List Nat}, Sim s0 s suf nb →
      ∃ suf2 nb2, Sim s0 (applyTxnOps s ops) suf2 nb2 := by
  intro ops
  induction ops with
  | nil =>
    intro _ s suf nb h
    exact ⟨suf, nb, h⟩
  | cons op ops ih =>
    intro hops s suf nb h
    have hstep : ∃ suf2 nb2, Sim s0 (applyTxnOp s op) suf2 nb2 := by
      have hok := hops op (by simp)
      cases op with
      | addedge u v => exact sim_addNodeEdge h u v hok.1 hok.2
      | addrmw u v => exact sim_addRMWEdge hwf h u v hok.1 hok.2
    obtain ⟨suf2, nb2, h2⟩ := hstep
    exact ih (fun x hx => hops x (by simp [hx])) h2

/-- The rmw-clearing loop of `rollbackChanges`, characterised pointwise: exactly
the nodes on the log lose their rmw successor. -/
theorem foldClear_nodeAt :
    ∀ (l : List Nat) (t : CycleGraphState) (n : Nat),
      (l.foldl clearRMW t).nodeAt n =
        if n ∈ l then { t.nodeAt n with rmw := none } else t.nodeAt n := by
  intro l
  induction l with
  | nil =>
    intro t n
    rw [List.foldl_nil, if_neg (List.not_mem_nil n)]
  | cons a as ih =>
    intro t n
    rw [List.foldl_cons, ih]
    have hca : ∀ m, (clearRMW t a).nodeAt m =
        if a = m ∧ a < t.nodes.length then { t.nodeAt a with rmw := none }
        else t.nodeAt m := by
      intro m
      unfold clearRMW
      dsimp only
      rw [nodeAt_setNode]
    by_cases hmem : n ∈ as
    · rw [if_pos hmem, if_pos (by simp [hmem]), hca n]
      split_ifs with h1
      · obtain ⟨rfl, _⟩ := h1
        rfl
      · rfl
    · rw [if_neg hmem]
      by_cases hna : n = a
      · subst hna
        rw [if_pos (by simp), hca n]
        split_ifs with h1
        · rfl
        · have hge : t.nodes.length ≤ n := by
            rcases Nat.lt_or_ge n t.nodes.length with hlt | hge
            · exact absurd ⟨rfl, hlt⟩ h1
            · exact hge
          rw [nodeAt_out t n hge]
          rfl
      · rw [if_neg (by simp [hmem, hna]), hca n,
          if_neg (fun hc => hna hc.1.symm)]

theorem foldClear_length (l : List Nat) (t : CycleGraphState) :
    (l.foldl clearRMW t).nodes.length = t.nodes.length :=
  foldl_pres clearRMW (fun x => x.nodes.length)
    (fun s x => by unfold clearRMW; dsimp only; exact length_setNode s x _) l t

theorem foldClear_oldCycles (l : List Nat) (t : CycleGraphState) :
    (l.foldl clearRMW t).oldCycles = t.oldCycles :=
  foldl_pres clearRMW (fun x => x.oldCycles) (fun s x => rfl) l t

theorem cycleNodeData_ext {d e : CycleNodeData} (h1 : d.edges = e.edges)
    (h2 : d.back_edges = e.back_edges) (h3 : d.rmw = e.rmw)
    (h4 : d.promise = e.promise) (h5 : d.deleted = e.deleted) : d = e := by
  cases d
  cases e
  simp only [CycleNodeData.mk.injEq]
  exact ⟨h1, h2, h3, h4, h5⟩

theorem state_ext {t u : CycleGraphState} (h1 : t.nodes = u.nodes)
    (h2 : t.hasCycles = u.hasCycles) (h3 : t.oldCycles = u.oldCycles)
    (h4 : t.rollbackvector = u.rollbackvector)
    (h5 : t.rmwrollbackvector = u.rmwrollbackvector) : t = u := by
  cases t
  cases u
  simp only [CycleGraphState.mk.injEq]
  exact ⟨h1, h2, h3, h4, h5⟩

theorem nodes_eq_of_nodeAt {t u : CycleGraphState}
    (hlen : t.nodes.length = u.nodes.length)
    (hat : ∀ n, t.nodeAt n = u.nodeAt n) : t.nodes = u.nodes := by
  apply List.ext_getElem hlen
  intro n h1 h2
  have hn := hat n
  unfold CycleGraphState.nodeAt at hn
  rwa [List.getD_eq_getElem?_getD, List.getD_eq_getElem?_getD,
    List.getElem?_eq_getElem h1, List.getElem?_eq_getElem h2,
    Option.getD_some, Option.getD_some] at hn

/-- A state simulating a snapshot taken at a transaction start rolls back to
exactly that snapshot. -/
theorem rollback_of_sim {s0 s : CycleGraphState} {suf nb : Nat → List Nat}
    (hwf : WF s0) (hstart : atTxnStart s0) (hsim : Sim s0 s suf nb) :
    rollbackChanges s = s0 := by
  obtain ⟨hnodes, hlen1, hhc1, hoc1, hrv1, hrmv1⟩ :=
    foldPop_restores s0 hwf s.rollbackvector s suf nb hsim.len hsim.edg hsim.cnt
      hsim.bck hsim.nbnd hsim.sym hsim.ednd hsim.rng
  have hat2 : ∀ n,
      (s.rmwrollbackvector.foldl clearRMW (s.rollbackvector.foldl popEdge s)).nodeAt n
        = s0.nodeAt n := by
    intro n
    rw [foldClear_nodeAt]
    obtain ⟨e1, e2, e3, e4, e5⟩ := hnodes n
    split_ifs with hmem
    · exact cycleNodeData_ext e1 e2 (hsim.rmwIn n hmem).symm
        (e4.trans (hsim.prm n)) (e5.trans (hsim.del n))
    · exact cycleNodeData_ext e1 e2 (e3.trans (hsim.rmwOut n hmem))
        (e4.trans (hsim.prm n)) (e5.trans (hsim.del n))
  have hlen2 :
      (s.rmwrollbackvector.foldl clearRMW (s.rollbackvector.foldl popEdge s)).nodes.length
        = s0.nodes.length := by
    rw [foldClear_length, hlen1, hsim.len]
  obtain ⟨h1, h2, h3⟩ := hstart
  unfold rollbackChanges
  dsimp only
  refine state_ext ?_ ?_ ?_ ?_ ?_
  · exact nodes_eq_of_nodeAt hlen2 hat2
  · exact hsim.old.trans h3
  · show (s.rmwrollbackvector.foldl clearRMW (s.rollbackvector.foldl popEdge s)).oldCycles
      = s0.oldCycles
    rw [foldClear_oldCycles, hoc1]
    exact hsim.old
  · exact h1.symm
  · exact h2.symm

theorem mkInit_nodeAt (k n : Nat) : (mkInit k).nodeAt n = default := by
  unfold mkInit CycleGraphState.nodeAt
  dsimp only
  rcases Nat.lt_or_ge n k with hlt | hge
  · rw [List.getD_eq_getElem?_getD,
      List.getElem?_eq_getElem (by simpa using hlt)]
    simp
  · rw [List.getD_eq_getElem?_getD, List.getElem?_eq_none (by simpa using hge)]
    rfl

end RollbackExact

section ClaimC1

/-- C1: Rollback soundness over the edge-insertion interface, the exact part of
the claim. Starting from a wellformed graph at a transaction start whose rmw
successors point at existing nodes, every sequence of `add_edge` and
`add_rmw_edge` operations on existing nodes is undone bit-for-bit by
`rollbackChanges`: every pushed forward and back edge is removed, every rmw
successor set in the transaction is cleared, and `has_cycles` is restored. The
claim's further inclusion of `resolve_promise`/merge among the rollbackable
operations fails: `CycleGraph::mergeNodes` destroys edges outside the undo log
(see the separate counterexample). -/
theorem c1_rollback_exact (s0 : CycleGraphState) (ops : List TxnOp)
    (hwf : WF s0) (hstart : atTxnStart s0)
    (hrng : ∀ n r, (s0.nodeAt n).rmw = some r → r < s0.nodes.length)
    (hops : ∀ op ∈ ops, opIdsOk s0 op) :
    rollbackChanges (applyTxnOps s0 ops) = s0 := by
  obtain ⟨suf, nb, hsim⟩ := sim_applyTxnOps hwf ops hops (sim_init hwf hstart hrng)
  exact rollback_of_sim hwf hstart hsim

/-- Closed witness instantiating `c1_rollback_exact`: two fresh edges, one rmw
edge and one duplicate edge on a four-node graph roll back to the initial
state. -/
theorem c1_rollback_exact_witness :
    WF (mkInit 4) ∧ atTxnStart (mkInit 4) ∧
    (∀ n r, ((mkInit 4).nodeAt n).rmw = some r → r < (mkInit 4).nodes.length) ∧
    (∀ op ∈ [TxnOp.addedge 0 1, TxnOp.addrmw 1 2, TxnOp.addedge 2 3,
      TxnOp.addedge 0 1], opIdsOk (mkInit 4) op) ∧
    rollbackChanges (applyTxnOps (mkInit 4) [TxnOp.addedge 0 1, TxnOp.addrmw 1 2,
      TxnOp.addedge 2 3, TxnOp.addedge 0 1]) = mkInit 4 :=
  ⟨by decide, by decide,
   fun n r h => by rw [mkInit_nodeAt] at h; exact Option.noConfusion h,
   by decide,
   c1_rollback_exact (mkInit 4) _ (by decide) (by decide)
     (fun n r h => by rw [mkInit_nodeAt] at h; exact Option.noConfusion h)
     (by decide)⟩

end ClaimC1

section C2Sound

/-- Every forward edge points at an existing node. -/
def ERng (s : CycleGraphState) : Prop :=
  ∀ m, ∀ e ∈ (s.nodeAt m).edges, e < s.nodes.length

/-- Every rmw successor link is shadowed by a forward edge (as established by the
`addNodeEdge` call at the end of `addRMWEdge`). -/
def RmwSub (s : CycleGraphState) : Prop :=
  ∀ m r, (s.nodeAt m).rmw = some r → r ∈ (s.nodeAt m).edges

/-- The forward-edge graph has no cycle. -/
def EdgeAcyclic (s : CycleGraphState) : Prop :=
  ∀ a, ¬ Relation.TransGen (edgeStep s) a a

/-- Splitting a path of an enlarged relation at the added pair: either it avoids
the new pair, or it reaches `u` and continues from `v` in the old relation. -/
theorem rtg_split {α : Type} {S R : α → α → Prop} {u v : α}
    (hdec : ∀ a b, S a b → R a b ∨ (a = u ∧ b = v)) :
    ∀ {x y : α}, Relation.ReflTransGen S x y →
      Relation.ReflTransGen R x y ∨
        (Relation.ReflTransGen R x u ∧ Relation.ReflTransGen R v y) := by
  intro x y h
  induction h with
  | refl => exact Or.inl Relation.ReflTransGen.refl
  | tail hxz hzy ih =>
    rcases hdec _ _ hzy with hold | ⟨rfl, rfl⟩
    · rcases ih with ih | ⟨ih1, ih2⟩
      · exact Or.inl (ih.tail hold)
      · exact Or.inr ⟨ih1, ih2.tail hold⟩
    · rcases ih with ih | ⟨ih1, _⟩
      · exact Or.inr ⟨ih, Relation.ReflTransGen.refl⟩
      · exact Or.inr ⟨ih1, Relation.ReflTransGen.refl⟩

/-- Adding the single edge u→v keeps the graph acyclic when `v` did not already
reach `u`. -/
theorem acyclic_add_edge {s s2 : CycleGraphState} {u v : Nat}
    (hstep : ∀ a b, edgeStep s2 a b → edgeStep s a b ∨ (a = u ∧ b = v))
    (hacyc : EdgeAcyclic s) (hnreach : ¬ Reach s v u) : EdgeAcyclic s2 := by
  intro a hc
  rcases Relation.TransGen.head'_iff.mp hc with ⟨b, hab, hba⟩
  rcases rtg_split hstep hba with hold | ⟨h1, h2⟩
  · rcases hstep a b hab with hs | ⟨rfl, rfl⟩
    · exact hacyc a (Relation.TransGen.head' hs hold)
    · exact hnreach hold
  · rcases hstep a b hab with hs | ⟨rfl, rfl⟩
    · exact hnreach (h2.trans ((Relation.ReflTransGen.single hs).trans h1))
    · exact hnreach h1

/-- A path whose start is not `v` stays inside the old relation when every new
step starts at `v` and no step ends at `v`. -/
theorem rtg_avoid {α : Type} {S R : α → α → Prop} {v : α}
    (hstep : ∀ a b, S a b → R a b ∨ a = v)
    (hnoin : ∀ a b, S a b → b ≠ v) :
    ∀ {x y : α}, Relation.ReflTransGen S x y → x ≠ v →
      Relation.ReflTransGen R x y := by
  intro x y h
  induction h using Relation.ReflTransGen.head_induction_on with
  | refl => intro _; exact Relation.ReflTransGen.refl
  | head hxc hcy ih =>
    intro hxv
    rcases hstep _ _ hxc with hold | rfl
    · exact (ih (hnoin _ _ hxc)).head hold
    · exact absurd rfl hxv

/-- If no step ends at `v`, a path into `v` is trivial. -/
theorem rtg_to_closed {α : Type} {S : α → α → Prop} {v : α}
    (hnoin : ∀ a b, S a b → b ≠ v) {x : α}
    (h : Relation.ReflTransGen S x v) : x = v := by
  rcases Relation.ReflTransGen.cases_tail h with heq | ⟨c, _, hcv⟩
  · exact heq.symm
  · exact absurd rfl (hnoin _ _ hcv)

/-- Adding edges that all start at a node with no incoming edge keeps the graph
acyclic. -/
theorem acyclic_add_from_source {s s2 : CycleGraphState} {v : Nat}
    (hstep : ∀ a b, edgeStep s2 a b → edgeStep s a b ∨ a = v)
    (hnoin : ∀ a b, edgeStep s2 a b → b ≠ v)
    (hacyc : EdgeAcyclic s) : EdgeAcyclic s2 := by
  intro a hc
  rcases Relation.TransGen.head'_iff.mp hc with ⟨b, hab, hba⟩
  have hbv : b ≠ v := hnoin _ _ hab
  rcases Decidable.em (a = v) with rfl | hav
  · exact hbv (rtg_to_closed hnoin hba)
  · rcases hstep a b hab with hs | rfl
    · exact hacyc a (Relation.TransGen.head' hs (rtg_avoid hstep hnoin hba hbv))
    · exact absurd rfl hav

theorem pushSuccs_cons (e : Nat) (l q d : List Nat) :
    pushSuccs (e :: l) (q, d) =
      pushSuccs l (if e ∈ d then (q, d) else (e :: q, e :: d)) := rfl

/-- Combined bookkeeping facts about one worklist expansion
(`CycleGraph::checkReachable`'s push loop): queue stays inside the discovered
set, both grow monotonically, all pushed successors are discovered, new queue
entries are newly discovered, the discovered set stays duplicate-free and in
range, and the quantity (queue length + undiscovered count) is unchanged. -/
theorem pushSuccs_props (s : CycleGraphState) :
    ∀ (l : List Nat) (q d : List Nat),
      (∀ x ∈ q, x ∈ d) → d.Nodup → (∀ x ∈ d, x < s.nodes.length) →
      (∀ e ∈ l, e < s.nodes.length) →
      (∀ x ∈ (pushSuccs l (q, d)).1, x ∈ (pushSuccs l (q, d)).2) ∧
      (∀ x ∈ d, x ∈ (pushSuccs l (q, d)).2) ∧
      (∀ x ∈ q, x ∈ (pushSuccs l (q, d)).1) ∧
      (∀ e ∈ l, e ∈ (pushSuccs l (q, d)).2) ∧
      (∀ x ∈ (pushSuccs l (q, d)).2, x ∈ d ∨ x ∈ (pushSuccs l (q, d)).1) ∧
      (pushSuccs l (q, d)).2.Nodup ∧
      (∀ x ∈ (pushSuccs l (q, d)).2, x < s.nodes.length) ∧
      (pushSuccs l (q, d)).1.length +
          ((Finset.range s.nodes.length).filter
            (fun m => m ∉ (pushSuccs l (q, d)).2)).card =
        q.length + ((Finset.range s.nodes.length).filter (fun m => m ∉ d)).card := by
  intro l
  induction l with
  | nil =>
    intro q d hqd hnd hdL _
    exact ⟨hqd, fun x hx => hx, fun x hx => hx, fun e he => absurd he (List.not_mem_nil e),
      fun x hx => Or.inl hx, hnd, hdL, rfl⟩
  | cons e l ih =>
    intro q d hqd hnd hdL hlL
    rw [pushSuccs_cons]
    by_cases he : e ∈ d
    · rw [if_pos he]
      obtain ⟨p1, p2, p3, p4, p5, p6, p7, p8⟩ :=
        ih q d hqd hnd hdL (fun x hx => hlL x (by simp [hx]))
      exact ⟨p1, p2, p3, fun x hx => by
        rcases List.mem_cons.mp hx with rfl | hx
        · exact p2 x he
        · exact p4 x hx, p5, p6, p7, p8⟩
    · rw [if_neg he]
      have heL : e < s.nodes.length := hlL e (by simp)
      obtain ⟨p1, p2, p3, p4, p5, p6, p7, p8⟩ :=
        ih (e :: q) (e :: d)
          (by
            intro x hx
            rcases List.mem_cons.mp hx with rfl | hx
            · exact List.mem_cons_self x d
            · exact List.mem_cons_of_mem e (hqd x hx))
          (List.nodup_cons.mpr ⟨he, hnd⟩)
          (by
            intro x hx
            rcases List.mem_cons.mp hx with rfl | hx
            · exact heL
            · exact hdL x hx)
          (fun x hx => hlL x (by simp [hx]))
      have hfe : (Finset.range s.nodes.length).filter (fun m => m ∉ (e :: d)) =
          ((Finset.range s.nodes.length).filter (fun m => m ∉ d)).erase e := by
        ext m
        simp only [Finset.mem_filter, Finset.mem_erase, Finset.mem_range,
          List.mem_cons, not_or]
        tauto
      have hemem : e ∈ (Finset.range s.nodes.length).filter (fun m => m ∉ d) := by
        simp only [Finset.mem_filter, Finset.mem_range]
        exact ⟨heL, he⟩
      have hcard : ((Finset.range s.nodes.length).filter
            (fun m => m ∉ (e :: d))).card + 1 =
          ((Finset.range s.nodes.length).filter (fun m => m ∉ d)).card := by
        rw [hfe, Finset.card_erase_of_mem hemem]
        have hpos : 0 < ((Finset.range s.nodes.length).filter (fun m => m ∉ d)).card :=
          Finset.card_pos.mpr ⟨e, hemem⟩
        omega
      refine ⟨p1, ?_, ?_, ?_, ?_, p6, p7, ?_⟩
      · intro x hx
        exact p2 x (List.mem_cons_of_mem e hx)
      · intro x hx
        exact p3 x (List.mem_cons_of_mem e hx)
      · intro x hx
        rcases List.mem_cons.mp hx with rfl | hx
        · exact p2 x (List.mem_cons_self x d)
        · exact p4 x hx
      · intro x hx
        rcases p5 x hx with hx2 | hx2
        · rcases List.mem_cons.mp hx2 with rfl | hx2
          · exact Or.inr (p3 x (List.mem_cons_self x q))
          · exact Or.inl hx2
        · exact Or.inr hx2
      · rw [p8]
        simp only [List.length_cons]
        omega

theorem checkReachableAux_succ (s : CycleGraphState) (tgt fuel n : Nat)
    (rest disc : List Nat) :
    checkReachableAux s tgt (fuel+1) (n :: rest) disc =
      if n = tgt then true
      else checkReachableAux s tgt fuel (pushSuccs (s.nodeAt n).edges (rest, disc)).1
        (pushSuccs (s.nodeAt n).edges (rest, disc)).2 := rfl

/-- A set of nodes closed under following forward edges contains every node
reachable from one of its members. -/
theorem disc_closed_reach {s : CycleGraphState} {disc : List Nat}
    (hcl : ∀ x ∈ disc, ∀ e ∈ (s.nodeAt x).edges, e ∈ disc) :
    ∀ {x y : Nat}, Reach s x y → x ∈ disc → y ∈ disc := by
  intro x y h
  induction h with
  | refl => exact fun hx => hx
  | tail hxz hzy ihz => exact fun hx => hcl _ (ihz hx) _ hzy

/-- Completeness of the worklist loop of `CycleGraph::checkReachable`: if some
discovered node reaches the target along forward edges and the fuel exceeds the
measure (queue length + undiscovered count), the loop returns true. -/
theorem checkReachableAux_complete (s : CycleGraphState) (tgt : Nat)
    (hrng : ERng s) :
    ∀ (fuel : Nat) (queue disc : List Nat),
      (∀ x ∈ queue, x ∈ disc) →
      disc.Nodup →
      (∀ x ∈ disc, x < s.nodes.length) →
      (∀ x ∈ disc, x ∈ queue ∨ ∀ e ∈ (s.nodeAt x).edges, e ∈ disc) →
      (tgt ∈ disc → tgt ∈ queue) →
      queue.length +
          ((Finset.range s.nodes.length).filter (fun m => m ∉ disc)).card < fuel →
      (∃ x ∈ disc, Reach s x tgt) →
      checkReachableAux s tgt fuel queue disc = true := by
  intro fuel
  induction fuel with
  | zero =>
    intro queue disc _ _ _ _ _ hm _
    omega
  | succ fuel ih =>
    intro queue disc hqd hnd hdL hproc htq hm hex
    rcases queue with _ | ⟨n, rest⟩
    · obtain ⟨x, hx, hxr⟩ := hex
      have hclosed : tgt ∈ disc :=
        disc_closed_reach
          (fun y hy => (hproc y hy).resolve_left (List.not_mem_nil y)) hxr hx
      exact absurd (htq hclosed) (List.not_mem_nil tgt)
    · rw [checkReachableAux_succ]
      split_ifs with hn
      · rfl
      · obtain ⟨p1, p2, p3, p4, p5, p6, p7, p8⟩ :=
          pushSuccs_props s (s.nodeAt n).edges rest disc
            (fun x hx => hqd x (List.mem_cons_of_mem n hx)) hnd hdL (hrng n)
        refine ih _ _ p1 p6 p7 ?_ ?_ ?_ ?_
        · intro x hx
          rcases p5 x hx with hx2 | hx2
          · rcases hproc x hx2 with hq | hcl
            · rcases List.mem_cons.mp hq with rfl | hq
              · exact Or.inr (fun e hee => p4 e hee)
              · exact Or.inl (p3 x hq)
            · exact Or.inr (fun e hee => p2 e (hcl e hee))
          · exact Or.inl hx2
        · intro ht
          rcases p5 tgt ht with ht2 | ht2
          · rcases List.mem_cons.mp (htq ht2) with rfl | hq
            · exact absurd rfl hn
            · exact p3 tgt hq
          · exact ht2
        · simp only [List.length_cons] at hm
          omega
        · obtain ⟨x, hx, hxr⟩ := hex
          exact ⟨x, p2 x hx, hxr⟩

/-- Completeness of `CycleGraph::checkReachable`: the wrapper's fuel covers the
worst case, so a true forward-edge path is always found. -/
theorem checkReachable_complete (s : CycleGraphState) (src tgt : Nat)
    (hrng : ERng s) (hsrc : src < s.nodes.length) (hreach : Reach s src tgt) :
    checkReachable s src tgt = true := by
  unfold checkReachable
  apply checkReachableAux_complete s tgt hrng
  · intro x hx
    exact hx
  · exact List.nodup_singleton src
  · intro x hx
    simp only [List.mem_singleton] at hx
    subst hx
    exact hsrc
  · intro x hx
    exact Or.inl hx
  · intro h
    exact h
  · have hfe : (Finset.range s.nodes.length).filter (fun m => m ∉ [src])
        = (Finset.range s.nodes.length).erase src := by
      ext m
      simp only [Finset.mem_filter, Finset.mem_erase, Finset.mem_range,
        List.mem_singleton]
      tauto
    rw [hfe, Finset.card_erase_of_mem (Finset.mem_range.mpr hsrc), Finset.card_range]
    simp only [List.length_singleton]
    omega
  · exact ⟨src, List.mem_singleton_self src, hreach⟩

theorem not_reach_of_checkReachable_false {s : CycleGraphState} {src tgt : Nat}
    (hrng : ERng s) (hsrc : src < s.nodes.length)
    (hfalse : checkReachable s src tgt = false) : ¬ Reach s src tgt := by
  intro hr
  rw [checkReachable_complete s src tgt hrng hsrc hr] at hfalse
  cases hfalse

/-- Any forward edge present after `CycleNode::addEdge` was already present or is
the inserted pair. -/
theorem addEdge_edges_sub (s : CycleGraphState) (u v n : Nat) :
    ∀ e ∈ ((addEdge s u v).2.nodeAt n).edges,
      e ∈ (s.nodeAt n).edges ∨ (n = u ∧ e = v) := by
  intro e he
  by_cases hmem : v ∈ (s.nodeAt u).edges
  · rw [addEdge_of_mem s u v hmem] at he
    exact Or.inl he
  · rw [addEdge_of_not_mem s u v hmem] at he
    simp only [nodeAt_setNode, length_setNode] at he
    split_ifs at he with h1 h2 h3
    · rcases List.mem_append.mp he with h | h
      · exact Or.inl (by rw [← h1.1, ← h2.1]; exact h)
      · simp only [List.mem_singleton] at h
        exact Or.inr ⟨(h2.1.trans h1.1).symm, h⟩
    · exact Or.inl (by rw [← h1.1]; exact he)
    · rcases List.mem_append.mp he with h | h
      · exact Or.inl (by rw [← h3.1]; exact h)
      · simp only [List.mem_singleton] at h
        exact Or.inr ⟨h3.1.symm, h⟩
    · exact Or.inl he

theorem ERng_congr {s s2 : CycleGraphState} (hn : s2.nodes = s.nodes)
    (h : ERng s) : ERng s2 := by
  intro m e he
  have hat : s2.nodeAt m = s.nodeAt m := by
    unfold CycleGraphState.nodeAt
    rw [hn]
  rw [hat] at he
  rw [hn]
  exact h m e he

theorem EdgeAcyclic_congr {s s2 : CycleGraphState}
    (h : ∀ m, (s2.nodeAt m).edges = (s.nodeAt m).edges)
    (ha : EdgeAcyclic s) : EdgeAcyclic s2 := by
  intro a hc
  refine ha a (hc.mono ?_)
  intro x y hxy
  unfold edgeStep at hxy ⊢
  rw [← h x]
  exact hxy

theorem ERng_addEdge {s : CycleGraphState} (u v : Nat) (hrng : ERng s)
    (hv : v < s.nodes.length) : ERng (addEdge s u v).2 := by
  intro n e he
  rw [addEdge_length]
  rcases addEdge_edges_sub s u v n e he with h | ⟨_, rfl⟩
  · exact hrng n e h
  · exact hv

theorem ERng_logAdd {s : CycleGraphState} (w u v : Nat) (hrng : ERng s)
    (hv : v < s.nodes.length) : ERng (logIfAdded w (addEdge s u v)).2 :=
  ERng_congr (logIfAdded_nodes w _) (ERng_addEdge u v hrng hv)

theorem ERng_maybeRaise {s : CycleGraphState} (a b : Nat) (hrng : ERng s) :
    ERng (maybeRaiseCycle s a b) :=
  ERng_congr (maybeRaiseCycle_nodes s a b) hrng

/-- `addRMWEdge` never lowers the cycle flag. -/
theorem addRMWEdge_hasCycles_mono (s : CycleGraphState) (u v : Nat)
    (h : s.hasCycles = true) : (addRMWEdge s u v).hasCycles = true :=
  addRMWEdge_mono (fun t => t.hasCycles = true)
    (fun t a b ht => by dsimp only; rw [addEdge_hasCycles]; exact ht)
    (fun t a b ht => maybeRaiseCycle_hasCycles_true t a b ht)
    (fun w a ha => by dsimp only; rw [logIfAdded_hasCycles]; exact ha)
    (fun t a b ht => by dsimp only; rw [(setRMW_scalars t a b).1]; exact ht)
    (fun t _ => rfl)
    (fun t l ht => ht) s u v h

/-- One guarded edge insertion decomposes into the old step relation plus the
inserted pair. -/
theorem edgeStep_logAdd_sub {t : CycleGraphState} (w x y p q : Nat) :
    ∀ a b, edgeStep (logIfAdded w (addEdge (maybeRaiseCycle t x y) p q)).2 a b →
      edgeStep t a b ∨ (a = p ∧ b = q) := by
  intro a b hab
  unfold edgeStep at hab
  rw [logIfAdded_nodeAt] at hab
  rcases addEdge_edges_sub (maybeRaiseCycle t x y) p q a b hab with h | hp
  · rw [maybeRaiseCycle_nodeAt] at h
    exact Or.inl h
  · exact Or.inr hp

theorem logAdd_hasCycles (t : CycleGraphState) (w x y p q : Nat) :
    (logIfAdded w (addEdge (maybeRaiseCycle t x y) p q)).2.hasCycles
      = (t.hasCycles || checkReachable t x y) := by
  rw [logIfAdded_hasCycles, addEdge_hasCycles, maybeRaiseCycle_hasCycles_eq]

theorem logAdd_length (t : CycleGraphState) (w x y p q : Nat) :
    (logIfAdded w (addEdge (maybeRaiseCycle t x y) p q)).2.nodes.length
      = t.nodes.length := by
  have h1 : (logIfAdded w (addEdge (maybeRaiseCycle t x y) p q)).2.nodes
      = (addEdge (maybeRaiseCycle t x y) p q).2.nodes := logIfAdded_nodes w _
  rw [h1, addEdge_length, maybeRaiseCycle_nodes]

/-- `addNodeEdge` keeps the forward graph acyclic whenever it leaves the cycle
flag down: both inserted edges are guarded by reachability checks, and by
completeness of the search a low flag means no closing path existed. -/
theorem acyclic_addNodeEdge {s : CycleGraphState} (u v : Nat)
    (hrng : ERng s) (hv : v < s.nodes.length)
    (hacyc : EdgeAcyclic s) (hsflag : s.hasCycles = false)
    (hflag : (addNodeEdge s u v).2.hasCycles = false) :
    EdgeAcyclic (addNodeEdge s u v).2 := by
  unfold addNodeEdge at hflag ⊢
  dsimp only at hflag ⊢
  rcases hrmw : ((logIfAdded u (addEdge (maybeRaiseCycle s v u) u v)).2.nodeAt u).rmw
    with _ | r
  · simp only [hrmw] at hflag ⊢
    have hc1 : checkReachable s v u = false := by
      rw [logAdd_hasCycles, hsflag] at hflag
      simpa using hflag
    exact acyclic_add_edge (edgeStep_logAdd_sub u v u u v) hacyc
      (not_reach_of_checkReachable_false hrng hv hc1)
  · simp only [hrmw] at hflag ⊢
    split_ifs at hflag ⊢ with hrv
    · have hc1 : checkReachable s v u = false := by
        rw [logAdd_hasCycles, hsflag] at hflag
        simpa using hflag
      exact acyclic_add_edge (edgeStep_logAdd_sub u v u u v) hacyc
        (not_reach_of_checkReachable_false hrng hv hc1)
    · dsimp only at hflag ⊢
      rw [logAdd_hasCycles, Bool.or_eq_false_iff, logAdd_hasCycles, hsflag,
        Bool.false_or] at hflag
      have hnr1 : ¬ Reach s v u :=
        not_reach_of_checkReachable_false hrng hv hflag.1
      have hacA : EdgeAcyclic (logIfAdded u (addEdge (maybeRaiseCycle s v u) u v)).2 :=
        acyclic_add_edge (edgeStep_logAdd_sub u v u u v) hacyc hnr1
      have hrngA : ERng (logIfAdded u (addEdge (maybeRaiseCycle s v u) u v)).2 := by
        refine ERng_logAdd u u v (ERng_maybeRaise v u hrng) ?_
        rw [maybeRaiseCycle_nodes]
        exact hv
      have hvA : v < (logIfAdded u (addEdge (maybeRaiseCycle s v u) u v)).2.nodes.length := by
        rw [logAdd_length]
        exact hv
      have hnr2 : ¬ Reach (logIfAdded u (addEdge (maybeRaiseCycle s v u) u v)).2 v r :=
        not_reach_of_checkReachable_false hrngA hvA hflag.2
      exact acyclic_add_edge (edgeStep_logAdd_sub r v r r v) hacA hnr2

/-- Precondition checked before one operation: node ids exist, and for
`add_rmw_edge` the rmw node has no incoming forward edge yet (in the modelled
program the rmw action is brand-new, so this always holds there). -/
def opFresh (s : CycleGraphState) : TxnOp → Bool
  | .addedge u v => decide (u < s.nodes.length) && decide (v < s.nodes.length)
  | .addrmw u v => decide (u < s.nodes.length) && decide (v < s.nodes.length) &&
      (List.range s.nodes.length).all (fun m => !(decide (v ∈ (s.nodeAt m).edges)))

/-- Sequential checker for an operation list: each operation's precondition is
evaluated in the state reached by the previous ones. -/
def opsOkC2 (s : CycleGraphState) : List TxnOp → Bool
  | [] => true
  | op :: ops => opFresh s op && opsOkC2 (applyTxnOp s op) ops

theorem migrateStep_edges_sub (v : Nat) (t : CycleGraphState) (x m e : Nat)
    (he : e ∈ ((migrateStep v t x).nodeAt m).edges) :
    e ∈ (t.nodeAt m).edges ∨ (m = v ∧ e = x) := by
  unfold migrateStep at he
  split_ifs at he with hc
  · exact Or.inl he
  · rw [logIfAdded_nodeAt] at he
    exact addEdge_edges_sub t v x m e he

/-- The rmw migration loop only creates edges out of the rmw node `v`; when `v`
has no incoming edge it therefore keeps the graph acyclic. -/
theorem acyclic_migrate {base : CycleGraphState} (v : Nat) :
    ∀ (l : List Nat) (t : CycleGraphState),
      (∀ a b, edgeStep t a b → edgeStep base a b ∨ a = v) →
      (∀ m, v ∉ (t.nodeAt m).edges) →
      EdgeAcyclic t →
      (∀ a b, edgeStep (l.foldl (migrateStep v) t) a b →
        edgeStep base a b ∨ a = v) ∧
      (∀ m, v ∉ ((l.foldl (migrateStep v) t).nodeAt m).edges) ∧
      EdgeAcyclic (l.foldl (migrateStep v) t) := by
  intro l
  induction l with
  | nil =>
    intro t h1 h2 h3
    exact ⟨h1, h2, h3⟩
  | cons x xs ih =>
    intro t h1 h2 h3
    rw [List.foldl_cons]
    have hsub : ∀ m e, e ∈ ((migrateStep v t x).nodeAt m).edges →
        e ∈ (t.nodeAt m).edges ∨ (m = v ∧ e = x) := migrateStep_edges_sub v t x
    by_cases hxv : x = v
    · have hid : migrateStep v t x = t := by
        unfold migrateStep
        rw [if_pos hxv]
      rw [hid]
      exact ih t h1 h2 h3
    · have h2s : ∀ m, v ∉ ((migrateStep v t x).nodeAt m).edges := by
        intro m hmem
        rcases hsub m v hmem with h | ⟨_, hxx⟩
        · exact h2 m h
        · exact hxv hxx.symm
      have h1s : ∀ a b, edgeStep (migrateStep v t x) a b →
          edgeStep base a b ∨ a = v := by
        intro a b hab
        rcases hsub a b hab with h | ⟨rfl, _⟩
        · exact h1 a b h
        · exact Or.inr rfl
      have hnoin : ∀ a b, edgeStep (migrateStep v t x) a b → b ≠ v := by
        intro a b hab hbv
        subst hbv
        exact h2s a hab
      have hstep0 : ∀ a b, edgeStep (migrateStep v t x) a b →
          edgeStep t a b ∨ a = v := by
        intro a b hab
        rcases hsub a b hab with h | ⟨rfl, _⟩
        · exact Or.inl h
        · exact Or.inr rfl
      exact ih _ h1s h2s (acyclic_add_from_source hstep0 hnoin h3)

theorem ERng_migrate (v : Nat) :
    ∀ (l : List Nat) (t : CycleGraphState), ERng t →
      (∀ x ∈ l, x < t.nodes.length) → ERng (l.foldl (migrateStep v) t) := by
  intro l
  induction l with
  | nil =>
    intro t h _
    exact h
  | cons x xs ih =>
    intro t h hl
    rw [List.foldl_cons]
    have hstep : ERng (migrateStep v t x) := by
      unfold migrateStep
      split_ifs with hc
      · exact h
      · exact ERng_logAdd v v x h (hl x (by simp))
    refine ih _ hstep ?_
    intro y hy
    rw [migrateStep_length]
    exact hl y (by simp [hy])

theorem ERng_addNodeEdge {s : CycleGraphState} (u v : Nat) (hrng : ERng s)
    (hv : v < s.nodes.length) : ERng (addNodeEdge s u v).2 := by
  unfold addNodeEdge
  dsimp only
  rcases hrmw : ((logIfAdded u (addEdge (maybeRaiseCycle s v u) u v)).2.nodeAt u).rmw
    with _ | r
  · simp only [hrmw]
    exact ERng_logAdd u u v (ERng_maybeRaise v u hrng)
      (by rw [maybeRaiseCycle_nodes]; exact hv)
  · simp only [hrmw]
    split_ifs with hrv
    · exact ERng_logAdd u u v (ERng_maybeRaise v u hrng)
        (by rw [maybeRaiseCycle_nodes]; exact hv)
    · dsimp only
      have hA : ERng (logIfAdded u (addEdge (maybeRaiseCycle s v u) u v)).2 :=
        ERng_logAdd u u v (ERng_maybeRaise v u hrng)
          (by rw [maybeRaiseCycle_nodes]; exact hv)
      refine ERng_logAdd r r v (ERng_maybeRaise v r hA) ?_
      rw [maybeRaiseCycle_nodes, logAdd_length]
      exact hv

theorem RmwSub_addNodeEdge {s : CycleGraphState} (u v : Nat) (h : RmwSub s) :
    RmwSub (addNodeEdge s u v).2 := by
  intro m r hr
  rw [addNodeEdge_nodeAt_rmw] at hr
  exact addNodeEdge_mem_mono s u v (h m r hr)

theorem opFresh_addrmw_noin {s : CycleGraphState} {u v : Nat}
    (h : opFresh s (.addrmw u v) = true) :
    u < s.nodes.length ∧ v < s.nodes.length ∧ ∀ m, v ∉ (s.nodeAt m).edges := by
  unfold opFresh at h
  rw [Bool.and_eq_true, Bool.and_eq_true] at h
  obtain ⟨⟨hu, hv⟩, hall⟩ := h
  refine ⟨of_decide_eq_true hu, of_decide_eq_true hv, ?_⟩
  intro m hmem
  rcases Nat.lt_or_ge m s.nodes.length with hm | hm
  · have hb := List.all_eq_true.mp hall m (List.mem_range.mpr hm)
    simp only [Bool.not_eq_true'] at hb
    exact absurd hmem (of_decide_eq_false hb)
  · rw [nodeAt_out s m hm] at hmem
    exact absurd hmem (List.not_mem_nil v)

/-- The common part of `addRMWEdge` after the `setRMW` branch: migrating the base
node's edges onto the fresh rmw node and inserting the rmw edge preserves
range, rmw-shadowing and (while the flag stays down) acyclicity. -/
theorem c2_rmwBranch (s t : CycleGraphState) (u v : Nat)
    (hedges : ∀ m, (t.nodeAt m).edges = (s.nodeAt m).edges)
    (hrmwat : ∀ m, (t.nodeAt m).rmw = (s.nodeAt m).rmw ∨
      (m = u ∧ (t.nodeAt m).rmw = some v))
    (hlen : t.nodes.length = s.nodes.length)
    (hhc : t.hasCycles = s.hasCycles ∨ t.hasCycles = true)
    (hrng : ERng s) (hsub : RmwSub s)
    (hu : u < s.nodes.length) (hv : v < s.nodes.length)
    (hnoin : ∀ m, v ∉ (s.nodeAt m).edges)
    (hacyc : s.hasCycles = false → EdgeAcyclic s) :
    ERng (addNodeEdge ((t.nodeAt u).edges.foldl (migrateStep v) t) u v).2 ∧
    RmwSub (addNodeEdge ((t.nodeAt u).edges.foldl (migrateStep v) t) u v).2 ∧
    ((addNodeEdge ((t.nodeAt u).edges.foldl (migrateStep v) t) u v).2.hasCycles
        = false →
      EdgeAcyclic (addNodeEdge ((t.nodeAt u).edges.foldl (migrateStep v) t) u v).2) := by
  have hu2 : u < t.nodes.length := by
    rw [hlen]
    exact hu
  have hv2 : v < t.nodes.length := by
    rw [hlen]
    exact hv
  have hrng2 : ERng t := by
    intro m e he
    rw [hlen]
    rw [hedges m] at he
    exact hrng m e he
  have hlen3 : ((t.nodeAt u).edges.foldl (migrateStep v) t).nodes.length
      = t.nodes.length := migrateFold_length v _ t
  have hrng3 : ERng ((t.nodeAt u).edges.foldl (migrateStep v) t) :=
    ERng_migrate v _ t hrng2 (fun x hx => hrng2 u x hx)
  have hrmw3 : ∀ m, (((t.nodeAt u).edges.foldl (migrateStep v) t).nodeAt m).rmw
      = (t.nodeAt m).rmw :=
    fun m => foldl_pres (migrateStep v) (fun st => (st.nodeAt m).rmw)
      (fun st x => migrateStep_nodeAt_rmw v st x m) _ t
  have hhc3 : ((t.nodeAt u).edges.foldl (migrateStep v) t).hasCycles = t.hasCycles :=
    foldl_pres (migrateStep v) (fun st => st.hasCycles)
      (fun st x => migrateStep_hasCycles v st x) _ t
  refine ⟨ERng_addNodeEdge u v hrng3 (by rw [hlen3]; exact hv2), ?_, ?_⟩
  · intro m r hr
    rw [addNodeEdge_nodeAt_rmw, hrmw3 m] at hr
    rcases hrmwat m with heq | ⟨hmu, hsv⟩
    · rw [heq] at hr
      have h2m : r ∈ (t.nodeAt m).edges := by
        rw [hedges m]
        exact hsub m r hr
      have h3m : r ∈ (((t.nodeAt u).edges.foldl (migrateStep v) t).nodeAt m).edges :=
        foldl_mono (migrateStep v) (fun st => r ∈ (st.nodeAt m).edges)
          (fun st x hmem => migrateStep_mem_mono v st x hmem) _ t h2m
      exact addNodeEdge_mem_mono _ u v h3m
    · rw [hsv] at hr
      injection hr with hr2
      subst hr2
      rw [hmu]
      exact addNodeEdge_mem_self _ u v (by rw [hlen3]; exact hu2)
  · intro hflag
    have hsflag : t.hasCycles = false := by
      by_contra hne
      have hb : t.hasCycles = true := by
        cases hb2 : t.hasCycles
        · exact absurd hb2 hne
        · rfl
      have h3t : ((t.nodeAt u).edges.foldl (migrateStep v) t).hasCycles = true := by
        rw [hhc3]
        exact hb
      rw [addNodeEdge_hasCycles_mono _ u v h3t] at hflag
      cases hflag
    have hacy2 : EdgeAcyclic t := by
      rcases hhc with hh | hh
      · exact EdgeAcyclic_congr hedges (hacyc (by rw [← hh]; exact hsflag))
      · rw [hh] at hsflag
        cases hsflag
    have hnoin2 : ∀ m, v ∉ (t.nodeAt m).edges := by
      intro m
      rw [hedges m]
      exact hnoin m
    obtain ⟨_, _, hacy3⟩ :=
      acyclic_migrate v ((t.nodeAt u).edges) t (fun a b h => Or.inl h) hnoin2 hacy2
    have h3flag : ((t.nodeAt u).edges.foldl (migrateStep v) t).hasCycles = false := by
      rw [hhc3]
      exact hsflag
    exact acyclic_addNodeEdge u v hrng3 (by rw [hlen3]; exact hv2) hacy3 h3flag hflag

/-- Invariant preservation over one public operation under its freshness
precondition. -/
theorem c2_step {s : CycleGraphState} (op : TxnOp)
    (hrng : ERng s) (hsub : RmwSub s)
    (hacyc : s.hasCycles = false → EdgeAcyclic s)
    (hok : opFresh s op = true) :
    ERng (applyTxnOp s op) ∧ RmwSub (applyTxnOp s op) ∧
      ((applyTxnOp s op).hasCycles = false → EdgeAcyclic (applyTxnOp s op)) := by
  cases op with
  | addedge u v =>
    unfold opFresh at hok
    rw [Bool.and_eq_true] at hok
    have hu := of_decide_eq_true hok.1
    have hv := of_decide_eq_true hok.2
    show ERng (addNodeEdge s u v).2 ∧ RmwSub (addNodeEdge s u v).2 ∧
      ((addNodeEdge s u v).2.hasCycles = false → EdgeAcyclic (addNodeEdge s u v).2)
    refine ⟨ERng_addNodeEdge u v hrng hv, RmwSub_addNodeEdge u v hsub, ?_⟩
    intro hflag
    have hsflag : s.hasCycles = false := by
      by_contra hne
      have hb : s.hasCycles = true := by
        cases hb2 : s.hasCycles
        · exact absurd hb2 hne
        · rfl
      rw [addNodeEdge_hasCycles_mono s u v hb] at hflag
      cases hflag
    exact acyclic_addNodeEdge u v hrng hv (hacyc hsflag) hsflag hflag
  | addrmw u v =>
    obtain ⟨hu, hv, hnoin⟩ := opFresh_addrmw_noin hok
    show ERng (addRMWEdge s u v) ∧ RmwSub (addRMWEdge s u v) ∧
      ((addRMWEdge s u v).hasCycles = false → EdgeAcyclic (addRMWEdge s u v))
    unfold addRMWEdge
    dsimp only
    rcases hsr : (s.nodeAt u).rmw with _ | r0
    · rw [setRMW_of_none s u v hsr]
      dsimp only
      rw [if_neg Bool.false_ne_true]
      refine c2_rmwBranch s _ u v ?_ ?_ ?_ ?_ hrng hsub hu hv hnoin hacyc
      · intro m
        show ((s.setNode u { s.nodeAt u with rmw := some v }).nodeAt m).edges
          = (s.nodeAt m).edges
        rw [nodeAt_setNode]
        split_ifs with h
        · rcases h with ⟨rfl, _⟩
          rfl
        · rfl
      · intro m
        rcases Decidable.em (u = m) with rfl | hne
        · refine Or.inr ⟨rfl, ?_⟩
          show ((s.setNode u { s.nodeAt u with rmw := some v }).nodeAt u).rmw = some v
          rw [nodeAt_setNode, if_pos ⟨rfl, hu⟩]
        · refine Or.inl ?_
          show ((s.setNode u { s.nodeAt u with rmw := some v }).nodeAt m).rmw
            = (s.nodeAt m).rmw
          rw [nodeAt_setNode, if_neg (fun hc => hne hc.1)]
      · show (s.setNode u { s.nodeAt u with rmw := some v }).nodes.length
          = s.nodes.length
        exact length_setNode s u _
      · exact Or.inl rfl
    · rw [setRMW_of_some s u v r0 hsr]
      dsimp only
      rw [if_pos rfl]
      refine c2_rmwBranch s _ u v (fun m => rfl) (fun m => Or.inl rfl) rfl
        (Or.inr rfl) hrng hsub hu hv hnoin hacyc

/-- `HasCycle` over forward + rmw links reduces to a forward-edge cycle when
every rmw link is shadowed by an edge. -/
theorem hasCycle_to_edge {s : CycleGraphState} (hsub : RmwSub s)
    (h : HasCycle s) : ∃ a, Relation.TransGen (edgeStep s) a a := by
  obtain ⟨a, ha⟩ := h
  refine ⟨a, ha.mono ?_⟩
  intro x y hxy
  rcases hxy with h1 | h1
  · exact h1
  · exact hsub x y h1

/-- Invariant preservation over a checked operation sequence. -/
theorem c2_steps :
    ∀ (ops : List TxnOp) (s : CycleGraphState), opsOkC2 s ops = true →
      ERng s → RmwSub s → (s.hasCycles = false → EdgeAcyclic s) →
      ERng (applyTxnOps s ops) ∧ RmwSub (applyTxnOps s ops) ∧
        ((applyTxnOps s ops).hasCycles = false → EdgeAcyclic (applyTxnOps s ops)) := by
  intro ops
  induction ops with
  | nil =>
    intro s _ h1 h2 h3
    exact ⟨h1, h2, h3⟩
  | cons op ops ih =>
    intro s hok h1 h2 h3
    unfold opsOkC2 at hok
    rw [Bool.and_eq_true] at hok
    obtain ⟨hstep1, hstep2, hstep3⟩ := c2_step op h1 h2 h3 hok.1
    unfold applyTxnOps
    rw [List.foldl_cons]
    exact ih (applyTxnOp s op) hok.2 hstep1 hstep2 hstep3

theorem ERng_mkInit (n : Nat) : ERng (mkInit n) := by
  intro m e he
  rw [mkInit_nodeAt] at he
  exact absurd he (List.not_mem_nil e)

theorem RmwSub_mkInit (n : Nat) : RmwSub (mkInit n) := by
  intro m r hr
  rw [mkInit_nodeAt] at hr
  exact Option.noConfusion hr

theorem EdgeAcyclic_mkInit (n : Nat) : EdgeAcyclic (mkInit n) := by
  intro a hc
  rcases Relation.TransGen.head'_iff.mp hc with ⟨b, hab, _⟩
  unfold edgeStep at hab
  rw [mkInit_nodeAt] at hab
  exact absurd hab (List.not_mem_nil b)

end C2Sound

section ClaimC2

/-- C2: the cycle-flag invariant, corrected. The claimed "iff" fails in both
directions (the separate counterexample raises `has_cycles` on a second
`add_rmw_edge` without any cycle, and migrating edges onto an rmw node that
already has incoming edges can create a cycle silently). The sound direction
that does hold: starting from a fresh graph, for every sequence of `add_edge`
and `add_rmw_edge` operations whose ids exist and whose rmw nodes have no
incoming edge when their `add_rmw_edge` runs (true of the real caller, where
the rmw action's node is brand-new), if `has_cycles` is false afterwards then
the graph over forward + rmw edges has no cycle. -/
theorem c2_flag_sound (n : Nat) (ops : List TxnOp)
    (hok : opsOkC2 (mkInit n) ops = true)
    (hflag : (applyTxnOps (mkInit n) ops).hasCycles = false) :
    ¬ HasCycle (applyTxnOps (mkInit n) ops) := by
  obtain ⟨_, hsub, hacyc⟩ := c2_steps ops (mkInit n) hok (ERng_mkInit n)
    (RmwSub_mkInit n) (fun _ => EdgeAcyclic_mkInit n)
  intro hc
  obtain ⟨a, ha⟩ := hasCycle_to_edge hsub hc
  exact hacyc hflag a ha

/-- Closed witness instantiating `c2_flag_sound`: an edge plus a fresh rmw edge
on a three-node graph leave the flag down, so the theorem yields a cycle-free
graph. -/
theorem c2_flag_sound_witness :
    opsOkC2 (mkInit 3) [TxnOp.addedge 0 1, TxnOp.addrmw 1 2] = true ∧
    (applyTxnOps (mkInit 3) [TxnOp.addedge 0 1, TxnOp.addrmw 1 2]).hasCycles
      = false ∧
    ¬ HasCycle (applyTxnOps (mkInit 3) [TxnOp.addedge 0 1, TxnOp.addrmw 1 2]) :=
  ⟨by decide, by decide,
   c2_flag_sound 3 [TxnOp.addedge 0 1, TxnOp.addrmw 1 2] (by decide) (by decide)⟩

end ClaimC2

section ClaimC6

theorem treeInv_ops : ∀ (ops : List TreeOp) (st : PredTreeState),
    treeOpsOk st ops = true → treeInv st → treeInv (applyTreeOps st ops) := by
  intro ops
  induction ops with
  | nil => intro st _ h; exact h
  | cons op rest ih =>
    intro st hok hinv
    have hok1 : treeOpOk st op = true ∧ treeOpsOk (applyTreeOp st op) rest = true := by
      simpa [treeOpsOk, Bool.and_eq_true] using hok
    refine ih (applyTreeOp st op) hok1.2 ?_
    cases op with
    | generate curr inst instWrite halves =>
      have hcurr : curr < st.preds.length := by
        simpa [treeOpOk] using hok1.1
      exact treeInv_generate st curr inst instWrite halves hcurr hinv
    | amend curr inst single isNull =>
      exact treeInv_amend st curr inst single isNull hinv

/-- C6 (amended): after every valid sequence of predicate-tree operations (branch
generation and predicate amendment) starting from the constructor state, every
member of `predicate_leaves` is a `Predicate` node with no children; the
converse inclusion fails — `amend_predicate_expr` leaves `predicate_leaves`
unchanged, so the fresh `NULLITY = true` sibling (and the entry node itself)
are childless nodes outside the set, and the set does not grow by one on an
amendment. -/
theorem c6_leaves_childless :
    (∀ ops : List TreeOp, treeOpsOk initTree ops = true →
       ∀ p ∈ (applyTreeOps initTree ops).predicate_leaves,
         ((applyTreeOps initTree ops).predAt p).children = []) ∧
    (∀ (st : PredTreeState) (curr inst : Nat) (single isNull : Bool),
       (amend_predicate_expr st curr inst single isNull).2.predicate_leaves
         = st.predicate_leaves) := by
  constructor
  · intro ops hok p hp
    exact ((treeInv_ops ops initTree hok treeInv_init).2 p hp).2
  · intro st curr inst single isNull
    exact amend_leaves st curr inst single isNull

/-- Closed witness instantiating `c6_leaves_childless` after one branch
generation: the generated leaf (node 2) has no children. -/
theorem c6_leaves_childless_witness :
    ((applyTreeOps initTree [TreeOp.generate 0 5 false []]).predAt 2).children
      = [] :=
  c6_leaves_childless.1 [TreeOp.generate 0 5 false []] (by decide) 2 (by decide)

/-- C6 counterexample: generate a branch under the entry node, then an unset child
under it, then amend it on a null read. The amendment creates the childless
sibling node 4 but `predicate_leaves` stays `[3]`: it neither equals the set of
childless nodes nor grows by one. -/
theorem c6_counterexample :
    (amend_predicate_expr
        (applyTreeOps initTree
          [TreeOp.generate 0 10 false [], TreeOp.generate 2 11 false []])
        2 11 false true).1 = true ∧
    (applyTreeOps initTree
        [TreeOp.generate 0 10 false [], TreeOp.generate 2 11 false []]).predicate_leaves
      = [3] ∧
    (amend_predicate_expr
        (applyTreeOps initTree
          [TreeOp.generate 0 10 false [], TreeOp.generate 2 11 false []])
        2 11 false true).2.predicate_leaves = [3] ∧
    ((amend_predicate_expr
        (applyTreeOps initTree
          [TreeOp.generate 0 10 false [], TreeOp.generate 2 11 false []])
        2 11 false true).2.predAt 4).children = [] ∧
    (4 ∉ (amend_predicate_expr
        (applyTreeOps initTree
          [TreeOp.generate 0 10 false [], TreeOp.generate 2 11 false []])
        2 11 false true).2.predicate_leaves) := by decide

end ClaimC6

section ClaimC7

/-- C7 (amended): the universe of action kinds declared by `enum action_type` in
action.h is exactly {thread-create, thread-yield, thread-join, atomic-read,
atomic-write} — five kinds, not the seven the claim lists; the RMW variants the
claim names (and which `FuncNode::get_inst` dispatches on) are not declared in
this enum. -/
theorem c7_action_type_universe :
    (∀ t : action_type, t ∈ allActionTypes) ∧
    allActionTypes.map action_type.specName
      = ["thread-create", "thread-yield", "thread-join", "atomic-read",
         "atomic-write"] := by
  constructor
  · intro t
    cases t <;> simp [allActionTypes]
  · rfl

/-- C7 counterexample: the spec's seven-kind universe includes atomic-rmw and
atomic-rmw-read-compare, but the `action_type` enum declares five kinds and none
of them is an RMW variant. -/
theorem c7_counterexample :
    allActionTypes.length = 5 ∧
    specKindNames.length = 7 ∧
    "atomic-rmw" ∈ specKindNames ∧
    "atomic-rmw" ∉ allActionTypes.map action_type.specName ∧
    "atomic-rmw-read-compare" ∈ specKindNames ∧
    "atomic-rmw-read-compare" ∉ allActionTypes.map action_type.specName := by
  decide

end ClaimC7

section ClaimC8

/-- C8 (amended): `FuncNode::set_new_exec_flag` re-allocates the read/write
location sets, the value→location map and the may-equal map as fresh empty
structures when a new execution starts — these four views do NOT survive — while
the interned `FuncInst` map, the instruction list and the predicate tree are
untouched and do survive across executions. -/
theorem c8_new_exec_resets (s : FuncNodeState) :
    (set_new_exec_flag s).read_locations = [] ∧
    (set_new_exec_flag s).write_locations = [] ∧
    (set_new_exec_flag s).val_loc_map = [] ∧
    (set_new_exec_flag s).loc_may_equal_map = [] ∧
    (set_new_exec_flag s).func_inst_map = s.func_inst_map ∧
    (set_new_exec_flag s).inst_list = s.inst_list ∧
    (set_new_exec_flag s).predicate_tree = s.predicate_tree :=
  ⟨rfl, rfl, rfl, rfl, rfl, rfl, rfl⟩

/-- A FuncNode that has learned a nonempty value→location view and read/write
location sets. -/
def learnedFuncNodeState : FuncNodeState :=
  { func_inst_map := [(1, 1)], inst_list := [1], predicate_tree := initTree,
    read_locations := [5], write_locations := [6],
    val_loc_map := [(42, [5])], loc_may_equal_map := [(5, [6])] }

/-- C8 counterexample: starting a new execution empties `read_locations`,
`write_locations`, `val_loc_map` and `loc_may_equal_map`, refuting the claim
that they are never cleared when a new execution starts. -/
theorem c8_counterexample :
    learnedFuncNodeState.read_locations = [5] ∧
    learnedFuncNodeState.val_loc_map ≠ [] ∧
    (set_new_exec_flag learnedFuncNodeState).read_locations = [] ∧
    (set_new_exec_flag learnedFuncNodeState).write_locations = [] ∧
    (set_new_exec_flag learnedFuncNodeState).val_loc_map = [] ∧
    (set_new_exec_flag learnedFuncNodeState).loc_may_equal_map = [] := by decide

end ClaimC8

section ClaimC10

/-- C10: for every graph state and every node n, `CycleGraph::checkReachable(n, n)`
returns true regardless of the graph's edges: the popped start node is compared
with the target before any edge is followed (cyclegraph.cc:290-291), so
reflexive self-reachability holds vacuously and a self-reachability query
cannot distinguish a node on a cycle from an isolated node. -/
theorem c10_checkReachable_self (s : CycleGraphState) (n : Nat) :
    checkReachable s n n = true := by
  unfold checkReachable
  rw [checkReachableAux]
  simp

end ClaimC10

section ClaimC3

/-- C3 (amended): `CycleGraph::addRMWEdge(from, rmw)`: when from's node already has
an rmw successor the call raises `has_cycles` and leaves the successor and the
rmw undo log unchanged; otherwise it records rmw as the successor and logs it.
In BOTH cases it then migrates every existing forward edge of from (other than
one to rmw) onto rmw and invokes `add_edge(from, rmw)`: the migration is not
restricted to the not-already-set case. -/
theorem c3_addRMWEdge_spec (s : CycleGraphState) (u v : Nat)
    (hu : u < s.nodes.length) (hv : v < s.nodes.length) :
    (∀ r, (s.nodeAt u).rmw = some r →
        (addRMWEdge s u v).hasCycles = true ∧
        ((addRMWEdge s u v).nodeAt u).rmw = some r ∧
        (addRMWEdge s u v).rmwrollbackvector = s.rmwrollbackvector) ∧
    ((s.nodeAt u).rmw = none →
        ((addRMWEdge s u v).nodeAt u).rmw = some v ∧
        (addRMWEdge s u v).rmwrollbackvector = s.rmwrollbackvector ++ [u]) ∧
    (∀ t ∈ (s.nodeAt u).edges, t ≠ v → t ∈ ((addRMWEdge s u v).nodeAt v).edges) ∧
    v ∈ ((addRMWEdge s u v).nodeAt u).edges := by
  have foldRmw : ∀ (l : List Nat) (t : CycleGraphState) (n : Nat),
      ((l.foldl (migrateStep v) t).nodeAt n).rmw = (t.nodeAt n).rmw :=
    fun l t n => foldl_pres (migrateStep v) (fun st => (st.nodeAt n).rmw)
      (fun st x => migrateStep_nodeAt_rmw v st x n) l t
  have foldHC : ∀ (l : List Nat) (t : CycleGraphState),
      (l.foldl (migrateStep v) t).hasCycles = t.hasCycles :=
    fun l t => foldl_pres (migrateStep v) (fun st => st.hasCycles)
      (fun st x => migrateStep_hasCycles v st x) l t
  have foldRL : ∀ (l : List Nat) (t : CycleGraphState),
      (l.foldl (migrateStep v) t).rmwrollbackvector = t.rmwrollbackvector :=
    fun l t => foldl_pres (migrateStep v) (fun st => st.rmwrollbackvector)
      (fun st x => migrateStep_rmwrollbackvector v st x) l t
  refine ⟨?_, ?_, ?_, ?_⟩
  · intro r hr
    unfold addRMWEdge
    rw [setRMW_of_some s u v r hr]
    dsimp only
    rw [if_pos rfl]
    refine ⟨?_, ?_, ?_⟩
    · exact addNodeEdge_hasCycles_mono _ u v (by rw [foldHC])
    · rw [addNodeEdge_nodeAt_rmw, foldRmw]; exact hr
    · rw [addNodeEdge_rmwrollbackvector, foldRL]
  · intro hr
    unfold addRMWEdge
    rw [setRMW_of_none s u v hr]
    dsimp only
    rw [if_neg Bool.false_ne_true]
    constructor
    · rw [addNodeEdge_nodeAt_rmw, foldRmw]
      show ((CycleGraphState.setNode s u { s.nodeAt u with rmw := some v }).nodeAt u).rmw
        = some v
      rw [nodeAt_setNode, if_pos ⟨rfl, hu⟩]
    · rw [addNodeEdge_rmwrollbackvector, foldRL]
      simp [CycleGraphState.setNode]
  · intro t ht htv
    unfold addRMWEdge
    dsimp only
    rcases hr : (s.nodeAt u).rmw with _ | r
    · rw [setRMW_of_none s u v hr]
      dsimp only
      rw [if_neg Bool.false_ne_true]
      refine addNodeEdge_mem_mono _ u v ?_
      refine migrateFold_mem v _ _ ?_ t ?_ htv
      · simp only [CycleGraphState.setNode, List.length_set]
        exact hv
      · have : (({ s.setNode u { s.nodeAt u with rmw := some v } with
            rmwrollbackvector :=
              (s.setNode u { s.nodeAt u with rmw := some v }).rmwrollbackvector ++ [u] }
              : CycleGraphState).nodeAt u).edges = (s.nodeAt u).edges := by
          show ((s.setNode u { s.nodeAt u with rmw := some v }).nodeAt u).edges
            = (s.nodeAt u).edges
          rw [nodeAt_setNode, if_pos ⟨rfl, hu⟩]
        rw [this]; exact ht
    · rw [setRMW_of_some s u v r hr]
      dsimp only
      rw [if_pos rfl]
      exact addNodeEdge_mem_mono _ u v
        (migrateFold_mem v _ ({ s with hasCycles := true }) hv t ht htv)
  · unfold addRMWEdge
    dsimp only
    refine addNodeEdge_mem_self _ u v ?_
    rw [migrateFold_length]
    rcases hr : (s.nodeAt u).rmw with _ | r
    · rw [setRMW_of_none s u v hr]
      dsimp only
      rw [if_neg Bool.false_ne_true]
      simp only [CycleGraphState.setNode, List.length_set]
      exact hu
    · rw [setRMW_of_some s u v r hr]
      dsimp only
      rw [if_pos rfl]
      exact hu

/-- Closed witness instantiating `c3_addRMWEdge_spec` on a two-node graph. -/
theorem c3_addRMWEdge_spec_witness :
    ((addRMWEdge (mkInit 2) 0 1).nodeAt 0).rmw = some 1 ∧
    (addRMWEdge (mkInit 2) 0 1).rmwrollbackvector = [0] := by
  have h := (c3_addRMWEdge_spec (mkInit 2) 0 1 (by decide) (by decide)).2.1 (by decide)
  exact ⟨h.1, by simpa using h.2⟩

/-- A graph in which node 0 already has rmw successor 1 and a forward edge to
node 2; calling `addRMWEdge 0 3` is the "second RMW reads from the same write"
case. -/
def rmwDoubleSetState : CycleGraphState :=
  { nodes := [ { edges := [2], back_edges := [], rmw := some 1,
                 promise := false, deleted := false },
               { edges := [], back_edges := [], rmw := none,
                 promise := false, deleted := false },
               { edges := [], back_edges := [0], rmw := none,
                 promise := false, deleted := false },
               { edges := [], back_edges := [], rmw := none,
                 promise := false, deleted := false } ],
    hasCycles := false, oldCycles := false,
    rollbackvector := [], rmwrollbackvector := [] }

/-- C3 counterexample: with node 0's rmw successor already set, `addRMWEdge 0 3`
still migrates 0's forward edge onto node 3 (node 3 gains edge to 2), refuting
the claim that "the edge migration happens only in the not-already-set case". -/
theorem c3_counterexample :
    (rmwDoubleSetState.nodeAt 0).rmw = some 1 ∧
    (rmwDoubleSetState.nodeAt 3).edges = [] ∧
    ((addRMWEdge rmwDoubleSetState 0 3).nodeAt 3).edges = [2] ∧
    (addRMWEdge rmwDoubleSetState 0 3).hasCycles = true := by decide

end ClaimC3

section ClaimC5

/-- C5 (amended): a duplicate `add_edge(from, to)` is a no-op on the node store and
both undo logs provided the rmw-successor side edge is also not new (from has
no rmw successor, or it is to itself, or the successor already has the edge to
to); and for `CycleNode::addEdge`, to's back edge list gains an entry for from
exactly when the forward edge is newly added. Without the proviso a duplicate
`add_edge` can still mutate the graph through the rmw side edge. -/
theorem c5_duplicate_edge_noop (s : CycleGraphState) (u v : Nat)
    (hdup : v ∈ (s.nodeAt u).edges)
    (hrmw : ∀ r, (s.nodeAt u).rmw = some r → r = v ∨ v ∈ (s.nodeAt r).edges) :
    ((addNodeEdge s u v).2.nodes = s.nodes ∧
     (addNodeEdge s u v).2.rollbackvector = s.rollbackvector ∧
     (addNodeEdge s u v).2.rmwrollbackvector = s.rmwrollbackvector) ∧
    (∀ a b : Nat, a < s.nodes.length → b < s.nodes.length →
       ((addEdge s a b).2.nodeAt b).back_edges =
         (if b ∈ (s.nodeAt a).edges then (s.nodeAt b).back_edges
          else (s.nodeAt b).back_edges ++ [a])) := by
  constructor
  · have hdup1 : v ∈ ((maybeRaiseCycle s v u).nodeAt u).edges := by
      rw [maybeRaiseCycle_nodeAt]; exact hdup
    have ha1 : logIfAdded u (addEdge (maybeRaiseCycle s v u) u v)
        = (false, maybeRaiseCycle s v u) := by
      rw [addEdge_of_mem _ u v hdup1, logIfAdded_of_false]
      rfl
    unfold addNodeEdge
    dsimp only
    rw [ha1]
    dsimp only
    rcases hr : ((maybeRaiseCycle s v u).nodeAt u).rmw with _ | r
    · simp only [hr]
      simp only [maybeRaiseCycle_nodes, maybeRaiseCycle_rollbackvector,
        maybeRaiseCycle_rmwrollbackvector, and_self]
    · have hr0 : (s.nodeAt u).rmw = some r := by
        rw [maybeRaiseCycle_nodeAt] at hr; exact hr
      simp only [hr]
      by_cases hrv : r = v
      · simp only [if_pos hrv]
        simp only [maybeRaiseCycle_nodes, maybeRaiseCycle_rollbackvector,
          maybeRaiseCycle_rmwrollbackvector, and_self]
      · simp only [if_neg hrv]
        have hmem : v ∈ (s.nodeAt r).edges := by
          rcases hrmw r hr0 with h1 | h2
          · exact absurd h1 hrv
          · exact h2
        have hmem2 : v ∈ ((maybeRaiseCycle (maybeRaiseCycle s v u) v r).nodeAt r).edges := by
          rw [maybeRaiseCycle_nodeAt, maybeRaiseCycle_nodeAt]; exact hmem
        rw [addEdge_of_mem _ r v hmem2, logIfAdded_of_false _ _ rfl]
        simp only [maybeRaiseCycle_nodes, maybeRaiseCycle_rollbackvector,
          maybeRaiseCycle_rmwrollbackvector, and_self]
  · intro a b ha hb
    unfold addEdge
    dsimp only
    split_ifs with hmem
    · rfl
    · rw [nodeAt_setNode]
      have hlen : b < (s.setNode a { s.nodeAt a with
          edges := (s.nodeAt a).edges ++ [b] }).nodes.length := by
        rw [length_setNode]; exact hb
      rw [if_pos ⟨rfl, hlen⟩]
      dsimp only
      rw [nodeAt_setNode]
      split_ifs with hab
      · obtain ⟨rfl, halen⟩ := hab
        rfl
      · rfl

/-- Closed witness instantiating `c5_duplicate_edge_noop` on a graph that already
has the edge 0→1 and no rmw successor. -/
theorem c5_duplicate_edge_noop_witness :
    (addNodeEdge ((addNodeEdge (mkInit 2) 0 1).2) 0 1).2.nodes
      = ((addNodeEdge (mkInit 2) 0 1).2).nodes ∧
    (addNodeEdge ((addNodeEdge (mkInit 2) 0 1).2) 0 1).2.rollbackvector
      = ((addNodeEdge (mkInit 2) 0 1).2).rollbackvector := by
  have h := c5_duplicate_edge_noop ((addNodeEdge (mkInit 2) 0 1).2) 0 1 (by decide)
    (by
      intro r hr
      have hn : (((addNodeEdge (mkInit 2) 0 1).2).nodeAt 0).rmw = none := by decide
      rw [hn] at hr
      cases hr)
  exact ⟨h.1.1, h.1.2.1⟩

/-- A graph with the edge 0→1 already present and node 0's rmw successor set to
node 2, which has no edge to 1 yet. -/
def dupEdgeRmwState : CycleGraphState :=
  { nodes := [ { edges := [1], back_edges := [], rmw := some 2,
                 promise := false, deleted := false },
               { edges := [], back_edges := [0], rmw := none,
                 promise := false, deleted := false },
               { edges := [], back_edges := [], rmw := none,
                 promise := false, deleted := false } ],
    hasCycles := false, oldCycles := false,
    rollbackvector := [], rmwrollbackvector := [] }

/-- C5 counterexample: re-adding the existing edge 0→1 is not a no-op: the rmw
side edge 2→1 is new, so node 2's forward list, node 1's back list and the
rollback undo log all change, refuting the claim that a duplicate add_edge
leaves the forward-edge list, the back-edge list and the undo log unchanged. -/
theorem c5_counterexample :
    1 ∈ (dupEdgeRmwState.nodeAt 0).edges ∧
    (addNodeEdge dupEdgeRmwState 0 1).2.rollbackvector = [2] ∧
    ((addNodeEdge dupEdgeRmwState 0 1).2.nodeAt 2).edges = [1] ∧
    ((addNodeEdge dupEdgeRmwState 0 1).2.nodeAt 1).back_edges = [0, 2] := by decide

end ClaimC5

section ClaimC9

/-- C9: `CycleGraph::mergeNodes` (and hence `resolvePromise` when a concrete
writer node exists) returns true only when the promise is compatible with the
write and `hasCycles` is false after the edge transfer; consequently, when the
graph was already marked cyclic before the call, the merge reports failure even
if the merge itself introduces no new cycle, because no step of the merge ever
lowers `hasCycles` and the return value is its negation. -/
theorem c9_merge_failure_conditions (compat : Nat → Nat → Bool) (fuel w p : Nat)
    (s : CycleGraphState) (mm : List Nat) :
    ((mergeNodes compat fuel w p s mm).1 = true →
        compat p w = true ∧ (mergeNodes compat fuel w p s mm).2.1.hasCycles = false) ∧
    (s.hasCycles = true → (mergeNodes compat fuel w p s mm).1 = false) := by
  have part1 : (mergeNodes compat fuel w p s mm).1 = true →
      compat p w = true ∧ (mergeNodes compat fuel w p s mm).2.1.hasCycles = false := by
    cases fuel with
    | zero => intro h; simp [mergeNodes_zero] at h
    | succ fuel =>
      rw [mergeNodes_succ]
      split_ifs with hc
      · rcases hb : mergeBackLoop compat fuel w p s mm with ⟨b1, s1, mm1⟩
        cases b1
        · simp only [hb]
          intro h; simp at h
        · simp only [hb]
          rcases hf : mergeForwardLoop compat fuel w p s1 mm1 with ⟨b2, s2, mm2⟩
          cases b2
          · simp only [hf]
            intro h; simp at h
          · simp only [hf]
            intro h
            refine ⟨hc, ?_⟩
            dsimp only at h ⊢
            simpa using h
      · intro h; simp at h
  refine ⟨part1, ?_⟩
  intro hs
  cases hres : (mergeNodes compat fuel w p s mm).1 with
  | false => rfl
  | true =>
    have h1 := (part1 hres).2
    have h2 := (merge_hasCycles_mono compat fuel).1 w p s mm hs
    rw [h1] at h2
    cases h2

/-- A two-node graph (concrete writer 0, compatible promise 1) whose `hasCycles`
flag is already raised before the merge. -/
def poisonedMergeState : CycleGraphState :=
  { nodes := [ { edges := [], back_edges := [], rmw := none,
                 promise := false, deleted := false },
               { edges := [], back_edges := [], rmw := none,
                 promise := true, deleted := false } ],
    hasCycles := true, oldCycles := true,
    rollbackvector := [], rmwrollbackvector := [] }

/-- Closed witness instantiating `c9_merge_failure_conditions`: an already-cyclic
graph makes the merge report failure although the merge adds no edge at all. -/
theorem c9_merge_failure_conditions_witness :
    (mergeNodes (fun _ _ => true) 5 0 1 poisonedMergeState []).1 = false :=
  (c9_merge_failure_conditions (fun _ _ => true) 5 0 1 poisonedMergeState []).2 rfl

end ClaimC9

section ClaimC1CX

/-- A committed graph with concrete writer 0, promise node 1, and concrete node 2
holding the committed edge 2→1; both undo logs are empty and
`oldCycles = hasCycles = false`, i.e. the state is at a transaction start. -/
def mergeTxnState : CycleGraphState :=
  { nodes := [ { edges := [], back_edges := [], rmw := none,
                 promise := false, deleted := false },
               { edges := [], back_edges := [2], rmw := none,
                 promise := true, deleted := false },
               { edges := [1], back_edges := [], rmw := none,
                 promise := false, deleted := false } ],
    hasCycles := false, oldCycles := false,
    rollbackvector := [], rmwrollbackvector := [] }

/-- C1 counterexample: starting a transaction at `mergeTxnState` and performing the
single public operation `resolve_promise`/`merge` (merging promise node 1 into
writer 0, which reports success), `rollbackChanges` does not restore the graph:
the committed edge 2→1 that the merge consumed is gone afterwards. This refutes
rollback soundness for sequences containing `resolve_promise`/merge. -/
theorem c1_counterexample :
    atTxnStart mergeTxnState ∧
    (mergeNodes (fun _ _ => true) 10 0 1 mergeTxnState []).1 = true ∧
    ((rollbackChanges (mergeNodes (fun _ _ => true) 10 0 1 mergeTxnState []).2.1).nodeAt 2).edges = [] ∧
    (mergeTxnState.nodeAt 2).edges = [1] := by decide

end ClaimC1CX

section ClaimC2CX

/-- The graph after calling `addRMWEdge 0 1` twice from a fresh two-node graph:
the second call is the "two RMWs read from the same write" case. -/
def rmwTwiceState : CycleGraphState :=
  applyTxnOps (mkInit 2) [TxnOp.addrmw 0 1, TxnOp.addrmw 0 1]

/-- The graph after `add_edge(0,1); add_edge(1,2); add_rmw_edge(0,2)` from a fresh
three-node graph: the rmw node 2 already had an incoming edge, so the unguarded
migration loop copies the edge 0→1 onto 2 as 2→1 and silently closes the cycle
1→2→1. -/
def migrationCycleState : CycleGraphState :=
  applyTxnOps (mkInit 3) [TxnOp.addedge 0 1, TxnOp.addedge 1 2, TxnOp.addrmw 0 2]

/-- C2 counterexample: the claimed "iff" fails in both directions. After a double
`add_rmw_edge(0, 1)` the `has_cycles` flag is raised, yet the graph — the single
edge 0→1 plus the rmw link 0→1 — has no cycle along forward + rmw edges; and
after `add_edge(0,1); add_edge(1,2); add_rmw_edge(0,2)` the unguarded edge
migration closes the real cycle 1→2→1 while `has_cycles` stays false. -/
theorem c2_counterexample :
    (rmwTwiceState.hasCycles = true ∧ ¬HasCycle rmwTwiceState) ∧
    (migrationCycleState.hasCycles = false ∧ HasCycle migrationCycleState) := by
  have h12 : stepRel migrationCycleState 1 2 := Or.inl (by decide)
  have h21 : stepRel migrationCycleState 2 1 := Or.inl (by decide)
  have hmig : migrationCycleState.hasCycles = false ∧ HasCycle migrationCycleState :=
    ⟨by decide, ⟨1, Relation.TransGen.head h12 (Relation.TransGen.single h21)⟩⟩
  refine ⟨⟨?_, ?_⟩, hmig⟩
  · decide
  · refine no_cycle_of_ascending _ ?_
    intro x y hxy
    match x with
    | 0 =>
      rcases hxy with hmem | hrmw
      · have he : (rmwTwiceState.nodeAt 0).edges = [1] := by decide
        rw [he] at hmem
        simp at hmem
        omega
      · have hr : (rmwTwiceState.nodeAt 0).rmw = some 1 := by decide
        rw [hr] at hrmw
        have : y = 1 := by injection hrmw with h; exact h.symm
        omega
    | 1 =>
      rcases hxy with hmem | hrmw
      · have he : (rmwTwiceState.nodeAt 1).edges = [] := by decide
        rw [he] at hmem
        simp at hmem
      · have hr : (rmwTwiceState.nodeAt 1).rmw = none := by decide
        rw [hr] at hrmw
        cases hrmw
    | n+2 =>
      have hdef : rmwTwiceState.nodeAt (n+2) = default := by
        refine nodeAt_out _ _ ?_
        have hlen : rmwTwiceState.nodes.length = 2 := by decide
        omega
      rcases hxy with hmem | hrmw
      · rw [hdef] at hmem
        simp [default] at hmem
      · rw [hdef] at hrmw
        cases hrmw

end ClaimC2CX

section ClaimC4

/-- C4 (amended): one iteration of the back-edge transfer loop of
`CycleGraph::mergeNodes`, for a compatible promise node p whose only edge is the
single back edge b→p, merged into concrete node w. Write sMid for the state
after `removeBackEdge` consumes that edge. Then:
(1) when b is a promise and the redirect would close a cycle — the test is
`checkReachable(w, b)`, i.e. w already reaches b, not "w reachable from b" as
the claim reads — b is appended to `mustMerge` (and the merge recurses on it);
(2) when b is a promise and w does not reach b, the edge is redirected by a raw
`CycleNode::addEdge`: the undo log and `hasCycles` are untouched, so no
reachability side effect runs;
(3) when b is concrete, the edge is redirected through `CycleGraph::addNodeEdge`:
the new edge is logged for rollback and `hasCycles` picks up the reachability
side effect. -/
theorem c4_merge_back_edge_cases (compat : Nat → Nat → Bool) (fuel w p b : Nat)
    (s : CycleGraphState) (mm : List Nat)
    (hcompat : compat p w = true)
    (hback : (s.nodeAt p).back_edges = [b])
    (hfwd : (s.nodeAt p).edges = [])
    (hbw : b ≠ w) (hbp : b ≠ p) (hwp : w ≠ p)
    (hblen : b < s.nodes.length) :
    (((removeBackEdge s p).2.nodeAt b).promise = true →
      checkReachable (removeBackEdge s p).2 w b = true →
      b ∈ (mergeNodes compat (fuel+1+1+1) w p s mm).2.2) ∧
    (((removeBackEdge s p).2.nodeAt b).promise = true →
      checkReachable (removeBackEdge s p).2 w b = false →
      (mergeNodes compat (fuel+1+1+1) w p s mm).2.1.rollbackvector = s.rollbackvector ∧
      (mergeNodes compat (fuel+1+1+1) w p s mm).2.1.hasCycles = s.hasCycles ∧
      w ∈ ((mergeNodes compat (fuel+1+1+1) w p s mm).2.1.nodeAt b).edges) ∧
    (((removeBackEdge s p).2.nodeAt b).promise = false →
      ((removeBackEdge s p).2.nodeAt b).rmw = none →
      w ∉ ((removeBackEdge s p).2.nodeAt b).edges →
      (mergeNodes compat (fuel+1+1+1) w p s mm).2.1.rollbackvector
        = s.rollbackvector ++ [b] ∧
      (mergeNodes compat (fuel+1+1+1) w p s mm).2.1.hasCycles
        = (s.hasCycles || checkReachable (removeBackEdge s p).2 w b) ∧
      w ∈ ((mergeNodes compat (fuel+1+1+1) w p s mm).2.1.nodeAt b).edges) := by
  have hplen : p < s.nodes.length := by
    by_contra hc
    rw [nodeAt_out s p (Nat.le_of_not_lt hc)] at hback
    exact absurd hback (by simp [default])
  have h1 : (removeBackEdge s p).1 = some b := by
    unfold removeBackEdge
    dsimp only
    rw [hback]
    rfl
  have hMidRoll : (removeBackEdge s p).2.rollbackvector = s.rollbackvector :=
    removeBackEdge_rollbackvector s p
  have hMidHC : (removeBackEdge s p).2.hasCycles = s.hasCycles :=
    removeBackEdge_hasCycles s p
  have hMidLen : (removeBackEdge s p).2.nodes.length = s.nodes.length :=
    removeBackEdge_length s p
  have hMidBackP : ((removeBackEdge s p).2.nodeAt p).back_edges = [] := by
    unfold removeBackEdge
    dsimp only
    rw [hback]
    show ((((s.setNode p _).setNode b _)).nodeAt p).back_edges = []
    rw [nodeAt_setNode]
    rw [if_neg (by intro hc; exact hbp hc.1)]
    rw [nodeAt_setNode]
    rw [if_pos ⟨rfl, hplen⟩]
    rfl
  have hMidEdgesP : ((removeBackEdge s p).2.nodeAt p).edges = [] := by
    unfold removeBackEdge
    dsimp only
    rw [hback]
    show ((((s.setNode p _).setNode b _)).nodeAt p).edges = []
    rw [nodeAt_setNode]
    rw [if_neg (by intro hc; exact hbp hc.1)]
    rw [nodeAt_setNode]
    rw [if_pos ⟨rfl, hplen⟩]
    exact hfwd
  have hne1 : ¬ ((s.nodeAt p).back_edges.isEmpty = true) := by
    rw [hback]; simp
  refine ⟨?_, ?_, ?_⟩
  · -- case 1: promise b, w reaches b: b joins mustMerge
    intro hpromB hreach
    refine mm_mem_mergeNodes_of_backs compat (fuel+1+1) w p s mm b hcompat ?_
    rw [mergeBackLoop_succ]
    rw [if_neg hne1]
    simp only [h1]
    rw [if_neg hbw]
    simp only [hpromB, hreach]
    simp only [if_true]
    rcases hmn : mergeNodes compat (fuel+1) w b (removeBackEdge s p).2 (mm ++ [b])
      with ⟨b1, s2, mm2⟩
    have hext1 : ∃ ext, mm2 = (mm ++ [b]) ++ ext := by
      obtain ⟨ext, he⟩ := (merge_mm_mono compat (fuel+1)).1 w b (removeBackEdge s p).2 (mm ++ [b])
      rw [hmn] at he
      exact ⟨ext, he⟩
    obtain ⟨ext1, he1⟩ := hext1
    cases b1
    · simp only [hmn]
      rw [he1]
      simp
    · simp only [hmn]
      obtain ⟨ext2, he2⟩ := (merge_mm_mono compat (fuel+1)).2.1 w p s2 mm2
      rw [he2, he1]
      simp
  · -- case 2: promise b, w does not reach b: raw addEdge, no log, no flag
    intro hpromB hreach
    have hbackE : ((addEdge (removeBackEdge s p).2 b w).2.nodeAt p).back_edges = [] := by
      rw [addEdge_nodeAt_back_ne _ b w (fun hc => hwp hc.symm)]
      exact hMidBackP
    have hedgeE : ((addEdge (removeBackEdge s p).2 b w).2.nodeAt p).edges = [] := by
      rw [addEdge_nodeAt_edges_ne _ b w (fun hc => hbp hc.symm)]
      exact hMidEdgesP
    have hbl2 : mergeBackLoop compat (fuel+1+1) w p s mm
        = (true, (addEdge (removeBackEdge s p).2 b w).2, mm) := by
      rw [mergeBackLoop_succ]
      rw [if_neg hne1]
      simp only [h1]
      rw [if_neg hbw]
      simp only [hpromB, hreach]
      simp only [if_true]
      rw [if_neg Bool.false_ne_true]
      rw [mergeBackLoop_succ]
      have hcond : ((addEdge (removeBackEdge s p).2 b w).2.nodeAt p).back_edges.isEmpty = true := by
        rw [hbackE]; rfl
      rw [if_pos hcond]
    have hfl2 : mergeForwardLoop compat (fuel+1+1) w p
          (addEdge (removeBackEdge s p).2 b w).2 mm
        = (true, (addEdge (removeBackEdge s p).2 b w).2, mm) := by
      rw [mergeForwardLoop_succ]
      have hcond : ((addEdge (removeBackEdge s p).2 b w).2.nodeAt p).edges.isEmpty = true := by
        rw [hedgeE]; rfl
      rw [if_pos hcond]
    rw [mergeNodes_succ, if_pos hcompat, hbl2]
    simp only [hfl2]
    refine ⟨?_, ?_, ?_⟩
    · show ((addEdge (removeBackEdge s p).2 b w).2.setNode p _).rollbackvector
        = s.rollbackvector
      rw [show ∀ (t : CycleGraphState) (n : Nat) (d : CycleNodeData),
          (t.setNode n d).rollbackvector = t.rollbackvector from fun _ _ _ => rfl]
      rw [addEdge_rollbackvector]
      exact hMidRoll
    · show ((addEdge (removeBackEdge s p).2 b w).2.setNode p _).hasCycles = s.hasCycles
      rw [setNode_hasCycles, addEdge_hasCycles]
      exact hMidHC
    · show w ∈ (((addEdge (removeBackEdge s p).2 b w).2.setNode p _).nodeAt b).edges
      rw [nodeAt_setNode]
      rw [if_neg (by intro hc; exact hbp hc.1.symm)]
      refine addEdge_mem_self _ b w ?_
      rw [hMidLen]
      exact hblen
  · -- case 3: concrete b: addNodeEdge logs the edge and runs the cycle check
    intro hpromB hrmwB hnotmem
    have hnew : w ∉ ((maybeRaiseCycle (removeBackEdge s p).2 w b).nodeAt b).edges := by
      rw [maybeRaiseCycle_nodeAt]
      exact hnotmem
    have hfst : (addEdge (maybeRaiseCycle (removeBackEdge s p).2 w b) b w).1 = true :=
      addEdge_fst_of_not_mem _ b w hnew
    have hrmwa1 : ((logIfAdded b (addEdge (maybeRaiseCycle (removeBackEdge s p).2 w b) b w)).2.nodeAt b).rmw = none := by
      rw [logIfAdded_nodeAt, addEdge_nodeAt_rmw, maybeRaiseCycle_nodeAt]
      exact hrmwB
    have hNE : addNodeEdge (removeBackEdge s p).2 b w
        = logIfAdded b (addEdge (maybeRaiseCycle (removeBackEdge s p).2 w b) b w) := by
      unfold addNodeEdge
      dsimp only
      simp only [hrmwa1]
    have hNERoll : (addNodeEdge (removeBackEdge s p).2 b w).2.rollbackvector
        = s.rollbackvector ++ [b] := by
      rw [hNE, logIfAdded_rollbackvector_of_true _ _ hfst, addEdge_rollbackvector,
        maybeRaiseCycle_rollbackvector, hMidRoll]
    have hNEHC : (addNodeEdge (removeBackEdge s p).2 b w).2.hasCycles
        = (s.hasCycles || checkReachable (removeBackEdge s p).2 w b) := by
      rw [hNE, logIfAdded_hasCycles, addEdge_hasCycles, maybeRaiseCycle_hasCycles_eq,
        hMidHC]
    have hNEMem : w ∈ ((addNodeEdge (removeBackEdge s p).2 b w).2.nodeAt b).edges := by
      rw [hNE, logIfAdded_nodeAt]
      refine addEdge_mem_self _ b w ?_
      rw [maybeRaiseCycle_nodes, hMidLen]
      exact hblen
    have hbackE : ((addNodeEdge (removeBackEdge s p).2 b w).2.nodeAt p).back_edges = [] := by
      rw [hNE, logIfAdded_nodeAt, addEdge_nodeAt_back_ne _ b w (fun hc => hwp hc.symm),
        maybeRaiseCycle_nodeAt]
      exact hMidBackP
    have hedgeE : ((addNodeEdge (removeBackEdge s p).2 b w).2.nodeAt p).edges = [] := by
      rw [hNE, logIfAdded_nodeAt, addEdge_nodeAt_edges_ne _ b w (fun hc => hbp hc.symm),
        maybeRaiseCycle_nodeAt]
      exact hMidEdgesP
    have hbl3 : mergeBackLoop compat (fuel+1+1) w p s mm
        = (true, (addNodeEdge (removeBackEdge s p).2 b w).2, mm) := by
      rw [mergeBackLoop_succ]
      rw [if_neg hne1]
      simp only [h1]
      rw [if_neg hbw]
      simp only [hpromB]
      rw [if_neg Bool.false_ne_true]
      rw [mergeBackLoop_succ]
      have hcond : ((addNodeEdge (removeBackEdge s p).2 b w).2.nodeAt p).back_edges.isEmpty = true := by
        rw [hbackE]; rfl
      rw [if_pos hcond]
    have hfl3 : mergeForwardLoop compat (fuel+1+1) w p
          (addNodeEdge (removeBackEdge s p).2 b w).2 mm
        = (true, (addNodeEdge (removeBackEdge s p).2 b w).2, mm) := by
      rw [mergeForwardLoop_succ]
      have hcond : ((addNodeEdge (removeBackEdge s p).2 b w).2.nodeAt p).edges.isEmpty = true := by
        rw [hedgeE]; rfl
      rw [if_pos hcond]
    rw [mergeNodes_succ, if_pos hcompat, hbl3]
    simp only [hfl3]
    refine ⟨?_, ?_, ?_⟩
    · show ((addNodeEdge (removeBackEdge s p).2 b w).2.setNode p _).rollbackvector
        = s.rollbackvector ++ [b]
      rw [show ∀ (t : CycleGraphState) (n : Nat) (d : CycleNodeData),
          (t.setNode n d).rollbackvector = t.rollbackvector from fun _ _ _ => rfl]
      exact hNERoll
    · show ((addNodeEdge (removeBackEdge s p).2 b w).2.setNode p _).hasCycles
        = (s.hasCycles || checkReachable (removeBackEdge s p).2 w b)
      rw [setNode_hasCycles]
      exact hNEHC
    · show w ∈ (((addNodeEdge (removeBackEdge s p).2 b w).2.setNode p _).nodeAt b).edges
      rw [nodeAt_setNode]
      rw [if_neg (by intro hc; exact hbp hc.1.symm)]
      exact hNEMem

/-- A merge scenario in which the back-edge source 2 is a promise that reaches the
writer 0 (edge 2→0) while 0 does not reach 2: node 1 is the promise being
merged, with the single back edge 2→1. -/
def c4MergeState : CycleGraphState :=
  { nodes := [ { edges := [], back_edges := [2], rmw := none,
                 promise := false, deleted := false },
               { edges := [], back_edges := [2], rmw := none,
                 promise := true, deleted := false },
               { edges := [1, 0], back_edges := [], rmw := none,
                 promise := true, deleted := false } ],
    hasCycles := false, oldCycles := false,
    rollbackvector := [], rmwrollbackvector := [] }

/-- C4 counterexample: merging promise 1 into writer 0, the back-edge source 2 is
a promise and the writer IS reachable from 2 (edge 2→0), yet `mustMerge` stays
empty — the code recurses only when `checkReachable(w, b)` holds, i.e. when w
reaches b, which is the opposite direction from the claim's "w_node is already
reachable from b". -/
theorem c4_counterexample :
    ((removeBackEdge c4MergeState 1).2.nodeAt 2).promise = true ∧
    checkReachable (removeBackEdge c4MergeState 1).2 2 0 = true ∧
    checkReachable (removeBackEdge c4MergeState 1).2 0 2 = false ∧
    (mergeNodes (fun _ _ => true) 10 0 1 c4MergeState []).1 = true ∧
    (mergeNodes (fun _ _ => true) 10 0 1 c4MergeState []).2.2 = [] := by decide

/-- Closed witness instantiating `c4_merge_back_edge_cases`, case (3): a concrete
back-edge source is redirected through `addNodeEdge`, so the undo log gains an
entry. -/
theorem c4_merge_back_edge_cases_witness :
    (mergeNodes (fun _ _ => true) 7 0 1 mergeTxnState []).2.1.rollbackvector = [2] := by
  have h := (c4_merge_back_edge_cases (fun _ _ => true) 4 0 1 2 mergeTxnState []
    (by decide) (by decide) (by decide) (by decide) (by decide) (by decide)
    (by decide)).2.2 (by decide) (by decide) (by decide)
  simpa using h.1

end ClaimC4

end C11Tester
